import Mathlib

/-!
Verification of the self-indexing JSON document engine
(`src/unfccc/etf/json.py`, `countrydata.py`, `metadata.py`).

Shallow embedding conventions:
* Python JSON values (as produced by `json.load`) are modelled by the
  inductive type `JSON`: objects are ordered association lists (Python
  dicts preserve insertion order), arrays are lists, scalars are
  strings, integers, booleans and null.  Numbers are modelled as `Int`
  (no claim depends on float arithmetic).
* Object identity (`id()` in Python): `json.load` can never produce a
  shared or cyclic structure, so under the document tree invariant a
  node's identity is exactly its position (path of steps) from the
  root.  Identity-keyed caches and comparisons are therefore modelled
  positionally.
* Exceptions are modelled with `Except`/`Option`: an uncaught Python
  exception is `Except.error`, a caught one follows the handler.
-/

namespace ETF

inductive JSON where
  | obj  : List (String × JSON) → JSON
  | arr  : List JSON → JSON
  | str  : String → JSON
  | num  : Int → JSON
  | bool : Bool → JSON
  | null : JSON

mutual

/-- Structural (value) equality of JSON data, as Python `==` compares
dicts/lists/scalars recursively. -/
def beqJ : JSON → JSON → Bool
  | .obj fs, .obj gs => beqFs fs gs
  | .arr xs, .arr ys => beqAs xs ys
  | .str a, .str b => a = b
  | .num a, .num b => a = b
  | .bool a, .bool b => a = b
  | .null, .null => true
  | _, _ => false

def beqFs : List (String × JSON) → List (String × JSON) → Bool
  | [], [] => true
  | (k, v) :: fs, (k2, v2) :: gs => k = k2 && beqJ v v2 && beqFs fs gs
  | _, _ => false

def beqAs : List JSON → List JSON → Bool
  | [], [] => true
  | x :: xs, y :: ys => beqJ x y && beqAs xs ys
  | _, _ => false

end

theorem beqJ_iff : ∀ a b, beqJ a b = true ↔ a = b := by
  have main :=
    beqJ.induct
      (fun a b => beqJ a b = true ↔ a = b)
      (fun xs ys => beqAs xs ys = true ↔ xs = ys)
      (fun fs gs => beqFs fs gs = true ↔ fs = gs)
  intro a b
  apply main
  · intro fs gs ih
    simp [beqJ, ih]
  · intro xs ys ih
    simp [beqJ, ih]
  · intro a b
    simp [beqJ]
  · intro a b
    simp [beqJ]
  · intro a b
    simp [beqJ]
  · simp [beqJ]
  · intro t x h1 h2 h3 h4 h5 h6
    cases t <;> cases x <;>
      first
        | exact (h1 _ _ rfl rfl).elim
        | exact (h2 _ _ rfl rfl).elim
        | exact (h3 _ _ rfl rfl).elim
        | exact (h4 _ _ rfl rfl).elim
        | exact (h5 _ _ rfl rfl).elim
        | exact (h6 rfl rfl).elim
        | simp [beqJ]
  · simp [beqFs]
  · intro k v fs k2 v2 gs ih1 ih2
    simp [beqFs, ih1, ih2]
  · intro t x hA hB
    match t, x with
    | [], [] => exact (hA rfl rfl).elim
    | [], (k2, v2) :: gs => simp [beqFs]
    | (k, v) :: fs, [] => simp [beqFs]
    | (k, v) :: fs, (k2, v2) :: gs => exact (hB _ _ _ _ _ _ rfl rfl).elim
  · simp [beqAs]
  · intro x xs y ys ih1 ih2
    simp [beqAs, ih1, ih2]
  · intro t x hA hB
    match t, x with
    | [], [] => exact (hA rfl rfl).elim
    | [], y :: ys => simp [beqAs]
    | x2 :: xs, [] => simp [beqAs]
    | x2 :: xs, y :: ys => exact (hB _ _ _ _ rfl rfl).elim

instance : DecidableEq JSON := fun a b =>
  decidable_of_iff (beqJ a b = true) (beqJ_iff a b)

/-- One parent→child edge selector: object membership under a field
name, or array membership at an index. -/
inductive Step where
  | fld : String → Step
  | idx : Nat → Step
deriving DecidableEq, Repr

/-- A node position in the document: the unique chain of selectors
from the root.  Under the tree invariant this is the node's identity. -/
abbrev JPath := List Step

/-- `JSONTreeWalker.is_json_container`: dicts and lists are containers. -/
def isContainer : JSON → Bool
  | .obj _ => true
  | .arr _ => true
  | _ => false

/-- `JSONTreeWalker.is_object`: only dicts are objects. -/
def isObject : JSON → Bool
  | .obj _ => true
  | _ => false

/-- Python `dict.__getitem__` / `dict.get` by key (first occurrence;
dicts produced by `json.load` have unique keys). -/
def lookupField : List (String × JSON) → String → Option JSON
  | [], _ => none
  | (k, v) :: fs, key => if k = key then some v else lookupField fs key

/-- Structural descent by one selector: the child of a container at a
given field name / index. -/
def getStep : JSON → Step → Option JSON
  | .obj fs, .fld k => lookupField fs k
  | .arr xs, .idx i => xs[i]?
  | _, _ => none

/-- The node of a document at a position (root-to-node descent). -/
def getAt : JSON → JPath → Option JSON
  | j, [] => some j
  | j, s :: p => match getStep j s with
      | some c => getAt c p
      | none => none

/-- Children of a container in document order, as `(selector, child)`
pairs — `JSONTreeWalker._iter_json_children` (scalars have none; the
walker raises on them, but only ever descends into containers). -/
def jsonChildren : JSON → List (Step × JSON)
  | .obj fs => fs.map (fun kv => (.fld kv.1, kv.2))
  | .arr xs => xs.enum.map (fun ix => (Step.idx ix.1, ix.2))
  | _ => []

mutual

def sizeJ : JSON → Nat
  | .obj fs => 1 + sizeLF fs
  | .arr xs => 1 + sizeLA xs
  | .str _ => 1
  | .num _ => 1
  | .bool _ => 1
  | .null => 1

def sizeLF : List (String × JSON) → Nat
  | [] => 0
  | (_, v) :: fs => sizeJ v + sizeLF fs

def sizeLA : List JSON → Nat
  | [] => 0
  | x :: xs => sizeJ x + sizeLA xs

end

/-- The container children of a container, in document order —
`JSONTreeWalker._walk_down` yields them `reversed` and
`_traverse_graph` pops from the same end of the queue it extends, so
the net visitation order is this natural left-to-right order. -/
def containerChildren : JSON → List JSON
  | .obj fs => (fs.map Prod.snd).filter isContainer
  | .arr xs => xs.filter isContainer
  | _ => []

theorem sizeJ_pos (j : JSON) : 1 ≤ sizeJ j := by
  cases j <;> simp [sizeJ]

theorem sizeLF_values (fs : List (String × JSON)) :
    ((fs.map Prod.snd).map sizeJ).sum = sizeLF fs := by
  induction fs with
  | nil => simp [sizeLF]
  | cons kv fs ih =>
      cases kv
      simp [sizeLF, List.map_map] at ih ⊢
      omega

theorem sizeLA_eq (xs : List JSON) : (xs.map sizeJ).sum = sizeLA xs := by
  induction xs with
  | nil => simp [sizeLA]
  | cons x xs ih => simp [sizeLA, ih]

theorem sum_filter_le (p : JSON → Bool) (xs : List JSON) :
    ((xs.filter p).map sizeJ).sum ≤ (xs.map sizeJ).sum := by
  induction xs with
  | nil => simp
  | cons x xs ih =>
      by_cases h : p x <;> simp [List.filter_cons, h] <;> omega

theorem containerChildren_size (j : JSON) :
    ((containerChildren j).map sizeJ).sum < sizeJ j := by
  cases j with
  | obj fs =>
      have h := sum_filter_le isContainer (fs.map Prod.snd)
      simp only [containerChildren, sizeJ]
      have := sizeLF_values fs
      omega
  | arr xs =>
      have h := sum_filter_le isContainer xs
      simp only [containerChildren, sizeJ]
      have := sizeLA_eq xs
      omega
  | str s => simp [containerChildren, sizeJ]
  | num n => simp [containerChildren, sizeJ]
  | bool b => simp [containerChildren, sizeJ]
  | null => simp [containerChildren, sizeJ]

/-- The worklist loop of `JSONTreeWalker._traverse_graph` composed
with the filter in `JSONTreeWalker.traverse`: pop the top of the
stack, yield it when it is an object, push its container children so
that the first child is popped next.  The source also records a
visited set keyed on `id()` and carries ancestor chains; on a tree
(the document invariant — `json.load` can produce no sharing) every
node is pushed exactly once, so the visited set never suppresses a
node, and `traverse` consumes only the head of each chain. -/
def stackRun (st : List JSON) : List JSON :=
  match st with
  | [] => []
  | j :: rest =>
      (if isObject j then [j] else []) ++ stackRun (containerChildren j ++ rest)
termination_by (st.map sizeJ).sum
decreasing_by
  have h := containerChildren_size x
  simp only [List.map_append, List.sum_append, List.map_cons, List.sum_cons]
  omega

/-- `JSONTreeWalker.traverse`: guard on the start being a container,
then run the worklist. -/
def traverse (start : JSON) : List JSON :=
  if isContainer start then stackRun [start] else []

mutual

/-- Spec-side definition (for refinement comparison with `traverse`):
the deterministic depth-first pre-order sequence of object containers
of a subtree, visiting children in natural left-to-right order, with
the subtree root yielded first when it is itself an object. -/
def preorderObjs : JSON → List JSON
  | .obj fs => .obj fs :: preorderFs fs
  | .arr xs => preorderArr xs
  | .str _ => []
  | .num _ => []
  | .bool _ => []
  | .null => []

def preorderFs : List (String × JSON) → List JSON
  | [] => []
  | (_, v) :: fs => preorderObjs v ++ preorderFs fs

def preorderArr : List JSON → List JSON
  | [] => []
  | x :: xs => preorderObjs x ++ preorderArr xs

end

theorem preorderFs_flat (fs : List (String × JSON)) :
    preorderFs fs = ((fs.map Prod.snd).filter isContainer).flatMap preorderObjs := by
  induction fs with
  | nil => simp [preorderFs]
  | cons kv fs ih =>
      cases kv with
      | mk k v =>
          by_cases h : isContainer v
          · simp [preorderFs, List.filter_cons, h, ih]
          · cases v <;> simp_all [isContainer, preorderFs, List.filter_cons, preorderObjs]

theorem preorderArr_flat (xs : List JSON) :
    preorderArr xs = (xs.filter isContainer).flatMap preorderObjs := by
  induction xs with
  | nil => simp [preorderArr]
  | cons x xs ih =>
      by_cases h : isContainer x
      · simp [preorderArr, List.filter_cons, h, ih]
      · cases x <;> simp_all [isContainer, preorderArr, List.filter_cons, preorderObjs]

theorem preorderObjs_unfold (j : JSON) :
    preorderObjs j =
      (if isObject j then [j] else []) ++ (containerChildren j).flatMap preorderObjs := by
  cases j <;>
    simp [preorderObjs, isObject, containerChildren, preorderFs_flat, preorderArr_flat]

theorem stackRun_flat (st : List JSON) :
    stackRun st = st.flatMap preorderObjs := by
  induction st using stackRun.induct with
  | case1 => simp [stackRun]
  | case2 j rest ih =>
      rw [stackRun, ih]
      simp only [List.flatMap_cons, List.flatMap_append]
      rw [preorderObjs_unfold]
      simp [List.append_assoc]

theorem traverse_eq_preorderObjs (start : JSON) :
    traverse start = preorderObjs start := by
  by_cases h : isContainer start
  · rw [traverse, if_pos h, stackRun_flat]
    simp
  · cases start <;> simp_all [isContainer, traverse, preorderObjs]

/-- C2 counterexample: the claim says `traverse(start)` excludes
`start` itself, but when `start` is an object container the source
yields it first: `_traverse_graph` pops the start chain `(start,)`,
and `traverse` yields every popped item that is an object.  At the
concrete input `{}` (an empty object) the traversal is `[start]`,
which contains `start`. -/
theorem c2_counterexample :
    traverse (JSON.obj []) = [JSON.obj []] := by
  simp [traverse, isContainer, stackRun, containerChildren, isObject]

/-- C2 (amended): for every container `start`, `traverse start` is
exactly the deterministic depth-first pre-order sequence of the object
containers of the subtree rooted at `start` — objects only (arrays and
scalars are never yielded), children in natural left-to-right
document order, each node of the tree visited exactly once, and
*including* `start` itself whenever `start` is an object container
(for a non-container start the sequence is empty).  Restartability is
determinism: `traverse` is a pure function of the unchanged
document. -/
theorem c2_traverse_is_preorder (start : JSON) :
    traverse start = preorderObjs start :=
  traverse_eq_preorderObjs start


/-! ### Paths: rendering (`json_path`), parsing (`parse_json_path`), resolution (`locate`) -/

/-- ASCII fragment of the regex class `\w` (letters, digits,
underscore), the only fragment the round-trip hypotheses and the
counterexamples use. -/
def isWordChar (c : Char) : Bool := c.isAlphanum || c = '_'

/-- Decimal digit character. -/
def digitChar : Nat → Char
  | 0 => '0' | 1 => '1' | 2 => '2' | 3 => '3' | 4 => '4'
  | 5 => '5' | 6 => '6' | 7 => '7' | 8 => '8' | _ => '9'

/-- Decimal rendering of a natural number (the text produced by
Python string interpolation of an `int` index).  The first argument is
structural-recursion fuel; `natDigits` supplies `n` itself, which
always suffices since the number of digits of `n` is at most `n + 1`. -/
def natDigitsAux : Nat → Nat → List Char → List Char
  | 0, n, acc => digitChar n :: acc
  | fuel + 1, n, acc =>
      if n < 10 then digitChar n :: acc
      else natDigitsAux fuel (n / 10) (digitChar (n % 10) :: acc)

def natDigits (n : Nat) : List Char := natDigitsAux n n []

/-- Numeric value of a digit character. -/
def digitVal (c : Char) : Nat := c.toNat - 48

/-- Python `int()` of a digit string (the `int(index)` conversion in
`parse_json_path`). -/
def decAux (a : Nat) (l : List Char) : Nat :=
  l.foldl (fun x c => 10 * x + digitVal c) a

def decToNat (l : List Char) : Nat := decAux 0 l

/-- One component of a parsed path, as `parse_json_path` builds it:
a string key (group `\w+`) or an integer index (group `\[(\d+)\]`). -/
inductive PKey where
  | key : String → PKey
  | index : Nat → PKey
deriving DecidableEq, Repr

/-- The scan loop of `parse_json_path`: `re.findall` of the pattern
`\.?(\w+)|\[(\d+)\]` over the characters, appending the key for a
word-group match and `int(index)` for an index-group match.  `findall`
tries a match at each position (first alternative first, `\w+` and
`\d+` greedy) and advances one character on failure, silently skipping
unmatchable characters. -/
theorem dropWhile_length_le (p : Char → Bool) (l : List Char) :
    (l.dropWhile p).length ≤ l.length := by
  induction l with
  | nil => simp
  | cons c cs ih =>
      by_cases h : p c
      · simp [List.dropWhile_cons, h]; omega
      · simp [List.dropWhile_cons, h]

theorem tail_length_le (l : List Char) : l.tail.length ≤ l.length := by
  cases l <;> simp

def scan (cs : List Char) : List PKey :=
  match cs with
  | [] => []
  | c :: rest =>
    if isWordChar c then
      -- `\.?` matches empty, `\w+` takes the maximal word run
      .key (String.mk (c :: rest.takeWhile isWordChar)) ::
        scan (rest.dropWhile isWordChar)
    else if c = '.' then
      match rest with
      | [] => []
      | r :: rs =>
          if isWordChar r then
            -- `\.?` consumes the dot, `\w+` the following word run
            .key (String.mk (r :: rs.takeWhile isWordChar)) ::
              scan (rs.dropWhile isWordChar)
          else scan (r :: rs)  -- no match at the dot: advance one position
    else if c = '[' then
      if (rest.takeWhile Char.isDigit).isEmpty then
        scan rest  -- `[]` with no digits: no match at the bracket
      else if (rest.dropWhile Char.isDigit).head? = some ']' then
        .index (decToNat (rest.takeWhile Char.isDigit)) ::
          scan (rest.dropWhile Char.isDigit).tail
      else scan rest  -- unterminated index: no match at the bracket
    else scan rest    -- unmatchable character, skipped
termination_by cs.length
decreasing_by
  all_goals simp only [List.length_cons]
  all_goals
    first
      | omega
      | exact Nat.lt_succ_of_le (dropWhile_length_le _ _)
      | exact lt_of_le_of_lt (dropWhile_length_le _ _) (by omega)
      | exact Nat.lt_succ_of_le (le_trans (tail_length_le _) (dropWhile_length_le _ _))

/-- `JSONTreeWalker.parse_json_path`. -/
def parse_json_path (s : String) : List PKey := scan s.data

/-- The subscription loop of `JSONTree.locate`: repeatedly apply
`item = item[key]`, returning `None` (`Except.ok none`) on a caught
`IndexError`/`KeyError`, and propagating a `TypeError`
(`Except.error`) which the source does not catch.  Alongside the
current value it tracks the current document position — the identity
of the object `locate` will return — which becomes `none` once the
walk leaves the document (Python string indexing builds a fresh
one-character string). -/
def locateAux : JSON → Option JPath → List PKey → Except Unit (Option (Option JPath × JSON))
  | j, posq, [] => .ok (some (posq, j))
  | j, posq, pk :: rest =>
      match j, pk with
      | .obj fs, .key s =>
          (match lookupField fs s with
            | some v => locateAux v (posq.map (fun p => p ++ [Step.fld s])) rest
            | none => .ok none)           -- KeyError, caught
      | .obj _, .index _ => .ok none      -- dict[int]: KeyError (JSON object keys are strings), caught
      | .arr xs, .index n =>
          (match xs[n]? with
            | some v => locateAux v (posq.map (fun p => p ++ [Step.idx n])) rest
            | none => .ok none)           -- IndexError, caught
      | .arr _, .key _ => .error ()       -- TypeError: list indices must be integers — not caught
      | .str s, .index n =>
          (match s.data[n]? with
            | some ch => locateAux (.str (String.mk [ch])) none rest
            | none => .ok none)           -- IndexError, caught
      | .str _, .key _ => .error ()       -- TypeError
      | _, _ => .error ()                 -- int/bool/None are not subscriptable: TypeError

/-- `JSONTree.locate` (its `functools.cache` is semantically
transparent over an unmutated document). -/
def locate (tree : JSON) (path : String) : Except Unit (Option (Option JPath × JSON)) :=
  locateAux tree (some []) (parse_json_path path)

/-- `list.index(child)` as used by `_get_json_key` for array parents:
the first index whose element compares equal to the child
(`PyObject_RichCompareBool` short-circuits on identity and the child
itself compares equal to itself, so the scan stops at the first
value-equal element). -/
def firstEqIdx (xs : List JSON) (c : JSON) : Nat :=
  xs.findIdx (fun y => y = c)

/-- `_get_json_key` for one parent→child edge (the child is the one
at selector `s` of `j`): `.<key>` for an object edge — the source
scans for the unique key whose value `is` the child, which under the
tree invariant is the child's own field name — and `[<index>]` for an
array edge, where the source uses `list.index`, i.e. `firstEqIdx`. -/
def renderKey (j : JSON) (s : Step) : List Char :=
  match j, s with
  | .obj _, .fld k => '.' :: k.data
  | .arr xs, .idx i =>
      match xs[i]? with
      | some c => '[' :: (natDigits (firstEqIdx xs c) ++ [']'])
      | none => []
  | _, _ => []

def renderSteps (j : JSON) : JPath → List Char
  | [] => []
  | s :: p =>
      match getStep j s with
      | some c => renderKey j s ++ renderSteps c p
      | none => []    -- not a position of the document; unreachable under validity

/-- The ancestor chain (root first, direct parent last) of a valid
position, exactly the tuple `JSONTreeWalker.parents` returns: the
upward referrer search, on a tree, follows the unique parent edges
and succeeds exactly when it reaches the `JSONTreeRoot`. -/
def ancestorsAux (j : JSON) (acc : List JSON) : JPath → Option (List JSON)
  | [] => some acc.reverse
  | s :: p =>
      match getStep j s with
      | some c => ancestorsAux c (j :: acc) p
      | none => none

def ancestorsAt (root : JSON) (p : JPath) : Option (List JSON) :=
  ancestorsAux root [] p

/-- An item the walker can be asked about: a node of the document
(identified by its position — its identity), or a detached container,
i.e. one not reachable from the document root (no chain of container
referrers from it ends at the `JSONTreeRoot`). -/
inductive WItem where
  | inDoc : JPath → WItem
  | detached : JSON → WItem

/-- `JSONTreeWalker.parents`: for a document node, the ancestor chain
from the root to the direct parent (for the root itself, the empty
tuple — the root is the `JSONTreeRoot`, so its own chain `(root,)`
already terminates the search and `chain[:-1]` is empty).  For a
detached item the upward search exhausts the referrer graph without
meeting a `JSONTreeRoot` and the source returns `None`. -/
def parents (root : JSON) : WItem → Option (List JSON)
  | .inDoc p => ancestorsAt root p
  | .detached _ => none

/-- `JSONTreeWalker.json_path`: join the selectors over
`pairwise(parents + (item,))` when `parents` is truthy (a non-empty
tuple); when `parents` is `None` (unreachable item) or the empty tuple
(the root itself), return the sentinel. -/
def json_path (root : JSON) (it : WItem) : String :=
  match it, parents root it with
  | .inDoc p, some (_ :: _) => String.mk (renderSteps root p)
  | _, _ => "<broken_json_path>"

/-- A non-empty ASCII word (`\w+`) string. -/
def wordString (s : String) : Bool := !s.data.isEmpty && s.data.all isWordChar

mutual

/-- Document hygiene for the amended round-trip: every object key is a
non-empty ASCII word string. -/
def wordKeysOk : JSON → Bool
  | .obj fs => wordKeysFs fs
  | .arr xs => wordKeysAs xs
  | .str _ => true
  | .num _ => true
  | .bool _ => true
  | .null => true

def wordKeysFs : List (String × JSON) → Bool
  | [] => true
  | (k, v) :: fs => wordString k && wordKeysOk v && wordKeysFs fs

def wordKeysAs : List JSON → Bool
  | [] => true
  | x :: xs => wordKeysOk x && wordKeysAs xs

end

mutual

/-- Document hygiene for the amended round-trip: no array holds two
value-equal elements (so `list.index` cannot be diverted to an earlier
sibling). -/
def distinctArrays : JSON → Bool
  | .obj fs => distinctFs fs
  | .arr xs => distinctAs xs
  | .str _ => true
  | .num _ => true
  | .bool _ => true
  | .null => true

def distinctFs : List (String × JSON) → Bool
  | [] => true
  | (_, v) :: fs => distinctArrays v && distinctFs fs

def distinctAs : List JSON → Bool
  | [] => true
  | x :: xs => !(xs.contains x) && distinctArrays x && distinctAs xs

end



/-- C10: for the document root itself, `parents` returns the empty
chain — the root is the `JSONTreeRoot`, so its one-element search
chain immediately qualifies and `chain[:-1]` is empty — and
`json_path`, which tests `parents` for truthiness, treats that empty
tuple like a failure and returns the `<broken_json_path>` sentinel
even though the root is trivially reachable. -/
theorem c10_root_sentinel (root : JSON) :
    parents root (.inDoc []) = some [] ∧
    json_path root (.inDoc []) = "<broken_json_path>" :=
  ⟨rfl, rfl⟩

/-- C9: for a container not reachable from the document root, the
upward referrer search of `parents` never meets a `JSONTreeRoot`, so
`parents` reports failure by returning `None` (no chain), and
`json_path` recovers by returning the `<broken_json_path>` sentinel
string — both are total functions here, so no exception escapes to the
caller. -/
theorem c9_unreachable_sentinel (root x : JSON) :
    parents root (.detached x) = none ∧
    json_path root (.detached x) = "<broken_json_path>" :=
  ⟨rfl, rfl⟩

set_option maxRecDepth 4000 in
set_option maxHeartbeats 1000000 in
/-- C1 counterexample: three documents satisfying the tree invariant
with a container reachable from the root whose produced path does not
resolve back to it.  (1) The root itself: `json_path` yields the
sentinel and `locate` of the sentinel finds nothing.  (2) A key with a
space (`"a b"`): the `\w+` parser splits it, and resolution fails.
(3) Two value-equal array elements: `list.index` diverts the rendered
index to the earlier duplicate, so resolution lands on the *other*
object — value-equal but a different identity (position `[0]`, not
`[1]`). -/
theorem c1_counterexample :
    (getAt (JSON.obj [("a", JSON.obj [])]) [] = some (JSON.obj [("a", JSON.obj [])]) ∧
      locate (JSON.obj [("a", JSON.obj [])])
        (json_path (JSON.obj [("a", JSON.obj [])]) (.inDoc [])) = .ok none ∧
      (Except.ok none : Except Unit (Option (Option JPath × JSON))) ≠
        .ok (some (some [], JSON.obj [("a", JSON.obj [])]))) ∧
    (getAt (JSON.obj [("a b", JSON.obj [])]) [Step.fld "a b"] = some (JSON.obj []) ∧
      locate (JSON.obj [("a b", JSON.obj [])])
        (json_path (JSON.obj [("a b", JSON.obj [])]) (.inDoc [Step.fld "a b"])) = .ok none ∧
      (Except.ok none : Except Unit (Option (Option JPath × JSON))) ≠
        .ok (some (some [Step.fld "a b"], JSON.obj []))) ∧
    (getAt (JSON.obj [("a", JSON.arr [JSON.obj [("x", JSON.null)], JSON.obj [("x", JSON.null)]])])
        [Step.fld "a", Step.idx 1] = some (JSON.obj [("x", JSON.null)]) ∧
      locate (JSON.obj [("a", JSON.arr [JSON.obj [("x", JSON.null)], JSON.obj [("x", JSON.null)]])])
        (json_path (JSON.obj [("a", JSON.arr [JSON.obj [("x", JSON.null)], JSON.obj [("x", JSON.null)]])])
          (.inDoc [Step.fld "a", Step.idx 1])) =
        .ok (some (some [Step.fld "a", Step.idx 0], JSON.obj [("x", JSON.null)])) ∧
      (some [Step.fld "a", Step.idx 0] : Option JPath) ≠ some [Step.fld "a", Step.idx 1]) := by
  refine ⟨⟨by decide, ?_, by simp⟩, ⟨by decide, ?_, by simp⟩, ⟨by decide, ?_, by decide⟩⟩
  · simp [locate, parse_json_path, json_path, parents, ancestorsAt, ancestorsAux, getStep,
      renderSteps, lookupField, scan, isWordChar, decToNat, decAux, digitVal, locateAux]
  · rw [(by decide :
      json_path (JSON.obj [("a b", JSON.obj [])]) (.inDoc [Step.fld "a b"]) = ".a b")]
    simp [locate, parse_json_path, scan, isWordChar, decToNat, decAux, digitVal,
      locateAux, lookupField]
  · rw [(by decide :
      json_path (JSON.obj [("a", JSON.arr [JSON.obj [("x", JSON.null)], JSON.obj [("x", JSON.null)]])])
        (.inDoc [Step.fld "a", Step.idx 1]) = ".a[0]")]
    simp [locate, parse_json_path, scan, isWordChar, decToNat, decAux, digitVal,
      locateAux, lookupField]


/-! ### Round-trip lemmas: decimal digits -/

theorem digitChar_isDigit (k : Nat) : (digitChar k).isDigit = true := by
  unfold digitChar
  split <;> decide

theorem digitVal_digitChar (k : Nat) (h : k < 10) :
    digitVal (digitChar k) = k := by
  interval_cases k <;> decide

theorem natDigitsAux_acc (fuel n : Nat) (acc : List Char) :
    natDigitsAux fuel n acc = natDigitsAux fuel n [] ++ acc := by
  induction fuel generalizing n acc with
  | zero => simp [natDigitsAux]
  | succ fuel ih =>
      by_cases h : n < 10
      · simp [natDigitsAux, h]
      · rw [natDigitsAux, if_neg h, natDigitsAux, if_neg h,
          ih (n / 10) (digitChar (n % 10) :: acc), ih (n / 10) [digitChar (n % 10)]]
        simp

theorem natDigits_all_digit (fuel n : Nat) :
    ∀ c ∈ natDigitsAux fuel n [], c.isDigit = true := by
  induction fuel generalizing n with
  | zero =>
      intro c hc
      simp [natDigitsAux] at hc
      subst hc
      exact digitChar_isDigit n
  | succ fuel ih =>
      intro c hc
      by_cases h : n < 10
      · simp [natDigitsAux, h] at hc
        subst hc
        exact digitChar_isDigit n
      · rw [natDigitsAux, if_neg h, natDigitsAux_acc] at hc
        rcases List.mem_append.mp hc with h1 | h2
        · exact ih (n / 10) c h1
        · simp at h2
          subst h2
          exact digitChar_isDigit (n % 10)

theorem natDigitsAux_ne_nil (fuel n : Nat) : natDigitsAux fuel n [] ≠ [] := by
  cases fuel with
  | zero => simp [natDigitsAux]
  | succ fuel =>
      by_cases h : n < 10
      · simp [natDigitsAux, h]
      · rw [natDigitsAux, if_neg h, natDigitsAux_acc]
        simp

theorem decAux_append (a : Nat) (l1 l2 : List Char) :
    decAux a (l1 ++ l2) = decAux (decAux a l1) l2 := by
  simp [decAux, List.foldl_append]

theorem decAux_natDigits (fuel : Nat) :
    ∀ n a, n ≤ fuel →
      decAux a (natDigitsAux fuel n []) =
        a * 10 ^ (natDigitsAux fuel n []).length + n := by
  induction fuel with
  | zero =>
      intro n a h
      interval_cases n
      simp [natDigitsAux, decAux, digitVal, digitChar]
      omega
  | succ fuel ih =>
      intro n a h
      by_cases h10 : n < 10
      · rw [natDigitsAux, if_pos h10]
        simp [decAux, digitVal_digitChar n h10]
        omega
      · rw [natDigitsAux, if_neg h10, natDigitsAux_acc, decAux_append]
        have hn : n / 10 ≤ fuel := by omega
        rw [ih (n / 10) a hn]
        have hmod : n % 10 < 10 := Nat.mod_lt n (by omega)
        simp [decAux, digitVal_digitChar (n % 10) hmod, List.length_append, pow_succ]
        ring_nf
        omega

theorem decToNat_natDigits (n : Nat) : decToNat (natDigits n) = n := by
  rw [decToNat, natDigits, decAux_natDigits n n 0 (le_refl n)]
  simp

/-! ### Round-trip lemmas: the scanner on rendered segments -/

/-- Either empty or starting with a character for which `p` fails. -/
def headNot (p : Char → Bool) : List Char → Prop
  | [] => True
  | c :: _ => p c = false

theorem takeWhile_append_all (p : Char → Bool) (l1 l2 : List Char)
    (h1 : ∀ c ∈ l1, p c = true) (h2 : headNot p l2) :
    (l1 ++ l2).takeWhile p = l1 ∧ (l1 ++ l2).dropWhile p = l2 := by
  induction l1 with
  | nil =>
      cases l2 with
      | nil => simp
      | cons c t =>
          simp [headNot] at h2
          simp [List.takeWhile_cons, List.dropWhile_cons, h2]
  | cons c l1 ih =>
      have hc : p c = true := h1 c (by simp)
      have := ih (fun d hd => h1 d (by simp [hd]))
      simp [List.takeWhile_cons, List.dropWhile_cons, hc, this]

theorem scan_dotkey (k : String) (t : List Char)
    (hk : wordString k = true) (ht : headNot isWordChar t) :
    scan ('.' :: (k.data ++ t)) = .key k :: scan t := by
  rcases hkd : k.data with _ | ⟨kh, ktl⟩
  · rw [wordString, hkd] at hk
    simp at hk
  · have hall : ∀ c ∈ k.data, isWordChar c = true := by
      intro c hc
      rw [wordString] at hk
      simp at hk
      exact hk.2 c hc
    have hh : isWordChar kh = true := hall kh (by rw [hkd]; simp)
    have htl : ∀ c ∈ ktl, isWordChar c = true := by
      intro c hc
      exact hall c (by rw [hkd]; simp [hc])
    have htw := takeWhile_append_all isWordChar ktl t htl ht
    rw [scan.eq_def]
    simp only [List.cons_append]
    rw [if_neg (by decide : ¬isWordChar '.' = true), if_pos trivial, if_pos hh]
    rw [htw.1, htw.2, ← hkd]

theorem scan_index (n : Nat) (t : List Char) :
    scan ('[' :: (natDigits n ++ ']' :: t)) = .index n :: scan t := by
  have hds := natDigits_all_digit n n
  have htw := takeWhile_append_all Char.isDigit (natDigits n) (']' :: t) hds
    (by simp [headNot])
  have hne2 : (natDigits n).isEmpty = false := by
    rcases h : natDigits n with _ | _
    · exact absurd h (natDigitsAux_ne_nil n n)
    · rfl
  rw [scan.eq_def]
  simp [htw.1, htw.2, hne2, isWordChar, decToNat_natDigits]

/-! ### Round-trip lemmas: rendered paths parse back to their steps -/

/-- The parsed form of a position's steps: field selectors become
string keys, index selectors become integer indices. -/
def pathPKeys : JPath → List PKey
  | [] => []
  | Step.fld k :: p => .key k :: pathPKeys p
  | Step.idx i :: p => .index i :: pathPKeys p

theorem renderSteps_headNot (j : JSON) (p : JPath) :
    headNot isWordChar (renderSteps j p) := by
  cases p with
  | nil => simp [renderSteps, headNot]
  | cons s p =>
      rw [renderSteps]
      rcases hs : getStep j s with _ | c
      · simp [headNot]
      · cases j <;> cases s <;> simp [getStep] at hs
        · simp [renderKey, headNot, isWordChar]
        · rename_i xs i
          simp only [renderKey, hs]
          simp [headNot, isWordChar]

theorem lookupField_mem (fs : List (String × JSON)) (k : String) (v : JSON)
    (h : lookupField fs k = some v) : (k, v) ∈ fs := by
  induction fs with
  | nil => simp [lookupField] at h
  | cons kv fs ih =>
      obtain ⟨k2, v2⟩ := kv
      rw [lookupField] at h
      by_cases he : k2 = k
      · rw [if_pos he] at h
        subst he
        simp at h
        simp [h]
      · rw [if_neg he] at h
        simp [ih h]

theorem wordKeysFs_lookup (fs : List (String × JSON)) (k : String) (v : JSON)
    (hw : wordKeysFs fs = true) (h : lookupField fs k = some v) :
    wordString k = true ∧ wordKeysOk v = true := by
  induction fs with
  | nil => simp [lookupField] at h
  | cons kv fs ih =>
      obtain ⟨k2, v2⟩ := kv
      rw [wordKeysFs] at hw
      simp at hw
      rw [lookupField] at h
      by_cases he : k2 = k
      · rw [if_pos he] at h
        subst he
        simp at h
        subst h
        exact ⟨hw.1.1, hw.1.2⟩
      · rw [if_neg he] at h
        exact ih hw.2 h

theorem wordKeysAs_mem (xs : List JSON) (x : JSON)
    (hw : wordKeysAs xs = true) (h : x ∈ xs) : wordKeysOk x = true := by
  induction xs with
  | nil => simp at h
  | cons y ys ih =>
      rw [wordKeysAs] at hw
      simp at hw
      rcases List.mem_cons.mp h with h1 | h2
      · subst h1; exact hw.1
      · exact ih hw.2 h2

theorem distinctFs_lookup (fs : List (String × JSON)) (k : String) (v : JSON)
    (hd : distinctFs fs = true) (h : lookupField fs k = some v) :
    distinctArrays v = true := by
  induction fs with
  | nil => simp [lookupField] at h
  | cons kv fs ih =>
      obtain ⟨k2, v2⟩ := kv
      rw [distinctFs] at hd
      simp at hd
      rw [lookupField] at h
      by_cases he : k2 = k
      · rw [if_pos he] at h
        simp at h
        subst h
        exact hd.1
      · rw [if_neg he] at h
        exact ih hd.2 h

theorem distinctAs_mem (xs : List JSON) (x : JSON)
    (hd : distinctAs xs = true) (h : x ∈ xs) : distinctArrays x = true := by
  induction xs with
  | nil => simp at h
  | cons y ys ih =>
      rw [distinctAs] at hd
      simp at hd
      rcases List.mem_cons.mp h with h1 | h2
      · subst h1; exact hd.1.2
      · exact ih hd.2 h2

theorem firstEqIdx_of_distinct (xs : List JSON) (i : Nat) (c : JSON)
    (hd : distinctAs xs = true) (h : xs[i]? = some c) :
    firstEqIdx xs c = i := by
  induction xs generalizing i with
  | nil => simp at h
  | cons x ys ih =>
      rw [distinctAs] at hd
      simp at hd
      cases i with
      | zero =>
          simp at h
          subst h
          simp [firstEqIdx, List.findIdx_cons]
      | succ i =>
          simp at h
          have hmem : c ∈ ys := List.getElem?_mem h
          have hne : ¬(x = c) := by
            intro he
            subst he
            exact hd.1.1 hmem
          have hys := ih i hd.2 h
          rw [firstEqIdx] at hys ⊢
          rw [List.findIdx_cons]
          simp [hne, hys]

theorem wordKeysOk_getStep (j : JSON) (s : Step) (c : JSON)
    (hw : wordKeysOk j = true) (h : getStep j s = some c) :
    wordKeysOk c = true := by
  cases j <;> cases s <;> simp [getStep] at h
  · rename_i fs k
    rw [wordKeysOk] at hw
    exact (wordKeysFs_lookup fs k c hw h).2
  · rename_i xs i
    rw [wordKeysOk] at hw
    exact wordKeysAs_mem xs c hw (List.getElem?_mem h)

theorem distinct_getStep (j : JSON) (s : Step) (c : JSON)
    (hd : distinctArrays j = true) (h : getStep j s = some c) :
    distinctArrays c = true := by
  cases j <;> cases s <;> simp [getStep] at h
  · rename_i fs k
    rw [distinctArrays] at hd
    exact distinctFs_lookup fs k c hd h
  · rename_i xs i
    rw [distinctArrays] at hd
    exact distinctAs_mem xs c hd (List.getElem?_mem h)

theorem scan_renderSteps (p : JPath) :
    ∀ j x, wordKeysOk j = true → distinctArrays j = true → getAt j p = some x →
      scan (renderSteps j p) = pathPKeys p := by
  induction p with
  | nil =>
      intro j x _ _ _
      simp [renderSteps, pathPKeys, scan]
  | cons s p ih =>
      intro j x hw hd hx
      rw [getAt] at hx
      rcases hs : getStep j s with _ | c
      · rw [hs] at hx; simp at hx
      · rw [hs] at hx
        have hwc := wordKeysOk_getStep j s c hw hs
        have hdc := distinct_getStep j s c hd hs
        rw [renderSteps]
        simp only [hs]
        cases s with
        | fld k =>
            rcases j with fs | xs | a | a | a | _ <;> simp [getStep] at hs
            have hwk := (wordKeysFs_lookup _ k c (by rw [wordKeysOk] at hw; exact hw) hs).1
            have hrk : renderKey (JSON.obj fs) (Step.fld k) = '.' :: k.data := rfl
            rw [hrk]
            rw [List.cons_append]
            rw [scan_dotkey k _ hwk (renderSteps_headNot c p)]
            rw [ih c x hwc hdc hx]
            rfl
        | idx i =>
            rcases j with fs | xs | a | a | a | _ <;> simp [getStep] at hs
            have hfi := firstEqIdx_of_distinct xs i c (by rw [distinctArrays] at hd; exact hd) hs
            have hrk : renderKey (JSON.arr xs) (Step.idx i) =
                '[' :: (natDigits i ++ [']']) := by
              rw [renderKey]
              simp only [hs, hfi]
            rw [hrk]
            rw [List.cons_append, List.append_assoc]
            simp only [List.singleton_append]
            rw [scan_index i (renderSteps c p)]
            rw [ih c x hwc hdc hx]
            rfl

theorem locateAux_pathPKeys (p : JPath) :
    ∀ j q x, getAt j p = some x →
      locateAux j (some q) (pathPKeys p) = .ok (some (some (q ++ p), x)) := by
  induction p with
  | nil =>
      intro j q x hx
      simp [getAt] at hx
      subst hx
      simp [pathPKeys, locateAux]
  | cons s p ih =>
      intro j q x hx
      rw [getAt] at hx
      rcases hs : getStep j s with _ | c
      · rw [hs] at hx; simp at hx
      · rw [hs] at hx
        cases s with
        | fld k =>
            rcases j with fs | xs | a | a | a | _ <;> simp [getStep] at hs
            rw [pathPKeys, locateAux]
            simp only [hs, Option.map_some']
            rw [ih c _ x hx]
            simp
        | idx i =>
            rcases j with fs | xs | a | a | a | _ <;> simp [getStep] at hs
            rw [pathPKeys, locateAux]
            simp only [hs, Option.map_some']
            rw [ih c _ x hx]
            simp

theorem ancestorsAux_some (p : JPath) :
    ∀ j acc x, getAt j p = some x →
      ∃ l, ancestorsAux j acc p = some l ∧ l.length = acc.length + p.length := by
  induction p with
  | nil =>
      intro j acc x _
      exact ⟨acc.reverse, rfl, by simp⟩
  | cons s p ih =>
      intro j acc x hx
      rw [getAt] at hx
      rcases hs : getStep j s with _ | c
      · rw [hs] at hx; simp at hx
      · rw [hs] at hx
        obtain ⟨l, hl, hlen⟩ := ih c (j :: acc) x hx
        refine ⟨l, ?_, ?_⟩
        · rw [ancestorsAux]
          simp only [hs, hl]
        · rw [hlen]; simp; omega

theorem json_path_valid (root : JSON) (p : JPath) (x : JSON)
    (hne : p ≠ []) (hx : getAt root p = some x) :
    json_path root (.inDoc p) = String.mk (renderSteps root p) := by
  obtain ⟨l, hl, hlen⟩ := ancestorsAux_some p root [] x hx
  rcases l with _ | ⟨a, t⟩
  · simp at hlen
    exact absurd (List.length_eq_zero.mp hlen.symm) hne
  · simp [json_path, parents, ancestorsAt, hl]

/-- C1 (amended): the identity round-trip holds for every *proper
descendant* container of a document whose object keys are non-empty
ASCII word strings and whose arrays contain no two value-equal
elements: for a container `x` at non-empty position `p`,
`locate(json_path(x))` resolves to the very same position `p` (the
node's identity) and the same value `x`.  (The three hypotheses are
exactly what the counterexample forces: the root itself gets the
sentinel path, non-word key characters are lost by the `\w+` parser,
and duplicate array elements divert `list.index`.) -/
theorem c1_roundtrip (doc x : JSON) (p : JPath)
    (hw : wordKeysOk doc = true) (hd : distinctArrays doc = true)
    (hne : p ≠ []) (hx : getAt doc p = some x) (hc : isContainer x = true) :
    locate doc (json_path doc (.inDoc p)) = .ok (some (some p, x)) := by
  rw [json_path_valid doc p x hne hx]
  rw [locate, parse_json_path]
  have hdata : (String.mk (renderSteps doc p)).data = renderSteps doc p := rfl
  rw [hdata, scan_renderSteps p doc x hw hd hx]
  simpa using locateAux_pathPKeys p doc [] x hx

/-- Witness for the amended C1 at a concrete document. -/
theorem c1_roundtrip_witness :
    wordKeysOk (JSON.obj [("a", JSON.arr [JSON.obj [("b", JSON.null)]])]) = true ∧
    distinctArrays (JSON.obj [("a", JSON.arr [JSON.obj [("b", JSON.null)]])]) = true ∧
    ([Step.fld "a", Step.idx 0] : JPath) ≠ [] ∧
    getAt (JSON.obj [("a", JSON.arr [JSON.obj [("b", JSON.null)]])])
      [Step.fld "a", Step.idx 0] = some (JSON.obj [("b", JSON.null)]) ∧
    isContainer (JSON.obj [("b", JSON.null)]) = true ∧
    locate (JSON.obj [("a", JSON.arr [JSON.obj [("b", JSON.null)]])])
      (json_path (JSON.obj [("a", JSON.arr [JSON.obj [("b", JSON.null)]])])
        (.inDoc [Step.fld "a", Step.idx 0])) =
      .ok (some (some [Step.fld "a", Step.idx 0], JSON.obj [("b", JSON.null)])) :=
  ⟨by decide, by decide, by decide, by decide, by decide,
    c1_roundtrip _ _ _ (by decide) (by decide) (by decide) (by decide) (by decide)⟩


theorem getAt_append (j : JSON) (p q : JPath) :
    getAt j (p ++ q) = match getAt j p with
      | some c => getAt c q
      | none => none := by
  induction p generalizing j with
  | nil => simp [getAt]
  | cons s p ih =>
      simp only [List.cons_append, getAt]
      cases getStep j s with
      | none => rfl
      | some c => exact ih c

/-! ### C5: closure collection (`collect_uids`, `collect_sector_uids`) -/

/-- `item.get('uid')` for an object (the walker consults only
objects; arrays and scalars have no `uid`). -/
def getUid : JSON → Option JSON
  | .obj fs => lookupField fs "uid"
  | _ => none

/-- `JSONTree.collect_uids` for the node at position `p`: the `uid`
values of every object yielded by `traverse(item)` (the subtree,
including the item itself) plus the `uid` values of the item's object
ancestors (`parents(item)`), with Python `None` — an absent key or an
explicit JSON null — removed by the final `- {None}`. -/
def collect_uids (root : JSON) (p : JPath) : Finset JSON :=
  match getAt root p, ancestorsAt root p with
  | some x, some anc =>
      (((traverse x).filterMap getUid).toFinset ∪
        ((anc.filter (fun a => isObject a)).filterMap getUid).toFinset).erase .null
  | _, _ => ∅

/-- The `nodes` component of `Metadata.collect_sector_uids`: the union
of `collect_uids` over the nodes matched by the filter (given here by
their positions, as `find_nodes` returns them). -/
def collectSectorNodeUids (root : JSON) (ms : List JPath) : Finset JSON :=
  ms.foldl (fun acc p => acc ∪ collect_uids root p) ∅

theorem containerChildren_of_getStep (j c : JSON) (s : Step)
    (hs : getStep j s = some c) (hc : isContainer c = true) :
    c ∈ containerChildren j := by
  cases j <;> cases s <;> simp [getStep] at hs
  · rename_i fs k
    have hmm := lookupField_mem fs k c hs
    simp [containerChildren, List.mem_filter, hc]
    exact ⟨k, hmm⟩
  · rename_i xs i
    simp [containerChildren, List.mem_filter, hc]
    exact List.getElem?_mem hs

theorem preorder_sub_of_child (j c : JSON) (hc : c ∈ containerChildren j) :
    ∀ d, d ∈ preorderObjs c → d ∈ preorderObjs j := by
  intro d hd
  rw [preorderObjs_unfold j]
  simp only [List.mem_append, List.mem_flatMap]
  exact Or.inr ⟨c, hc, hd⟩

theorem getAt_container (j c : JSON) (q : JPath) (d : JSON) (hq : q ≠ [])
    (hs : getAt c q = some d) : isContainer c = true := by
  rcases q with _ | ⟨s, q⟩
  · exact absurd rfl hq
  · rw [getAt] at hs
    rcases ht : getStep c s with _ | e
    · rw [ht] at hs; simp at hs
    · cases c <;> cases s <;> simp [getStep] at ht <;> simp [isContainer]

theorem mem_preorder_of_getAt (q : JPath) :
    ∀ j d, getAt j q = some d → isObject d = true → d ∈ preorderObjs j := by
  induction q with
  | nil =>
      intro j d h hobj
      simp [getAt] at h
      subst h
      cases j <;> simp [isObject] at hobj <;> simp [preorderObjs]
  | cons s q ih =>
      intro j d h hobj
      rw [getAt] at h
      rcases hs : getStep j s with _ | c
      · rw [hs] at h; simp at h
      · rw [hs] at h
        have hd := ih c d h hobj
        have hcc : isContainer c = true := by
          rcases hq : q with _ | ⟨t, q2⟩
          · rw [hq] at h
            simp [getAt] at h
            subst h
            cases c <;> simp [isObject] at hobj <;> simp [isContainer]
          · exact getAt_container j c q d (by simp [hq]) (hq ▸ h)

        exact preorder_sub_of_child j c (containerChildren_of_getStep j c s hs hcc) d hd

theorem getUid_isObject (a u : JSON) (h : getUid a = some u) :
    isObject a = true := by
  cases a <;> simp [getUid] at h <;> simp [isObject]

/-- C5: with the filter matching exactly the node `m` at position `p`
(a three-level tree's middle node in the spec's scenario), the
collected node-closure uid set (1) is `collect_uids` of `m`; it
contains (2) the uid of `m` itself and of every descendant of `m`,
and (3) the uid of every ancestor of `m`; and (4) nothing else — in
particular no uid carried exclusively by a sibling subtree. -/
theorem c5_closure (root m : JSON) (p : JPath) (anc : List JSON)
    (hm : getAt root p = some m) (ho : isObject m = true)
    (ha : ancestorsAt root p = some anc) :
    collectSectorNodeUids root [p] = collect_uids root p ∧
    (∀ q d u, getAt m q = some d → getUid d = some u → u ≠ JSON.null →
        u ∈ collect_uids root p) ∧
    (∀ a u, a ∈ anc → getUid a = some u → u ≠ JSON.null →
        u ∈ collect_uids root p) ∧
    (∀ u, u ∈ collect_uids root p →
        u ≠ JSON.null ∧
          (u ∈ (traverse m).filterMap getUid ∨
            ∃ a ∈ anc, getUid a = some u)) := by
  have hcu : collect_uids root p =
      (((traverse m).filterMap getUid).toFinset ∪
        ((anc.filter (fun a => isObject a)).filterMap getUid).toFinset).erase .null := by
    rw [collect_uids, hm, ha]
  refine ⟨?_, ?_, ?_, ?_⟩
  · simp [collectSectorNodeUids]
  · intro q d u hq hu hnull
    rw [hcu]
    rw [Finset.mem_erase]
    refine ⟨hnull, ?_⟩
    rw [Finset.mem_union]
    left
    rw [List.mem_toFinset, List.mem_filterMap]
    refine ⟨d, ?_, hu⟩
    rw [traverse_eq_preorderObjs]
    exact mem_preorder_of_getAt q m d hq (getUid_isObject d u hu)
  · intro a u hmem hu hnull
    rw [hcu, Finset.mem_erase]
    refine ⟨hnull, ?_⟩
    rw [Finset.mem_union]
    right
    rw [List.mem_toFinset, List.mem_filterMap]
    exact ⟨a, List.mem_filter.mpr ⟨hmem, getUid_isObject a u hu⟩, hu⟩
  · intro u hu
    rw [hcu, Finset.mem_erase, Finset.mem_union] at hu
    refine ⟨hu.1, ?_⟩
    rcases hu.2 with h1 | h2
    · exact Or.inl (List.mem_toFinset.mp h1)
    · right
      obtain ⟨a, hmem, hgu⟩ := List.mem_filterMap.mp (List.mem_toFinset.mp h2)
      exact ⟨a, (List.mem_filter.mp hmem).1, hgu⟩

def c5mid : JSON :=
  JSON.obj [("uid", JSON.str "mid"),
    ("node", JSON.arr [JSON.obj [("uid", JSON.str "leaf")]])]

def c5doc : JSON :=
  JSON.obj [("node", JSON.arr [c5mid, JSON.obj [("uid", JSON.str "sib")]])]

/-- Witness for C5 at a concrete three-level document: the middle
node is the object at `.node[0]` of the root; its descendant's uid
`"leaf"` lands in the closure. -/
theorem c5_closure_witness :
    (getAt c5doc [Step.fld "node", Step.idx 0] = some c5mid ∧
      isObject c5mid = true ∧
      ancestorsAt c5doc [Step.fld "node", Step.idx 0] =
        some [c5doc, JSON.arr [c5mid, JSON.obj [("uid", JSON.str "sib")]]]) ∧
    JSON.str "leaf" ∈ collect_uids c5doc [Step.fld "node", Step.idx 0] :=
  ⟨⟨by decide, by decide, by decide⟩,
    (c5_closure c5doc c5mid [Step.fld "node", Step.idx 0]
        [c5doc, JSON.arr [c5mid, JSON.obj [("uid", JSON.str "sib")]]]
        (by decide) (by decide) (by decide)).2.1
      [Step.fld "node", Step.idx 0] (JSON.obj [("uid", JSON.str "leaf")])
      (JSON.str "leaf") (by decide) (by decide) (by decide)⟩



/-! ### C3: `JSONCatalog` — a multi-attribute identity-keyed index

The catalog keys everything on `id(item)` (modelled as an abstract
`Nat` identity) and stores Python dicts as association lists.  Buckets
hold `set()`s of identities, modelled as `Finset Nat`.  A Python
`TypeError` (using an unhashable dict/list value as a dict key) or
`KeyError` (an attribute the catalog was not configured with) is
`Except.error`. -/

/-- Python hashability of a JSON value used as a dict key: scalars
are hashable, dicts and lists raise `TypeError`. -/
def hashable : JSON → Bool
  | .obj _ => false
  | .arr _ => false
  | _ => true

/-- Generic association-list get (first occurrence), Python `d.get(k)`. -/
def alistGet {α β : Type} [DecidableEq α] : List (α × β) → α → Option β
  | [], _ => none
  | (k2, v) :: l, k => if k2 = k then some v else alistGet l k

/-- Python `d[k] = v`: update in place if present, else append. -/
def alistSet {α β : Type} [DecidableEq α] : List (α × β) → α → β → List (α × β)
  | [], k, v => [(k, v)]
  | (k2, v2) :: l, k, v =>
      if k2 = k then (k, v) :: l else (k2, v2) :: alistSet l k v

/-- Python `del d[k]` (the key is present in every use under the
catalog invariant; removing an absent key is a no-op here, a case the
source never reaches). -/
def alistRemove {α β : Type} [DecidableEq α] : List (α × β) → α → List (α × β)
  | [], _ => []
  | (k2, v) :: l, k => if k2 = k then l else (k2, v) :: alistRemove l k

/-- The per-attribute reverse indexes: attribute → value → set of
object identities. -/
abbrev Buckets := List (String × List (JSON × Finset Nat))

/-- `JSONCatalog` state: `items` (identity → the registered dict),
`indexes` (the reverse indexes, keys fixed at construction), `values`
(identity → the attribute-value snapshot captured at registration). -/
structure Catalog where
  items : List (Nat × List (String × JSON))
  indexes : Buckets
  values : List (Nat × List (String × JSON))
deriving DecidableEq

/-- `JSONCatalog.__init__(indexes)` (with no initial data): the dict
comprehension `{attr: {} for attr in indexes}` collapses duplicates. -/
def initCatalog (attrs : List String) : Catalog :=
  ⟨[], (attrs.dedup).map (fun a => (a, [])), []⟩

/-- Identity `oid` is in the `(a, v)` bucket. -/
def bucketMem (idx : Buckets) (a : String) (v : JSON) (oid : Nat) : Prop :=
  ∃ bs s, alistGet idx a = some bs ∧ alistGet bs v = some s ∧ oid ∈ s

instance (idx : Buckets) (a : String) (v : JSON) (oid : Nat) :
    Decidable (bucketMem idx a v oid) := by
  unfold bucketMem
  rcases h1 : alistGet idx a with _ | bs
  · exact .isFalse (by simp [h1])
  · rcases h2 : alistGet bs v with _ | s
    · exact .isFalse (by simp [h1, h2])
    · exact decidable_of_iff (oid ∈ s) (by simp [h1, h2])

/-- One step of `unindex`'s loop body:
`self.indexes[attr][value].discard(object_id)` followed by pruning the
bucket when it became empty.  A missing attribute or bucket is a
`KeyError` (unreachable under the catalog invariant). -/
def removeFromBucket (idx : Buckets) (a : String) (v : JSON) (oid : Nat) :
    Except Unit Buckets :=
  match alistGet idx a with
  | none => .error ()
  | some bs =>
      match alistGet bs v with
      | none => .error ()
      | some s =>
          let s2 := s.erase oid
          if s2 = ∅ then .ok (alistSet idx a (alistRemove bs v))
          else .ok (alistSet idx a (alistSet bs v s2))

/-- The whole `unindex` loop over the stored snapshot. -/
def removeSnap (idx : Buckets) (oid : Nat) :
    List (String × JSON) → Except Unit Buckets
  | [] => .ok idx
  | (a, v) :: snap =>
      match removeFromBucket idx a v oid with
      | .ok idx2 => removeSnap idx2 oid snap
      | .error e => .error e

/-- `JSONCatalog.unindex`: no-op when the identity was never indexed;
otherwise discard it from every bucket its snapshot names, then forget
snapshot and item. -/
def unindexOp (c : Catalog) (oid : Nat) : Except Unit Catalog :=
  match alistGet c.items oid with
  | none => .ok c
  | some _ =>
      match alistGet c.values oid with
      | none => .error ()
      | some snap =>
          match removeSnap c.indexes oid snap with
          | .ok idx2 =>
              .ok ⟨alistRemove c.items oid, idx2, alistRemove c.values oid⟩
          | .error e => .error e

/-- One step of `index`'s loop body:
`index.setdefault(value, set()).add(object_id)`.  An unhashable value
is a `TypeError`. -/
def addToBucket (idx : Buckets) (a : String) (v : JSON) (oid : Nat) :
    Except Unit Buckets :=
  if hashable v = false then .error ()
  else
    match alistGet idx a with
    | none => .error ()
    | some bs =>
        let s := (alistGet bs v).getD ∅
        .ok (alistSet idx a (alistSet bs v (insert oid s)))

def addSnap (idx : Buckets) (oid : Nat) :
    List (String × JSON) → Except Unit Buckets
  | [] => .ok idx
  | (a, v) :: snap =>
      match addToBucket idx a v oid with
      | .ok idx2 => addSnap idx2 oid snap
      | .error e => .error e

/-- The `(attr, value)` pairs `index` snapshots: each configured
attribute present on the item, in configuration order (the source
iterates `self.indexes.items()` and skips `NOT_PRESENT`). -/
def snapshotAttrs (attrs : List String) (item : List (String × JSON)) :
    List (String × JSON) :=
  attrs.filterMap (fun a => (alistGet item a).map (fun v => (a, v)))

/-- `JSONCatalog.index`: re-registration first fully unindexes the
stale snapshot, then registers the item and inserts its identity into
the bucket of each configured attribute present on it. -/
def indexOp (c : Catalog) (oid : Nat) (item : List (String × JSON)) :
    Except Unit Catalog :=
  match (if (alistGet c.items oid).isSome then unindexOp c oid else .ok c) with
  | .error e => .error e
  | .ok c1 =>
      match addSnap c1.indexes oid (snapshotAttrs (c1.indexes.map Prod.fst) item) with
      | .ok idx2 =>
          .ok ⟨alistSet c1.items oid item, idx2,
            alistSet c1.values oid (snapshotAttrs (c1.indexes.map Prod.fst) item)⟩
      | .error e => .error e

/-- A finite sequence of `index`/`unindex` calls (`unindex(item)`
reads only `id(item)`). -/
inductive CatOp where
  | index : Nat → List (String × JSON) → CatOp
  | unindex : Nat → CatOp
deriving DecidableEq

def applyOp (c : Catalog) : CatOp → Except Unit Catalog
  | .index oid item => indexOp c oid item
  | .unindex oid => unindexOp c oid

def applyOps (c : Catalog) : List CatOp → Except Unit Catalog
  | [] => .ok c
  | op :: ops =>
      match applyOp c op with
      | .ok c2 => applyOps c2 ops
      | .error e => .error e

/-- The constraint loop of `JSONCatalog.search` at the level of
identity sets: `None` accumulator until the first constraint, bucket
lookup per constraint (`TypeError` on an unhashable value, `KeyError`
on an unconfigured attribute), early `[]` on an empty bucket or empty
running intersection. -/
def searchIdsAux (c : Catalog) :
    Option (Finset Nat) → List (String × JSON) → Except Unit (Finset Nat)
  | acc, [] => .ok (acc.getD ∅)
  | acc, (a, v) :: rest =>
      if hashable v = false then .error ()
      else
        match alistGet c.indexes a with
        | none => .error ()
        | some bs =>
            let ids := (alistGet bs v).getD ∅
            if ids = ∅ then .ok ∅
            else
              let r := match acc with | none => ids | some r0 => r0 ∩ ids
              if r = ∅ then .ok ∅ else searchIdsAux c (some r) rest

/-- `JSONCatalog.search(**criteria)`, as the set of identities of the
returned items (the result list materialises `self.items[oid]` for
each identity, in unspecified set order). -/
def searchIds (c : Catalog) (criteria : List (String × JSON)) :
    Except Unit (Finset Nat) :=
  searchIdsAux c none criteria

/-- The identity `oid` is registered with a snapshot giving attribute
`a` the value `v`. -/
def snapMatches (c : Catalog) (oid : Nat) (a : String) (v : JSON) : Prop :=
  ∃ snap, alistGet c.values oid = some snap ∧ alistGet snap a = some v


/-! ### C3: generic association-list lemmas -/

theorem alistGet_mem {α β : Type} [DecidableEq α] (l : List (α × β)) (k : α) (v : β)
    (h : alistGet l k = some v) : (k, v) ∈ l := by
  induction l with
  | nil => simp [alistGet] at h
  | cons kv l ih =>
      obtain ⟨k2, v2⟩ := kv
      rw [alistGet] at h
      by_cases he : k2 = k
      · rw [if_pos he] at h
        subst he
        simp at h
        simp [h]
      · rw [if_neg he] at h
        simp [ih h]

theorem alistGet_set {α β : Type} [DecidableEq α] (l : List (α × β)) (k : α) (v : β) (k2 : α) :
    alistGet (alistSet l k v) k2 = if k2 = k then some v else alistGet l k2 := by
  induction l with
  | nil =>
      by_cases h : k2 = k
      · subst h
        simp [alistSet, alistGet]
      · simp [alistSet, alistGet, h, show ¬k = k2 from fun he => h he.symm]
  | cons kv l ih =>
      obtain ⟨k1, v1⟩ := kv
      by_cases h1 : k1 = k
      · subst h1
        by_cases h2 : k2 = k1
        · subst h2
          simp [alistSet, alistGet]
        · simp [alistSet, alistGet, h2, show ¬k1 = k2 from fun he => h2 he.symm]
      · by_cases h2 : k1 = k2
        · subst h2
          simp [alistSet, alistGet, h1, ih]
        · simp [alistSet, alistGet, h1, h2, ih]

theorem alistGet_none_of_not_mem {α β : Type} [DecidableEq α] (l : List (α × β)) (k : α)
    (h : k ∉ l.map Prod.fst) : alistGet l k = none := by
  induction l with
  | nil => simp [alistGet]
  | cons kv l ih =>
      obtain ⟨k1, v1⟩ := kv
      rw [List.map_cons] at h
      have h1 : ¬(k1 = k) := fun he => h (by simp [he])
      have h2 : k ∉ l.map Prod.fst := fun hm => h (by simp [hm])
      rw [alistGet, if_neg h1]
      exact ih h2

theorem alistGet_isSome_iff {α β : Type} [DecidableEq α] (l : List (α × β)) (k : α) :
    (alistGet l k).isSome ↔ k ∈ l.map Prod.fst := by
  induction l with
  | nil => simp [alistGet]
  | cons kv l ih =>
      obtain ⟨k1, v1⟩ := kv
      rw [alistGet]
      by_cases h : k1 = k
      · subst h
        simp
      · rw [if_neg h]
        simp [ih, show ¬k = k1 from fun he => h he.symm]

theorem alistRemove_sublist {α β : Type} [DecidableEq α] (l : List (α × β)) (k : α) :
    (alistRemove l k).Sublist l := by
  induction l with
  | nil => simp [alistRemove]
  | cons kv l ih =>
      obtain ⟨k1, v1⟩ := kv
      rw [alistRemove]
      by_cases h : k1 = k
      · rw [if_pos h]
        exact (List.sublist_cons_self (k1, v1) l)
      · rw [if_neg h]
        exact ih.cons₂ (k1, v1)

theorem alistGet_remove {α β : Type} [DecidableEq α] (l : List (α × β)) (k k2 : α)
    (hnd : (l.map Prod.fst).Nodup) :
    alistGet (alistRemove l k) k2 = if k2 = k then none else alistGet l k2 := by
  induction l with
  | nil => simp [alistRemove, alistGet]
  | cons kv l ih =>
      obtain ⟨k1, v1⟩ := kv
      rw [List.map_cons, List.nodup_cons] at hnd
      rw [alistRemove]
      by_cases h1 : k1 = k
      · subst h1
        rw [if_pos rfl]
        by_cases h2 : k2 = k1
        · subst h2
          rw [if_pos rfl]
          exact alistGet_none_of_not_mem l k2 hnd.1
        · rw [if_neg h2, alistGet, if_neg (fun he => h2 he.symm)]
      · rw [if_neg h1, alistGet]
        by_cases h2 : k1 = k2
        · subst h2
          rw [if_pos rfl, if_neg (fun he => h1 he), alistGet, if_pos rfl]
        · rw [if_neg h2, ih hnd.2, alistGet, if_neg h2]

theorem keys_set_mem {α β : Type} [DecidableEq α] (l : List (α × β)) (k : α) (v : β)
    (h : k ∈ l.map Prod.fst) :
    (alistSet l k v).map Prod.fst = l.map Prod.fst := by
  induction l with
  | nil => simp at h
  | cons kv l ih =>
      obtain ⟨k1, v1⟩ := kv
      rw [alistSet]
      by_cases h1 : k1 = k
      · subst h1
        simp
      · simp at h
        rcases h with h | h
        · exact absurd h.symm h1
      
        · rw [if_neg h1]
          simp [ih (by simpa using h)]

theorem keys_set_not_mem {α β : Type} [DecidableEq α] (l : List (α × β)) (k : α) (v : β)
    (h : k ∉ l.map Prod.fst) :
    (alistSet l k v).map Prod.fst = l.map Prod.fst ++ [k] := by
  induction l with
  | nil => simp [alistSet]
  | cons kv l ih =>
      obtain ⟨k1, v1⟩ := kv
      rw [List.map_cons] at h
      have h1 : ¬(k1 = k) := fun he => h (by simp [he])
      have h2 : k ∉ l.map Prod.fst := fun hm => h (by simp [hm])
      rw [alistSet, if_neg h1]
      simp [ih h2]

theorem nodup_keys_set {α β : Type} [DecidableEq α] (l : List (α × β)) (k : α) (v : β)
    (h : (l.map Prod.fst).Nodup) :
    ((alistSet l k v).map Prod.fst).Nodup := by
  by_cases hm : k ∈ l.map Prod.fst
  · rw [keys_set_mem l k v hm]
    exact h
  · rw [keys_set_not_mem l k v hm]
    rw [List.nodup_append]
    exact ⟨h, by simp, by simpa using hm⟩

/-! ### C3: the catalog invariant and its preservation -/

/-- Well-formedness the catalog maintains: nodup keys everywhere, the
`items`/`values` domains coincide, every snapshot names only
configured attributes with hashable values, and the reverse indexes
hold an identity exactly when its current snapshot does. -/
structure CatalogInv (c : Catalog) : Prop where
  idxNodup : (c.indexes.map Prod.fst).Nodup
  bsNodup : ∀ a bs, alistGet c.indexes a = some bs → (bs.map Prod.fst).Nodup
  valuesNodup : (c.values.map Prod.fst).Nodup
  itemsNodup : (c.items.map Prod.fst).Nodup
  domEq : ∀ oid, (alistGet c.items oid).isSome ↔ (alistGet c.values oid).isSome
  snapWf : ∀ oid snap, alistGet c.values oid = some snap →
      (snap.map Prod.fst).Nodup ∧
      ∀ a v, alistGet snap a = some v →
        a ∈ c.indexes.map Prod.fst ∧ hashable v = true
  member : ∀ a v oid, bucketMem c.indexes a v oid ↔ snapMatches c oid a v

theorem initCatalog_bucket (l : List String) (a : String) (bs : List (JSON × Finset Nat))
    (h : alistGet (l.map (fun a => (a, ([] : List (JSON × Finset Nat))))) a = some bs) :
    bs = [] := by
  induction l with
  | nil => simp [alistGet] at h
  | cons a1 l ih =>
      rw [List.map_cons, alistGet] at h
      by_cases he : a1 = a
      · rw [if_pos he] at h
        simpa using h.symm
      · rw [if_neg he] at h
        exact ih h

theorem initCatalog_inv (attrs : List String) : CatalogInv (initCatalog attrs) := by
  have hkeys : ∀ l : List String,
      (List.map (fun a => (a, ([] : List (JSON × Finset Nat)))) l).map Prod.fst = l := by
    intro l
    induction l <;> simp_all
  refine ⟨?_, ?_, ?_, ?_, ?_, ?_, ?_⟩
  · rw [initCatalog]
    simp only [hkeys]
    exact attrs.nodup_dedup
  · intro a bs h
    rw [initCatalog] at h
    rw [initCatalog_bucket attrs.dedup a bs h]
    simp
  · simp [initCatalog]
  · simp [initCatalog]
  · intro oid
    simp [initCatalog, alistGet]
  · intro oid snap h
    simp [initCatalog, alistGet] at h
  · intro a v oid
    rw [initCatalog]
    constructor
    · rintro ⟨bs, s, hbs, hs, hmem⟩
      have := initCatalog_bucket attrs.dedup a bs hbs
      subst this
      simp [alistGet] at hs
    · rintro ⟨snap, hsnap, _⟩
      simp [alistGet] at hsnap

theorem removeFromBucket_ok (idx : Buckets) (a : String) (v : JSON) (oid : Nat)
    (idx2 : Buckets)
    (hnd : (idx.map Prod.fst).Nodup)
    (hbs : ∀ a2 bs, alistGet idx a2 = some bs → (bs.map Prod.fst).Nodup)
    (h : removeFromBucket idx a v oid = .ok idx2) :
    idx2.map Prod.fst = idx.map Prod.fst ∧
    (∀ a2 bs, alistGet idx2 a2 = some bs → (bs.map Prod.fst).Nodup) ∧
    (∀ a2 v2 o, bucketMem idx2 a2 v2 o ↔
      (bucketMem idx a2 v2 o ∧ ¬(a2 = a ∧ v2 = v ∧ o = oid))) := by
  rw [removeFromBucket] at h
  rcases ha : alistGet idx a with _ | bs
  · simp only [ha] at h
    simp at h
  · simp only [ha] at h
    rcases hv : alistGet bs v with _ | s
    · simp only [hv] at h
      simp at h
    · simp only [hv] at h
      have hamem : a ∈ idx.map Prod.fst :=
        (alistGet_isSome_iff idx a).mp (by simp [ha])
      have hbsnd := hbs a bs ha
      by_cases hempty : s.erase oid = ∅
      · rw [if_pos hempty] at h
        simp at h
        subst h
        refine ⟨keys_set_mem idx a _ hamem, ?_, ?_⟩
        · intro a2 bs2 h2
          rw [alistGet_set] at h2
          by_cases he : a2 = a
          · rw [if_pos he] at h2
            simp at h2
            subst h2
            exact ((alistRemove_sublist bs v).map Prod.fst).nodup hbsnd
          · rw [if_neg he] at h2
            exact hbs a2 bs2 h2
        · intro a2 v2 o
          unfold bucketMem
          rw [alistGet_set]
          by_cases he : a2 = a
          · subst he
            rw [if_pos rfl]
            constructor
            · rintro ⟨bs2, s2, hb2, hg2, hm2⟩
              simp at hb2
              subst hb2
              rw [alistGet_remove bs v v2 hbsnd] at hg2
              by_cases hv2 : v2 = v
              · rw [if_pos hv2] at hg2; simp at hg2
              · rw [if_neg hv2] at hg2
                exact ⟨⟨bs, s2, ha, hg2, hm2⟩, fun hcon => hv2 hcon.2.1⟩
            · rintro ⟨⟨bs2, s2, hb2, hg2, hm2⟩, hnot⟩
              rw [ha] at hb2
              simp at hb2
              subst hb2
              by_cases hv2 : v2 = v
              · subst hv2
                rw [hv] at hg2
                simp at hg2
                subst hg2
                have ho : o ≠ oid := fun ho => hnot (by simp [ho])
                have hoin : o ∈ s.erase oid := Finset.mem_erase.mpr ⟨ho, hm2⟩
                rw [hempty] at hoin
                simp at hoin
              · refine ⟨_, s2, rfl, ?_, hm2⟩
                rw [alistGet_remove bs v v2 hbsnd, if_neg hv2]
                exact hg2
          · rw [if_neg he]
            constructor
            · rintro ⟨bs2, s2, hb2, hg2, hm2⟩
              exact ⟨⟨bs2, s2, hb2, hg2, hm2⟩, fun hcon => he hcon.1⟩
            · rintro ⟨⟨bs2, s2, hb2, hg2, hm2⟩, _⟩
              exact ⟨bs2, s2, hb2, hg2, hm2⟩
      · rw [if_neg hempty] at h
        simp at h
        subst h
        refine ⟨keys_set_mem idx a _ hamem, ?_, ?_⟩
        · intro a2 bs2 h2
          rw [alistGet_set] at h2
          by_cases he : a2 = a
          · rw [if_pos he] at h2
            simp at h2
            subst h2
            exact nodup_keys_set bs v _ hbsnd
          · rw [if_neg he] at h2
            exact hbs a2 bs2 h2
        · intro a2 v2 o
          unfold bucketMem
          rw [alistGet_set]
          by_cases he : a2 = a
          · subst he
            rw [if_pos rfl]
            constructor
            · rintro ⟨bs2, s2, hb2, hg2, hm2⟩
              simp at hb2
              subst hb2
              rw [alistGet_set] at hg2
              by_cases hv2 : v2 = v
              · rw [if_pos hv2] at hg2
                simp at hg2
                subst hg2
                subst hv2
                rw [Finset.mem_erase] at hm2
                exact ⟨⟨bs, s, ha, hv, hm2.2⟩, fun hcon => hm2.1 hcon.2.2⟩
              · rw [if_neg hv2] at hg2
                exact ⟨⟨bs, s2, ha, hg2, hm2⟩, fun hcon => hv2 hcon.2.1⟩
            · rintro ⟨⟨bs2, s2, hb2, hg2, hm2⟩, hnot⟩
              rw [ha] at hb2
              simp at hb2
              subst hb2
              by_cases hv2 : v2 = v
              · subst hv2
                rw [hv] at hg2
                simp at hg2
                subst hg2
                refine ⟨_, s.erase oid, rfl, ?_, ?_⟩
                · rw [alistGet_set, if_pos rfl]
                · rw [Finset.mem_erase]
                  exact ⟨fun ho => hnot (by simp [ho]), hm2⟩
              · refine ⟨_, s2, rfl, ?_, hm2⟩
                rw [alistGet_set, if_neg hv2]
                exact hg2
          · rw [if_neg he]
            constructor
            · rintro ⟨bs2, s2, hb2, hg2, hm2⟩
              exact ⟨⟨bs2, s2, hb2, hg2, hm2⟩, fun hcon => he hcon.1⟩
            · rintro ⟨⟨bs2, s2, hb2, hg2, hm2⟩, _⟩
              exact ⟨bs2, s2, hb2, hg2, hm2⟩

theorem removeSnap_ok (snap : List (String × JSON)) :
    ∀ idx idx2 oid,
      (idx.map Prod.fst).Nodup →
      (∀ a2 bs, alistGet idx a2 = some bs → (bs.map Prod.fst).Nodup) →
      (snap.map Prod.fst).Nodup →
      removeSnap idx oid snap = .ok idx2 →
      idx2.map Prod.fst = idx.map Prod.fst ∧
      (∀ a2 bs, alistGet idx2 a2 = some bs → (bs.map Prod.fst).Nodup) ∧
      (∀ a2 v2 o, bucketMem idx2 a2 v2 o ↔
        (bucketMem idx a2 v2 o ∧ ¬(o = oid ∧ alistGet snap a2 = some v2))) := by
  induction snap with
  | nil =>
      intro idx idx2 oid h1 h2 _ h
      rw [removeSnap] at h
      simp at h
      subst h
      refine ⟨rfl, h2, ?_⟩
      intro a2 v2 o
      simp [alistGet]
  | cons av snap ih =>
      intro idx idx2 oid h1 h2 hsnd h
      obtain ⟨a1, v1⟩ := av
      rw [removeSnap] at h
      rcases hrb : removeFromBucket idx a1 v1 oid with e | idx1
      · simp only [hrb] at h
        simp at h
      · simp only [hrb] at h
        obtain ⟨hk1, hb1, hm1⟩ := removeFromBucket_ok idx a1 v1 oid idx1 h1 h2 hrb
        rw [List.map_cons, List.nodup_cons] at hsnd
        obtain ⟨hk2, hb2, hm2⟩ := ih idx1 idx2 oid (hk1 ▸ h1) hb1 hsnd.2 h
        refine ⟨hk2.trans hk1, hb2, ?_⟩
        intro a2 v2 o
        rw [hm2, hm1]
        rw [alistGet]
        by_cases he : a1 = a2
        · subst he
          have hrest : alistGet snap a1 = none :=
            alistGet_none_of_not_mem snap a1 hsnd.1
          rw [if_pos rfl, hrest]
          constructor
          · rintro ⟨⟨hb, hno1⟩, hno2⟩
            refine ⟨hb, ?_⟩
            rintro ⟨ho, hv⟩
            simp at hv
            exact hno1 ⟨rfl, hv.symm, ho⟩
          · rintro ⟨hb, hno⟩
            refine ⟨⟨hb, ?_⟩, ?_⟩
            · rintro ⟨_, hv, ho⟩
              exact hno ⟨ho, by simp [hv]⟩
            · rintro ⟨_, hv⟩
              simp at hv
        · rw [if_neg he]
          constructor
          · rintro ⟨⟨hb, hno1⟩, hno2⟩
            exact ⟨hb, hno2⟩
          · rintro ⟨hb, hno⟩
            exact ⟨⟨hb, fun hcon => he hcon.1.symm⟩, hno⟩

theorem unindexOp_ok (c : Catalog) (oid : Nat) (c2 : Catalog)
    (hInv : CatalogInv c) (h : unindexOp c oid = .ok c2) :
    CatalogInv c2 ∧
    alistGet c2.values oid = none ∧
    alistGet c2.items oid = none ∧
    (∀ o, o ≠ oid → alistGet c2.values o = alistGet c.values o) ∧
    (∀ o, o ≠ oid → alistGet c2.items o = alistGet c.items o) ∧
    c2.indexes.map Prod.fst = c.indexes.map Prod.fst := by
  rw [unindexOp] at h
  rcases hit : alistGet c.items oid with _ | item
  · simp only [hit] at h
    simp at h
    subst h
    have hval : alistGet c.values oid = none := by
      rcases hv : alistGet c.values oid with _ | snap
      · rfl
      · exact absurd ((hInv.domEq oid).mpr (by simp [hv])) (by simp [hit])
    exact ⟨hInv, hval, hit, fun _ _ => rfl, fun _ _ => rfl, rfl⟩
  · simp only [hit] at h
    rcases hv : alistGet c.values oid with _ | snap
    · simp only [hv] at h
      simp at h
    · simp only [hv] at h
      rcases hrs : removeSnap c.indexes oid snap with e | idx2
      · simp only [hrs] at h
        simp at h
      · simp only [hrs] at h
        simp at h
        subst h
        have hsnapwf := hInv.snapWf oid snap hv
        obtain ⟨hk, hb, hm⟩ := removeSnap_ok snap c.indexes idx2 oid
          hInv.idxNodup hInv.bsNodup hsnapwf.1 hrs
        have hval2 : ∀ o, alistGet (alistRemove c.values oid) o =
            if o = oid then none else alistGet c.values o :=
          fun o => alistGet_remove c.values oid o hInv.valuesNodup
        have hit2 : ∀ o, alistGet (alistRemove c.items oid) o =
            if o = oid then none else alistGet c.items o :=
          fun o => alistGet_remove c.items oid o hInv.itemsNodup
        refine ⟨⟨hk ▸ hInv.idxNodup, hb,
            ((alistRemove_sublist c.values oid).map Prod.fst).nodup hInv.valuesNodup,
            ((alistRemove_sublist c.items oid).map Prod.fst).nodup hInv.itemsNodup,
            ?_, ?_, ?_⟩, ?_, ?_, ?_, ?_, hk⟩
        · intro o
          rw [hval2 o, hit2 o]
          by_cases ho : o = oid
          · simp [ho]
          · rw [if_neg ho, if_neg ho]
            exact hInv.domEq o
        · intro o snap2 hsnap2
          rw [hval2 o] at hsnap2
          by_cases ho : o = oid
          · rw [if_pos ho] at hsnap2
            simp at hsnap2
          · rw [if_neg ho] at hsnap2
            have := hInv.snapWf o snap2 hsnap2
            exact ⟨this.1, fun a v hav => ⟨hk ▸ (this.2 a v hav).1, (this.2 a v hav).2⟩⟩
        · intro a v o
          rw [hm a v o, hInv.member a v o]
          unfold snapMatches
          rw [hval2 o]
          by_cases ho : o = oid
          · subst ho
            rw [if_pos rfl]
            simp only [hv]
            constructor
            · rintro ⟨⟨snap2, hs2, hg2⟩, hno⟩
              simp at hs2
              subst hs2
              exact (hno (by simp [hg2])).elim
            · rintro ⟨snap2, hs2, _⟩
              simp at hs2
          · rw [if_neg ho]
            constructor
            · rintro ⟨hmm, _⟩
              exact hmm
            · intro hmm
              exact ⟨hmm, fun hcon => ho hcon.1⟩
        · rw [hval2 oid, if_pos rfl]
        · rw [hit2 oid, if_pos rfl]
        · intro o ho
          rw [hval2 o, if_neg ho]
        · intro o ho
          rw [hit2 o, if_neg ho]

theorem addToBucket_ok (idx : Buckets) (a : String) (v : JSON) (oid : Nat)
    (idx2 : Buckets)
    (hnd : (idx.map Prod.fst).Nodup)
    (hbs : ∀ a2 bs, alistGet idx a2 = some bs → (bs.map Prod.fst).Nodup)
    (h : addToBucket idx a v oid = .ok idx2) :
    idx2.map Prod.fst = idx.map Prod.fst ∧
    (∀ a2 bs, alistGet idx2 a2 = some bs → (bs.map Prod.fst).Nodup) ∧
    hashable v = true ∧ a ∈ idx.map Prod.fst ∧
    (∀ a2 v2 o, bucketMem idx2 a2 v2 o ↔
      (bucketMem idx a2 v2 o ∨ (a2 = a ∧ v2 = v ∧ o = oid))) := by
  rw [addToBucket] at h
  by_cases hh : hashable v = false
  · rw [if_pos hh] at h
    simp at h
  · rw [if_neg hh] at h
    rcases ha : alistGet idx a with _ | bs
    · simp only [ha] at h
      simp at h
    · simp only [ha] at h
      simp at h
      subst h
      have hamem : a ∈ idx.map Prod.fst :=
        (alistGet_isSome_iff idx a).mp (by simp [ha])
      have hbsnd := hbs a bs ha
      refine ⟨keys_set_mem idx a _ hamem, ?_, by simpa using hh, hamem, ?_⟩
      · intro a2 bs2 h2
        rw [alistGet_set] at h2
        by_cases he : a2 = a
        · rw [if_pos he] at h2
          simp at h2
          subst h2
          exact nodup_keys_set bs v _ hbsnd
        · rw [if_neg he] at h2
          exact hbs a2 bs2 h2
      · intro a2 v2 o
        unfold bucketMem
        rw [alistGet_set]
        by_cases he : a2 = a
        · subst he
          rw [if_pos rfl]
          constructor
          · rintro ⟨bs2, s2, hb2, hg2, hm2⟩
            simp at hb2
            subst hb2
            rw [alistGet_set] at hg2
            by_cases hv2 : v2 = v
            · rw [if_pos hv2] at hg2
              simp at hg2
              subst hg2
              rw [Finset.mem_insert] at hm2
              rcases hm2 with hm2 | hm2
              · exact Or.inr ⟨rfl, hv2, hm2⟩
              · rcases hg : alistGet bs v with _ | s0
                · rw [hg] at hm2
                  simp at hm2
                · rw [hg] at hm2
                  exact Or.inl ⟨bs, s0, ha, by rw [hv2]; exact hg, by simpa using hm2⟩
            · rw [if_neg hv2] at hg2
              exact Or.inl ⟨bs, s2, ha, hg2, hm2⟩
          · intro hor
            rcases hor with ⟨bs2, s2, hb2, hg2, hm2⟩ | ⟨_, hveq, hoeq⟩
            · rw [ha] at hb2
              simp at hb2
              subst hb2
              by_cases hv2 : v2 = v
              · subst hv2
                refine ⟨_, insert oid ((alistGet bs v2).getD ∅), rfl, ?_, ?_⟩
                · rw [alistGet_set, if_pos rfl]
                · rw [Finset.mem_insert]
                  right
                  rw [hg2]
                  simpa using hm2
              · refine ⟨_, s2, rfl, ?_, hm2⟩
                rw [alistGet_set, if_neg hv2]
                exact hg2
            · refine ⟨_, insert oid ((alistGet bs v).getD ∅), rfl, ?_, ?_⟩
              · rw [alistGet_set, hveq, if_pos rfl]
              · rw [hoeq]
                exact Finset.mem_insert_self oid _
        · rw [if_neg he]
          constructor
          · rintro ⟨bs2, s2, hb2, hg2, hm2⟩
            exact Or.inl ⟨bs2, s2, hb2, hg2, hm2⟩
          · intro hor
            rcases hor with ⟨bs2, s2, hb2, hg2, hm2⟩ | ⟨hcon, _, _⟩
            · exact ⟨bs2, s2, hb2, hg2, hm2⟩
            · exact absurd hcon he

theorem addSnap_ok (snap : List (String × JSON)) :
    ∀ idx idx2 oid,
      (idx.map Prod.fst).Nodup →
      (∀ a2 bs, alistGet idx a2 = some bs → (bs.map Prod.fst).Nodup) →
      (snap.map Prod.fst).Nodup →
      addSnap idx oid snap = .ok idx2 →
      idx2.map Prod.fst = idx.map Prod.fst ∧
      (∀ a2 bs, alistGet idx2 a2 = some bs → (bs.map Prod.fst).Nodup) ∧
      (∀ av ∈ snap, hashable av.2 = true ∧ av.1 ∈ idx.map Prod.fst) ∧
      (∀ a2 v2 o, bucketMem idx2 a2 v2 o ↔
        (bucketMem idx a2 v2 o ∨ (o = oid ∧ alistGet snap a2 = some v2))) := by
  induction snap with
  | nil =>
      intro idx idx2 oid h1 h2 _ h
      rw [addSnap] at h
      simp at h
      subst h
      refine ⟨rfl, h2, by simp, ?_⟩
      intro a2 v2 o
      simp [alistGet]
  | cons av snap ih =>
      intro idx idx2 oid h1 h2 hsnd h
      obtain ⟨a1, v1⟩ := av
      rw [addSnap] at h
      rcases hab : addToBucket idx a1 v1 oid with e | idx1
      · simp only [hab] at h
        simp at h
      · simp only [hab] at h
        obtain ⟨hk1, hb1, hh1, hm1, hf1⟩ := addToBucket_ok idx a1 v1 oid idx1 h1 h2 hab
        rw [List.map_cons, List.nodup_cons] at hsnd
        obtain ⟨hk2, hb2, hnice, hf2⟩ := ih idx1 idx2 oid (hk1 ▸ h1) hb1 hsnd.2 h
        refine ⟨hk2.trans hk1, hb2, ?_, ?_⟩
        · intro av hav
          rcases List.mem_cons.mp hav with hav | hav
          · subst hav
            exact ⟨hh1, hm1⟩
          · have := hnice av hav
            exact ⟨this.1, hk1 ▸ this.2⟩
        · intro a2 v2 o
          rw [hf2, hf1]
          rw [alistGet]
          by_cases he : a1 = a2
          · subst he
            have hrest : alistGet snap a1 = none :=
              alistGet_none_of_not_mem snap a1 hsnd.1
            rw [if_pos rfl, hrest]
            constructor
            · rintro (⟨hb | ⟨_, hveq, hoeq⟩⟩ | ⟨_, hcon⟩)
              · exact Or.inl hb
              · exact Or.inr ⟨hoeq, by simp [hveq]⟩
              · simp at hcon
            · rintro (hb | ⟨hoeq, hveq⟩)
              · exact Or.inl (Or.inl hb)
              · simp at hveq
                exact Or.inl (Or.inr ⟨rfl, hveq.symm, hoeq⟩)
          · rw [if_neg he]
            constructor
            · rintro (⟨hb | ⟨hcon, _, _⟩⟩ | hrest)
              · exact Or.inl hb
              · exact absurd hcon.symm he
              · exact Or.inr hrest
            · rintro (hb | hrest)
              · exact Or.inl (Or.inl hb)
              · exact Or.inr hrest

theorem snapshot_keys_sublist (attrs : List String) (item : List (String × JSON)) :
    ((snapshotAttrs attrs item).map Prod.fst).Sublist attrs := by
  induction attrs with
  | nil => simp [snapshotAttrs]
  | cons a rest ih =>
      rw [snapshotAttrs, List.filterMap_cons]
      rcases hg : alistGet item a with _ | v
      · simp only [Option.map_none']
        exact ih.cons a
      · simp only [Option.map_some']
        rw [List.map_cons]
        exact ih.cons₂ a

theorem snapshot_get (attrs : List String) (item : List (String × JSON))
    (hnd : attrs.Nodup) (a : String) (v : JSON) :
    alistGet (snapshotAttrs attrs item) a = some v ↔
      a ∈ attrs ∧ alistGet item a = some v := by
  induction attrs with
  | nil => simp [snapshotAttrs, alistGet]
  | cons a1 rest ih =>
      rw [List.nodup_cons] at hnd
      rw [snapshotAttrs, List.filterMap_cons]
      rcases hg : alistGet item a1 with _ | v1
      · simp only [Option.map_none']
        rw [show List.filterMap (fun a => Option.map (fun v => (a, v)) (alistGet item a)) rest
            = snapshotAttrs rest item from rfl]
        rw [ih hnd.2]
        constructor
        · rintro ⟨hmem, hgv⟩
          exact ⟨by simp [hmem], hgv⟩
        · rintro ⟨hmem, hgv⟩
          rcases List.mem_cons.mp hmem with he | hmem2
          · subst he
            rw [hg] at hgv
            simp at hgv
          · exact ⟨hmem2, hgv⟩
      · simp only [Option.map_some']
        rw [alistGet]
        by_cases he : a1 = a
        · subst he
          rw [if_pos rfl]
          simp [hg]
        · rw [if_neg he]
          rw [show List.filterMap (fun a => Option.map (fun v => (a, v)) (alistGet item a)) rest
              = snapshotAttrs rest item from rfl]
          rw [ih hnd.2]
          constructor
          · rintro ⟨hmem, hgv⟩
            exact ⟨by simp [hmem], hgv⟩
          · rintro ⟨hmem, hgv⟩
            rcases List.mem_cons.mp hmem with h2 | hmem2
            · exact absurd h2.symm he
            · exact ⟨hmem2, hgv⟩

theorem indexOp_ok (c : Catalog) (oid : Nat) (item : List (String × JSON)) (c2 : Catalog)
    (hInv : CatalogInv c) (h : indexOp c oid item = .ok c2) :
    CatalogInv c2 := by
  rw [indexOp] at h
  rcases hbr : (if (alistGet c.items oid).isSome then unindexOp c oid else .ok c)
    with e | c1
  · simp only [hbr] at h
    simp at h
  · simp only [hbr] at h
    have hc1 : CatalogInv c1 ∧ alistGet c1.values oid = none ∧
        alistGet c1.items oid = none := by
      by_cases hit : (alistGet c.items oid).isSome
      · rw [if_pos hit] at hbr
        obtain ⟨hi, hv, hitn, _, _, _⟩ := unindexOp_ok c oid c1 hInv hbr
        exact ⟨hi, hv, hitn⟩
      · rw [if_neg hit] at hbr
        simp at hbr
        subst hbr
        refine ⟨hInv, ?_, ?_⟩
        · rcases hv2 : alistGet c.values oid with _ | snap
          · rfl
          · exact absurd ((hInv.domEq oid).mpr (by simp [hv2])) hit
        · rcases hi2 : alistGet c.items oid with _ | it
          · rfl
          · exact absurd (by simp [hi2]) hit
    obtain ⟨hInv1, hval1, hit1⟩ := hc1
    rcases has : addSnap c1.indexes oid (snapshotAttrs (c1.indexes.map Prod.fst) item)
      with e | idx2
    · simp only [has] at h
      simp at h
    · simp only [has] at h
      simp at h
      subst h
      have hsnapnd : ((snapshotAttrs (c1.indexes.map Prod.fst) item).map Prod.fst).Nodup :=
        (snapshot_keys_sublist _ item).nodup hInv1.idxNodup
      obtain ⟨hk2, hb2, hhash, hf2⟩ := addSnap_ok _ c1.indexes idx2 oid
        hInv1.idxNodup hInv1.bsNodup hsnapnd has
      refine ⟨hk2 ▸ hInv1.idxNodup, hb2,
        nodup_keys_set _ oid _ hInv1.valuesNodup,
        nodup_keys_set _ oid _ hInv1.itemsNodup, ?_, ?_, ?_⟩
      · intro o
        rw [alistGet_set, alistGet_set]
        by_cases ho : o = oid
        · simp [ho]
        · rw [if_neg ho, if_neg ho]
          exact hInv1.domEq o
      · intro o snap2 hsnap2
        rw [alistGet_set] at hsnap2
        by_cases ho : o = oid
        · rw [if_pos ho] at hsnap2
          simp at hsnap2
          subst hsnap2
          refine ⟨hsnapnd, ?_⟩
          intro a v hav
          have := alistGet_mem _ a v hav
          have h2 := hhash (a, v) this
          exact ⟨hk2 ▸ h2.2, h2.1⟩
        · rw [if_neg ho] at hsnap2
          have := hInv1.snapWf o snap2 hsnap2
          exact ⟨this.1, fun a v hav => ⟨hk2 ▸ (this.2 a v hav).1, (this.2 a v hav).2⟩⟩
      · intro a v o
        rw [hf2 a v o, hInv1.member a v o]
        unfold snapMatches
        rw [alistGet_set]
        by_cases ho : o = oid
        · rw [if_pos ho]
          constructor
          · rintro (⟨snap2, hs2, hg2⟩ | ⟨_, hg⟩)
            · rw [ho] at hs2
              rw [hval1] at hs2
              simp at hs2
            · exact ⟨_, rfl, hg⟩
          · rintro ⟨snap2, hs2, hg2⟩
            simp at hs2
            subst hs2
            exact Or.inr ⟨ho, hg2⟩
        · rw [if_neg ho]
          constructor
          · rintro (⟨snap2, hs2, hg2⟩ | ⟨hcon, _⟩)
            · exact ⟨snap2, hs2, hg2⟩
            · exact absurd hcon ho
          · rintro ⟨snap2, hs2, hg2⟩
            exact Or.inl ⟨snap2, hs2, hg2⟩

theorem applyOps_inv (ops : List CatOp) :
    ∀ c c2, CatalogInv c → applyOps c ops = .ok c2 → CatalogInv c2 := by
  induction ops with
  | nil =>
      intro c c2 hInv h
      rw [applyOps] at h
      simp at h
      subst h
      exact hInv
  | cons op ops ih =>
      intro c c2 hInv h
      rw [applyOps] at h
      rcases hop : applyOp c op with e | c1
      · simp only [hop] at h
        simp at h
      · simp only [hop] at h
        have hInv1 : CatalogInv c1 := by
          cases op with
          | index oid item => exact indexOp_ok c oid item c1 hInv hop
          | unindex oid => exact (unindexOp_ok c oid c1 hInv hop).1
        exact ih c1 c2 hInv1 h

theorem searchIdsAux_ok (c : Catalog) (hInv : CatalogInv c) :
    ∀ criteria r0,
      (∀ av ∈ criteria, av.1 ∈ c.indexes.map Prod.fst ∧ hashable av.2 = true) →
      ∃ S, searchIdsAux c (some r0) criteria = .ok S ∧
        ∀ oid, oid ∈ S ↔
          (oid ∈ r0 ∧ ∀ av ∈ criteria, snapMatches c oid av.1 av.2) := by
  intro criteria
  induction criteria with
  | nil =>
      intro r0 _
      refine ⟨r0, rfl, ?_⟩
      simp
  | cons av rest ih =>
      intro r0 hall
      obtain ⟨a, v⟩ := av
      have h1 := hall (a, v) (by simp)
      rw [searchIdsAux]
      rw [if_neg (by simp [h1.2])]
      rcases hbs : alistGet c.indexes a with _ | bs
      · exact absurd ((alistGet_isSome_iff _ _).mpr h1.1) (by simp [hbs])
      · simp only [hbs]
        have hmem : ∀ oid, oid ∈ (alistGet bs v).getD ∅ ↔ snapMatches c oid a v := by
          intro oid
          rw [← hInv.member a v oid]
          unfold bucketMem
          rcases hg : alistGet bs v with _ | s
          · simp [hbs, hg]
          · simp [hbs, hg]
        by_cases hid : (alistGet bs v).getD ∅ = ∅
        · rw [if_pos hid]
          refine ⟨∅, rfl, ?_⟩
          intro oid
          simp only [Finset.not_mem_empty, false_iff]
          rintro ⟨_, hallm⟩
          have hin := (hmem oid).mpr (hallm (a, v) (by simp))
          rw [hid] at hin
          simp at hin
        · rw [if_neg hid]
          by_cases hr : r0 ∩ (alistGet bs v).getD ∅ = ∅
          · rw [if_pos hr]
            refine ⟨∅, rfl, ?_⟩
            intro oid
            simp only [Finset.not_mem_empty, false_iff]
            rintro ⟨hr0, hallm⟩
            have hin := (hmem oid).mpr (hallm (a, v) (by simp))
            have : oid ∈ r0 ∩ (alistGet bs v).getD ∅ :=
              Finset.mem_inter.mpr ⟨hr0, hin⟩
            rw [hr] at this
            simp at this
          · rw [if_neg hr]
            obtain ⟨S, hS, hSmem⟩ := ih (r0 ∩ (alistGet bs v).getD ∅)
              (fun av2 hav2 => hall av2 (by simp [hav2]))
            refine ⟨S, hS, ?_⟩
            intro oid
            rw [hSmem oid, Finset.mem_inter]
            constructor
            · rintro ⟨⟨hr0, hin⟩, hrest⟩
              refine ⟨hr0, ?_⟩
              intro av2 hav2
              rcases List.mem_cons.mp hav2 with he | hm
              · subst he
                exact (hmem oid).mp hin
              · exact hrest av2 hm
            · rintro ⟨hr0, hallm⟩
              exact ⟨⟨hr0, (hmem oid).mpr (hallm (a, v) (by simp))⟩,
                fun av2 hm => hallm av2 (by simp [hm])⟩

theorem searchIds_ok (c : Catalog) (hInv : CatalogInv c)
    (criteria : List (String × JSON)) (hne : criteria ≠ [])
    (hall : ∀ av ∈ criteria, av.1 ∈ c.indexes.map Prod.fst ∧ hashable av.2 = true) :
    ∃ S, searchIds c criteria = .ok S ∧
      ∀ oid, oid ∈ S ↔
        ((alistGet c.items oid).isSome ∧
          ∀ av ∈ criteria, snapMatches c oid av.1 av.2) := by
  rcases criteria with _ | ⟨⟨a, v⟩, rest⟩
  · exact absurd rfl hne
  · have h1 := hall (a, v) (by simp)
    rw [searchIds, searchIdsAux]
    rw [if_neg (by simp [h1.2])]
    rcases hbs : alistGet c.indexes a with _ | bs
    · exact absurd ((alistGet_isSome_iff _ _).mpr h1.1) (by simp [hbs])
    · simp only [hbs]
      have hmem : ∀ oid, oid ∈ (alistGet bs v).getD ∅ ↔ snapMatches c oid a v := by
        intro oid
        rw [← hInv.member a v oid]
        unfold bucketMem
        rcases hg : alistGet bs v with _ | s
        · simp [hbs, hg]
        · simp [hbs, hg]
      have hsome : ∀ oid, snapMatches c oid a v → (alistGet c.items oid).isSome := by
        rintro oid ⟨snap, hsnap, _⟩
        exact (hInv.domEq oid).mpr (by simp [hsnap])
      by_cases hid : (alistGet bs v).getD ∅ = ∅
      · rw [if_pos hid]
        refine ⟨∅, rfl, ?_⟩
        intro oid
        simp only [Finset.not_mem_empty, false_iff]
        rintro ⟨_, hallm⟩
        have hin := (hmem oid).mpr (hallm (a, v) (by simp))
        rw [hid] at hin
        simp at hin
      · rw [if_neg hid]
        rw [if_neg hid]
        obtain ⟨S, hS, hSmem⟩ := searchIdsAux_ok c hInv rest ((alistGet bs v).getD ∅)
          (fun av2 hav2 => hall av2 (by simp [hav2]))
        refine ⟨S, hS, ?_⟩
        intro oid
        rw [hSmem oid]
        constructor
        · rintro ⟨hin, hrest⟩
          refine ⟨hsome oid ((hmem oid).mp hin), ?_⟩
          intro av2 hav2
          rcases List.mem_cons.mp hav2 with he | hm
          · subst he
            exact (hmem oid).mp hin
          · exact hrest av2 hm
        · rintro ⟨_, hallm⟩
          exact ⟨(hmem oid).mpr (hallm (a, v) (by simp)),
            fun av2 hm => hallm av2 (by simp [hm])⟩

/-- C3: after any finite sequence of `index`/`unindex` calls that runs
to completion, for every configured attribute `a` and hashable value
`v`, `search(a=v)` returns exactly the currently-indexed identities
whose snapshot taken at (re-)registration time maps `a` to `v`; and a
search over N constraints returns exactly the intersection of the N
single-constraint searches. -/
theorem c3_catalog (attrs : List String) (ops : List CatOp) (c : Catalog)
    (hc : applyOps (initCatalog attrs) ops = .ok c)
    (criteria : List (String × JSON)) (hne : criteria ≠ [])
    (hall : ∀ av ∈ criteria, av.1 ∈ c.indexes.map Prod.fst ∧ hashable av.2 = true) :
    ∃ S, searchIds c criteria = .ok S ∧
      (∀ oid, oid ∈ S ↔
        ((alistGet c.items oid).isSome ∧
          ∀ av ∈ criteria, snapMatches c oid av.1 av.2)) ∧
      (∀ av ∈ criteria, ∃ S1, searchIds c [av] = .ok S1 ∧
        ∀ oid, oid ∈ S1 ↔
          ((alistGet c.items oid).isSome ∧ snapMatches c oid av.1 av.2)) ∧
      (∀ oid, oid ∈ S ↔
        ∀ av ∈ criteria, ∀ S1, searchIds c [av] = .ok S1 → oid ∈ S1) := by
  have hInv : CatalogInv c := applyOps_inv ops (initCatalog attrs) c (initCatalog_inv attrs) hc
  obtain ⟨S, hS, hSmem⟩ := searchIds_ok c hInv criteria hne hall
  have hsingle : ∀ av ∈ criteria, ∃ S1, searchIds c [av] = .ok S1 ∧
      ∀ oid, oid ∈ S1 ↔
        ((alistGet c.items oid).isSome ∧ snapMatches c oid av.1 av.2) := by
    intro av hav
    obtain ⟨S1, hS1, hS1mem⟩ := searchIds_ok c hInv [av] (by simp)
      (by intro av2 hav2; rw [List.mem_singleton] at hav2; rw [hav2]; exact hall av hav)
    refine ⟨S1, hS1, ?_⟩
    intro oid
    rw [hS1mem oid]
    simp
  refine ⟨S, hS, hSmem, hsingle, ?_⟩
  intro oid
  constructor
  · intro hin av hav S1 hS1
    obtain ⟨S1b, hS1b, hS1bmem⟩ := hsingle av hav
    rw [hS1] at hS1b
    simp at hS1b
    subst hS1b
    rw [hS1bmem oid]
    have := (hSmem oid).mp hin
    exact ⟨this.1, this.2 av hav⟩
  · intro hforall
    rcases criteria with _ | ⟨av0, rest⟩
    · exact absurd rfl hne
    · obtain ⟨S1, hS1, hS1mem⟩ := hsingle av0 (by simp)
      have h0 := (hS1mem oid).mp (hforall av0 (by simp) S1 hS1)
      rw [hSmem oid]
      refine ⟨h0.1, ?_⟩
      intro av hav
      obtain ⟨S2, hS2, hS2mem⟩ := hsingle av hav
      exact ((hS2mem oid).mp (hforall av hav S2 hS2)).2

instance (c : Catalog) (oid : Nat) (a : String) (v : JSON) :
    Decidable (snapMatches c oid a v) := by
  unfold snapMatches
  rcases h1 : alistGet c.values oid with _ | snap
  · exact .isFalse (by simp [h1])
  · exact decidable_of_iff (alistGet snap a = some v) (by simp [h1])

def c3ops : List CatOp :=
  [ .index 1 [("uid", .str "a"), ("name", .str "x")],
    .index 2 [("uid", .str "b"), ("name", .str "x")],
    .index 3 [("uid", .str "c"), ("name", .str "y")],
    .unindex 3,
    .index 2 [("uid", .str "b"), ("name", .str "y")] ]

def c3cat : Catalog :=
  ((applyOps (initCatalog ["uid", "name"]) c3ops).toOption).getD (initCatalog [])

theorem c3_catalog_witness :
    ∃ S, searchIds c3cat [("name", JSON.str "x"), ("uid", JSON.str "a")] = .ok S ∧
      1 ∈ S ∧ 2 ∉ S := by
  obtain ⟨S, hS, hmem, _, _⟩ :=
    c3_catalog ["uid", "name"] c3ops c3cat rfl
      [("name", JSON.str "x"), ("uid", JSON.str "a")] (by decide) (by decide)
  refine ⟨S, hS, ?_, ?_⟩
  · rw [hmem 1]
    decide
  · rw [hmem 2]
    decide

/-! ### C6: `CountryData.filter_out` -/

/-- Python `item['uid']` on a JSON value: present only for objects
with the key; otherwise the subscript raises (`KeyError`/`TypeError`). -/
def uidOf : JSON → Option JSON
  | .obj fs => lookupField fs "uid"
  | _ => none

/-- First loop of `CountryData.filter_out`: walk `item_list` with
`enumerate`, collect the indices of items failing `filter_func` into
`to_delete` (ascending), and when `valid_uids` is supplied add each
surviving item's `uid` to it (raising if the item has no hashable
`uid`). -/
def filterOutPhase1 (p : JSON → Bool) (withUids : Bool) :
    List JSON → Nat → Except Unit (List Nat × Finset JSON)
  | [], _ => .ok ([], ∅)
  | x :: xs, i =>
      if p x then
        if withUids then
          match uidOf x with
          | none => .error ()
          | some u =>
              if hashable u = false then .error ()
              else
                match filterOutPhase1 p withUids xs (i + 1) with
                | .ok (ds, us) => .ok (ds, insert u us)
                | .error e => .error e
        else filterOutPhase1 p withUids xs (i + 1)
      else
        match filterOutPhase1 p withUids xs (i + 1) with
        | .ok (ds, us) => .ok (i :: ds, us)
        | .error e => .error e

/-- `CountryData.filter_out(item_list, filter_func, valid_uids)`:
returns the mutated list (`for index in reversed(to_delete): del
item_list[index]`), the returned `to_delete`, and the final
`valid_uids` content. -/
def filter_out (p : JSON → Bool) (withUids : Bool) (l : List JSON) :
    Except Unit (List JSON × List Nat × Finset JSON) :=
  match filterOutPhase1 p withUids l 0 with
  | .error e => .error e
  | .ok (ds, us) => .ok (List.foldl List.eraseIdx l ds.reverse, ds, us)

theorem phase1_shift (p : JSON → Bool) (withUids : Bool) :
    ∀ (l : List JSON) (i : Nat),
      filterOutPhase1 p withUids l (i + 1) =
        (filterOutPhase1 p withUids l i).map
          (fun r => (r.1.map (fun j => j + 1), r.2)) := by
  intro l
  induction l with
  | nil => intro i; rfl
  | cons x xs ih =>
      intro i
      simp only [filterOutPhase1]
      rw [ih (i + 1)]
      by_cases hp : p x
      · by_cases hw : withUids
        · rcases hu : uidOf x with _ | u
          · simp [hp, hw, hu, Except.map]
          · by_cases hh : hashable u = false
            · simp [hp, hw, hu, hh, Except.map]
            · rcases h2 : filterOutPhase1 p withUids xs (i + 1) with e | ⟨ds, us⟩
              · simp [hp, hw, hu, hh, h2, Except.map]
              · simp [hp, hw, hu, hh, h2, Except.map]
        · rcases h2 : filterOutPhase1 p withUids xs (i + 1) with e | ⟨ds, us⟩
          · simp [hp, hw, h2, Except.map]
          · simp [hp, hw, h2, Except.map]
      · rcases h2 : filterOutPhase1 p withUids xs (i + 1) with e | ⟨ds, us⟩
        · simp [hp, h2, Except.map]
        · simp [hp, h2, Except.map]

theorem foldl_eraseIdx_cons :
    ∀ (ds : List Nat) (xs : List JSON) (x : JSON),
      List.foldl List.eraseIdx (x :: xs) (ds.map (fun j => j + 1)) =
        x :: List.foldl List.eraseIdx xs ds := by
  intro ds
  induction ds with
  | nil => intro xs x; rfl
  | cons d ds ih =>
      intro xs x
      simp only [List.map_cons, List.foldl_cons, List.eraseIdx]
      exact ih (xs.eraseIdx d) x

theorem foldl_eraseIdx_filter (p : JSON → Bool) (withUids : Bool) :
    ∀ (l : List JSON) (ds : List Nat) (us : Finset JSON),
      filterOutPhase1 p withUids l 0 = .ok (ds, us) →
      List.foldl List.eraseIdx l ds.reverse = l.filter p := by
  intro l
  induction l with
  | nil =>
      intro ds us h
      simp only [filterOutPhase1, Except.ok.injEq, Prod.mk.injEq] at h
      rw [← h.1]
      rfl
  | cons x xs ih =>
      intro ds us h
      simp only [filterOutPhase1] at h
      rw [phase1_shift p withUids xs 0] at h
      rcases h2 : filterOutPhase1 p withUids xs 0 with e | ⟨ds0, us0⟩
      · rw [h2] at h
        by_cases hp : p x
        · by_cases hw : withUids
          · rcases hu : uidOf x with _ | u
            · simp [hp, hw, hu] at h
            · by_cases hh : hashable u = false
              · simp [hp, hw, hu, hh] at h
              · simp [hp, hw, hu, hh, Except.map] at h
          · simp [hp, hw, Except.map] at h
        · simp [hp, Except.map] at h
      · rw [h2] at h
        have hrec := ih ds0 us0 h2
        by_cases hp : p x
        · by_cases hw : withUids
          · rcases hu : uidOf x with _ | u
            · simp [hp, hw, hu] at h
            · by_cases hh : hashable u = false
              · simp [hp, hw, hu, hh] at h
              · simp [hp, hw, hu, hh, Except.map, Prod.ext_iff] at h
                rw [← h.1, ← List.map_reverse]
                rw [foldl_eraseIdx_cons, hrec]
                simp [List.filter, hp]
          · simp [hp, hw, Except.map, Prod.ext_iff] at h
            rw [← h.1, ← List.map_reverse]
            rw [foldl_eraseIdx_cons, hrec]
            simp [List.filter, hp]
        · simp [hp, Except.map, Prod.ext_iff] at h
          rw [← h.1]
          simp only [List.reverse_cons, List.foldl_append, List.foldl_cons,
            List.foldl_nil, ← List.map_reverse]
          rw [foldl_eraseIdx_cons, hrec]
          simp [List.filter, hp, List.eraseIdx]

theorem phase1_ok (p : JSON → Bool) (withUids : Bool) :
    ∀ (l : List JSON) (i : Nat),
      (withUids = true → ∀ x ∈ l, p x = true →
        ∃ u, uidOf x = some u ∧ hashable u = true) →
      ∃ ds us, filterOutPhase1 p withUids l i = .ok (ds, us) ∧
        (∀ j, j ∈ ds ↔ ∃ x, l[j - i]? = some x ∧ i ≤ j ∧ p x = false) ∧
        List.Pairwise (fun a b => a < b) ds ∧
        (∀ j ∈ ds, i ≤ j) ∧
        ds.length + (l.filter p).length = l.length ∧
        (∀ u, u ∈ us ↔ withUids = true ∧
          ∃ x ∈ l, p x = true ∧ uidOf x = some u) := by
  intro l
  induction l with
  | nil =>
      intro i _
      refine ⟨[], ∅, rfl, ?_, List.Pairwise.nil, by simp, by simp, by simp⟩
      intro j
      simp
  | cons x xs ih =>
      intro i hok
      have hok2 : withUids = true → ∀ y ∈ xs, p y = true →
          ∃ u, uidOf y = some u ∧ hashable u = true :=
        fun hw y hy => hok hw y (by simp [hy])
      obtain ⟨ds, us, heq, hmem, hpw, hlb, hlen, hus⟩ := ih (i + 1) hok2
      by_cases hp : p x
      · have hshift : ∀ j, j ∈ ds →
            (∃ y, (x :: xs)[j - i]? = some y ∧ i ≤ j ∧ p y = false) := by
          intro j hj
          obtain ⟨y, hy, hij, hpy⟩ := (hmem j).mp hj
          refine ⟨y, ?_, by omega, hpy⟩
          have : j - i = (j - (i + 1)) + 1 := by omega
          rw [this, List.getElem?_cons_succ]
          exact hy
        have hshift2 : ∀ j, (∃ y, (x :: xs)[j - i]? = some y ∧ i ≤ j ∧ p y = false) →
            j ∈ ds := by
          rintro j ⟨y, hy, hij, hpy⟩
          rcases Nat.eq_or_lt_of_le hij with he | hlt
          · rw [← he] at hy
            simp at hy
            rw [← hy] at hpy
            rw [hp] at hpy
            exact absurd hpy (by simp)
          · refine (hmem j).mpr ⟨y, ?_, by omega, hpy⟩
            have : j - i = (j - (i + 1)) + 1 := by omega
            rw [this, List.getElem?_cons_succ] at hy
            exact hy
        by_cases hw : withUids
        · obtain ⟨u, hu, hh⟩ := hok hw x (by simp) hp
          have heq2 := heq
          rw [hw] at heq2
          refine ⟨ds, insert u us, ?_, ?_, hpw, fun j hj => by
            have := hlb j hj; omega, ?_, ?_⟩
          · simp [filterOutPhase1, hp, hw, hu, hh, heq2]
          · intro j
            exact ⟨hshift j, hshift2 j⟩
          · simp only [List.filter, hp, List.length_cons]
            omega
          · intro u2
            rw [Finset.mem_insert, hus u2]
            constructor
            · rintro (he | ⟨_, y, hy, hpy, huy⟩)
              · exact ⟨hw, x, by simp, hp, by rw [he]; exact hu⟩
              · exact ⟨hw, y, by simp [hy], hpy, huy⟩
            · rintro ⟨_, y, hy, hpy, huy⟩
              rcases List.mem_cons.mp hy with he | hm
              · left
                rw [he] at huy
                rw [hu] at huy
                exact (Option.some.injEq _ _ ▸ huy).symm
              · right
                exact ⟨hw, y, hm, hpy, huy⟩
        · have hw' : withUids = false := by revert hw; cases withUids <;> simp
          have heq2 := heq
          rw [hw'] at heq2
          refine ⟨ds, us, ?_, fun j => ⟨hshift j, hshift2 j⟩, hpw,
            fun j hj => by have := hlb j hj; omega, ?_, ?_⟩
          · simp [filterOutPhase1, hp, hw', heq2]
          · simp only [List.filter, hp, List.length_cons]
            omega
          · intro u2
            rw [hus u2]
            constructor
            · rintro ⟨hw2, _⟩
              exact absurd hw2 (by simp [hw])
            · rintro ⟨hw2, _⟩
              exact absurd hw2 (by simp [hw])
      · refine ⟨i :: ds, us, ?_, ?_, ?_, ?_, ?_, ?_⟩
        · simp [filterOutPhase1, hp, heq]
        · intro j
          rw [List.mem_cons]
          constructor
          · rintro (he | hj)
            · refine ⟨x, ?_, by omega, by simp [hp]⟩
              rw [he]
              simp
            · obtain ⟨y, hy, hij, hpy⟩ := (hmem j).mp hj
              refine ⟨y, ?_, by omega, hpy⟩
              have : j - i = (j - (i + 1)) + 1 := by omega
              rw [this, List.getElem?_cons_succ]
              exact hy
          · rintro ⟨y, hy, hij, hpy⟩
            rcases Nat.eq_or_lt_of_le hij with he | hlt
            · exact Or.inl he.symm
            · refine Or.inr ((hmem j).mpr ⟨y, ?_, by omega, hpy⟩)
              have : j - i = (j - (i + 1)) + 1 := by omega
              rw [this, List.getElem?_cons_succ] at hy
              exact hy
        · exact List.Pairwise.cons (fun j hj => by have := hlb j hj; omega) hpw
        · intro j hj
          rcases List.mem_cons.mp hj with he | hm
          · omega
          · have := hlb j hm
            omega
        · simp only [List.filter, hp, List.length_cons]
          omega
        · intro u2
          rw [hus u2]
          constructor
          · rintro ⟨hw2, y, hy, hpy, huy⟩
            exact ⟨hw2, y, by simp [hy], hpy, huy⟩
          · rintro ⟨hw2, y, hy, hpy, huy⟩
            rcases List.mem_cons.mp hy with he | hm
            · rw [he] at hpy
              exact absurd hpy hp
            · exact ⟨hw2, y, hm, hpy, huy⟩

/-- C6: for every list, predicate and optional uid set (every kept
item carrying a hashable uid when the set is supplied, as the claim
presupposes), `filter_out` completes, leaves in the list exactly the
original elements satisfying the predicate in their original relative
order, returns the strictly-ascending indices of exactly the removed
elements (so the deleted count is the returned length: it equals the
original length minus the survivors), and adds to the supplied set
exactly the uids of the surviving elements. -/
theorem c6_filter_out (p : JSON → Bool) (withUids : Bool) (l : List JSON)
    (hok : withUids = true → ∀ x ∈ l, p x = true →
      ∃ u, uidOf x = some u ∧ hashable u = true) :
    ∃ ds us, filter_out p withUids l = .ok (l.filter p, ds, us) ∧
      List.Pairwise (fun a b => a < b) ds ∧
      (∀ j, j ∈ ds ↔ ∃ x, l[j]? = some x ∧ p x = false) ∧
      ds.length + (l.filter p).length = l.length ∧
      (∀ u, u ∈ us ↔ withUids = true ∧
        ∃ x ∈ l, p x = true ∧ uidOf x = some u) := by
  obtain ⟨ds, us, h1, hmem, hpw, _, hlen, hus⟩ := phase1_ok p withUids l 0 hok
  refine ⟨ds, us, ?_, hpw, ?_, hlen, hus⟩
  · simp only [filter_out, h1]
    rw [foldl_eraseIdx_filter p withUids l ds us h1]
  · intro j
    rw [hmem j]
    simp

def c6pred (x : JSON) : Bool :=
  match x with
  | .obj fs => lookupField fs "keep" = some (.bool true)
  | _ => false

def c6list : List JSON :=
  [ .obj [("uid", .num 1), ("keep", .bool true)],
    .obj [("uid", .num 2), ("keep", .bool false)],
    .obj [("uid", .num 3), ("keep", .bool true)] ]

theorem c6_filter_out_witness :
    ∃ ds us, filter_out c6pred true c6list = .ok (c6list.filter c6pred, ds, us) ∧
      List.Pairwise (fun a b => a < b) ds ∧
      (∀ j, j ∈ ds ↔ ∃ x, c6list[j]? = some x ∧ c6pred x = false) ∧
      ds.length + (c6list.filter c6pred).length = c6list.length ∧
      (∀ u, u ∈ us ↔ true = true ∧
        ∃ x ∈ c6list, c6pred x = true ∧ uidOf x = some u) :=
  c6_filter_out c6pred true c6list (by
    intro _ x hx hp
    simp only [c6list, List.mem_cons, List.not_mem_nil, or_false] at hx
    rcases hx with h | h | h
    · rw [h]
      exact ⟨.num 1, rfl, rfl⟩
    · rw [h] at hp
      exact absurd hp (by decide)
    · rw [h]
      exact ⟨.num 3, rfl, rfl⟩)


/-! ### C4/C8: `CountryData.reparent_nodes`

The root-level country node list `self.nodes` and everything it
references are modelled as a forest: a heap assigning node records to
Python identities (`oid`), plus the list of root-level identities.  A
node record keeps the claim-relevant fields: `uid` (every node of
these claims carries a string uid), the presence of
`'template_node_uid'`, the optional `'parent_uid'` string, and the
`'node'` child list (identities).  The stale `node_index` lookup
`self.get_node(parent_uid, False)` — `first(uid=...)` over the catalog
built in `__init__` and not updated during the loop — is abstracted as
a function `resolve : String → Option Nat` returning the identity of
some indexed node with that uid, constant through the generator run
(the loop never re-indexes).  `logger.error` calls are accumulated as
`(node_uid, parent_uid)` pairs.  The final `clear`/`index_iterable
(traverse(self.nodes))` rebuild indexes exactly the objects reachable
from the pruned root list, captured by `ReachableF`. -/

structure NodeData where
  uid : String
  hasTmpl : Bool
  parentUid : Option String
  children : List Nat
deriving DecidableEq, Repr

abbrev Heap := List (Nat × NodeData)

/-- `CountryData.is_metadata_uid(uid)`: `'-' in uid`. -/
def is_metadata_uid (u : String) : Bool := u.data.contains '-'

structure RState where
  heap : Heap
  nested : List Nat
  logged : List (String × String)
deriving DecidableEq, Repr

/-- One iteration of the `reparent_nodes` loop at enumeration index
`i` for the root-level node with identity `oid`. -/
def processNode (resolve : String → Option Nat) (st : RState) (i : Nat) (oid : Nat) :
    Except Unit RState :=
  match alistGet st.heap oid with
  | none => .error ()
  | some nd =>
      if nd.hasTmpl = false then .ok st
      else
        match nd.parentUid with
        | none => .ok st
        | some pu =>
            if is_metadata_uid nd.uid || is_metadata_uid pu then .ok st
            else
              match resolve pu with
              | none => .ok { st with logged := st.logged ++ [(nd.uid, pu)] }
              | some poid =>
                  match alistGet st.heap poid with
                  | none => .error ()
                  | some pd =>
                      match alistGet (alistSet st.heap poid
                          { pd with children := pd.children ++ [oid] }) oid with
                      | none => .error ()
                      | some nd1 =>
                          .ok { heap := alistSet (alistSet st.heap poid
                                  { pd with children := pd.children ++ [oid] }) oid
                                  { nd1 with parentUid := none },
                                nested := st.nested ++ [i],
                                logged := st.logged }

def enumF : Nat → List Nat → List (Nat × Nat)
  | _, [] => []
  | i, x :: xs => (i, x) :: enumF (i + 1) xs

def reparentLoop (resolve : String → Option Nat) :
    RState → List (Nat × Nat) → Except Unit RState
  | st, [] => .ok st
  | st, (i, oid) :: rest =>
      match processNode resolve st i oid with
      | .ok st2 => reparentLoop resolve st2 rest
      | .error e => .error e

/-- `CountryData.reparent_nodes`, run to exhaustion: the enumeration
loop, then — only when some node was nested — the reversed deletion
from the root list (the index rebuild is captured by `ReachableF` over
the returned heap and roots). -/
def reparent_nodes (resolve : String → Option Nat) (h0 : Heap) (roots : List Nat) :
    Except Unit (Heap × List Nat × List (String × String)) :=
  match reparentLoop resolve ⟨h0, [], []⟩ (enumF 0 roots) with
  | .error e => .error e
  | .ok st =>
      if st.nested = [] then .ok (st.heap, roots, st.logged)
      else .ok (st.heap, List.foldl List.eraseIdx roots st.nested.reverse, st.logged)

/-- The static candidacy test of the loop body (its inputs — the
markers, uid and parent uid — are never modified by the loop). -/
def candOf (h0 : Heap) (oid : Nat) : Option (String × String) :=
  match alistGet h0 oid with
  | none => none
  | some nd =>
      if nd.hasTmpl = false then none
      else
        match nd.parentUid with
        | none => none
        | some pu =>
            if is_metadata_uid nd.uid || is_metadata_uid pu then none
            else some (nd.uid, pu)

def movedTarget (resolve : String → Option Nat) (h0 : Heap) (oid : Nat) : Option Nat :=
  match candOf h0 oid with
  | none => none
  | some (_, pu) => resolve pu

def movedB (resolve : String → Option Nat) (h0 : Heap) (oid : Nat) : Bool :=
  (movedTarget resolve h0 oid).isSome

def logOf (resolve : String → Option Nat) (h0 : Heap) (oid : Nat) :
    Option (String × String) :=
  match candOf h0 oid with
  | none => none
  | some (u, pu) => match resolve pu with | none => some (u, pu) | some _ => none

def collectIdx {α : Type} (p : α → Bool) : List α → Nat → List Nat
  | [], _ => []
  | x :: xs, i => if p x then i :: collectIdx p xs (i + 1) else collectIdx p xs (i + 1)

/-- Objects indexed by the rebuilt catalog: reachable from the pruned
root list through child lists (`traverse` descends ever deeper). -/
inductive ReachableF (h : Heap) (roots : List Nat) : Nat → Prop where
  | root : ∀ oid, oid ∈ roots → ReachableF h roots oid
  | child : ∀ oid nd c, ReachableF h roots oid → alistGet h oid = some nd →
      c ∈ nd.children → ReachableF h roots c

theorem not_reachable_nil (h : Heap) (x : Nat) : ¬ ReachableF h [] x := by
  intro hr
  induction hr with
  | root o hm => exact absurd hm (List.not_mem_nil o)
  | child _ _ _ _ _ _ ih => exact ih

theorem collectIdx_shift {α : Type} (p : α → Bool) :
    ∀ (l : List α) (i : Nat),
      collectIdx p l (i + 1) = (collectIdx p l i).map (fun j => j + 1) := by
  intro l
  induction l with
  | nil => intro i; rfl
  | cons x xs ih =>
      intro i
      by_cases hp : p x
      · simp [collectIdx, hp, ih (i + 1)]
      · simp [collectIdx, hp, ih (i + 1)]

theorem foldl_eraseIdx_cons_gen {α : Type} :
    ∀ (ds : List Nat) (xs : List α) (x : α),
      List.foldl List.eraseIdx (x :: xs) (ds.map (fun j => j + 1)) =
        x :: List.foldl List.eraseIdx xs ds := by
  intro ds
  induction ds with
  | nil => intro xs x; rfl
  | cons d ds ih =>
      intro xs x
      simp only [List.map_cons, List.foldl_cons, List.eraseIdx]
      exact ih (xs.eraseIdx d) x

theorem foldl_eraseIdx_collectIdx {α : Type} (p : α → Bool) :
    ∀ l : List α,
      List.foldl List.eraseIdx l (collectIdx p l 0).reverse =
        l.filter (fun x => !p x) := by
  intro l
  induction l with
  | nil => rfl
  | cons x xs ih =>
      by_cases hp : p x
      · have hcollect : collectIdx p (x :: xs) 0 =
            0 :: (collectIdx p xs 0).map (fun j => j + 1) := by
          simp [collectIdx, hp, collectIdx_shift]
        rw [hcollect]
        simp only [List.reverse_cons, List.foldl_append, List.foldl_cons,
          List.foldl_nil, ← List.map_reverse]
        rw [foldl_eraseIdx_cons_gen, ih]
        simp [List.filter, hp, List.eraseIdx]
      · have hcollect : collectIdx p (x :: xs) 0 =
            (collectIdx p xs 0).map (fun j => j + 1) := by
          simp [collectIdx, hp, collectIdx_shift]
        rw [hcollect, ← List.map_reverse, foldl_eraseIdx_cons_gen, ih]
        simp [List.filter, hp]

theorem collectIdx_ne_nil {α : Type} (p : α → Bool) :
    ∀ (l : List α) (i : Nat) (x : α), x ∈ l → p x = true →
      collectIdx p l i ≠ [] := by
  intro l
  induction l with
  | nil => intro i x hx; exact absurd hx (List.not_mem_nil x)
  | cons y ys ih =>
      intro i x hx hp
      rcases List.mem_cons.mp hx with he | hm
      · rw [he] at hp
        simp [collectIdx, hp]
      · by_cases hy : p y
        · simp [collectIdx, hy]
        · simp only [collectIdx, hy, if_false]
          exact ih (i + 1) x hm hp


theorem processNode_move (resolve : String → Option Nat) (st : RState) (i r : Nat)
    (nd : NodeData) (pu : String) (poid : Nat) (pd : NodeData)
    (hnd : alistGet st.heap r = some nd)
    (htm : ¬ nd.hasTmpl = false)
    (hpn : nd.parentUid = some pu)
    (hmet : (is_metadata_uid nd.uid || is_metadata_uid pu) = false)
    (hrs : resolve pu = some poid)
    (hpd : alistGet st.heap poid = some pd) :
    ∃ h2, processNode resolve st i r = .ok ⟨h2, st.nested ++ [i], st.logged⟩ ∧
      (∀ q, q ≠ r → q ≠ poid → alistGet h2 q = alistGet st.heap q) ∧
      (∃ ndr, alistGet h2 r = some ndr ∧ ndr.uid = nd.uid ∧
        ndr.hasTmpl = nd.hasTmpl ∧ ndr.parentUid = none ∧
        (∀ c ∈ nd.children, c ∈ ndr.children)) ∧
      (∃ pdx, alistGet h2 poid = some pdx ∧ pdx.uid = pd.uid ∧
        pdx.hasTmpl = pd.hasTmpl ∧ r ∈ pdx.children ∧
        (∀ c ∈ pd.children, c ∈ pdx.children) ∧
        (pdx.parentUid = pd.parentUid ∨ (poid = r ∧ pdx.parentUid = none))) := by
  have htm' : nd.hasTmpl = true := by
    revert htm
    cases nd.hasTmpl <;> simp
  by_cases hrp : r = poid
  · have hpdnd : pd = nd := by
      rw [← hrp] at hpd
      rw [hnd] at hpd
      injection hpd with he
      exact he.symm
    subst hpdnd
    refine ⟨alistSet (alistSet st.heap poid
        { pd with children := pd.children ++ [r] }) r
        { pd with parentUid := none, children := pd.children ++ [r] },
      ?_, ?_, ?_, ?_⟩
    · simp [processNode, hnd, htm', hpn, hmet, hrs, hpd, alistGet_set, hrp]
    · intro q hq1 hq2
      rw [alistGet_set, if_neg hq1, alistGet_set, if_neg hq2]
    · refine ⟨{ pd with parentUid := none, children := pd.children ++ [r] },
        by rw [alistGet_set, if_pos rfl], rfl, rfl, rfl, ?_⟩
      intro c hc
      simp [hc]
    · refine ⟨{ pd with parentUid := none, children := pd.children ++ [r] },
        by rw [alistGet_set, if_pos hrp.symm], rfl, rfl, by simp, ?_,
        Or.inr ⟨hrp.symm, rfl⟩⟩
      intro c hc
      simp [hc]
  · refine ⟨alistSet (alistSet st.heap poid
        { pd with children := pd.children ++ [r] }) r
        { nd with parentUid := none },
      ?_, ?_, ?_, ?_⟩
    · simp [processNode, hnd, htm', hpn, hmet, hrs, hpd, alistGet_set, hrp]
    · intro q hq1 hq2
      rw [alistGet_set, if_neg hq1, alistGet_set, if_neg hq2]
    · refine ⟨{ nd with parentUid := none },
        by rw [alistGet_set, if_pos rfl], rfl, rfl, rfl, fun c hc => hc⟩
    · refine ⟨{ pd with children := pd.children ++ [r] },
        by rw [alistGet_set, if_neg (fun h => hrp h.symm), alistGet_set, if_pos rfl],
        rfl, rfl, by simp, ?_, Or.inl rfl⟩
      intro c hc
      simp [hc]

theorem reparentLoop_master (resolve : String → Option Nat) (h0 : Heap)
    (hres : ∀ u poid, resolve u = some poid → (alistGet h0 poid).isSome) :
    ∀ (rs : List Nat) (i : Nat) (st : RState),
      rs.Nodup →
      (∀ oid, (alistGet st.heap oid).isSome ↔ (alistGet h0 oid).isSome) →
      (∀ oid nd0, alistGet h0 oid = some nd0 →
        ∃ nd, alistGet st.heap oid = some nd ∧ nd.uid = nd0.uid ∧
          nd.hasTmpl = nd0.hasTmpl) →
      (∀ oid ∈ rs, ∀ nd0, alistGet h0 oid = some nd0 →
        ∃ nd, alistGet st.heap oid = some nd ∧ nd.parentUid = nd0.parentUid) →
      (∀ oid ∈ rs, (alistGet h0 oid).isSome) →
      ∃ st2, reparentLoop resolve st (enumF i rs) = .ok st2 ∧
        (∀ oid, (alistGet st2.heap oid).isSome ↔ (alistGet h0 oid).isSome) ∧
        (∀ oid nd, alistGet st.heap oid = some nd →
          ∃ nd2, alistGet st2.heap oid = some nd2 ∧ nd2.uid = nd.uid ∧
            nd2.hasTmpl = nd.hasTmpl ∧ (∀ c ∈ nd.children, c ∈ nd2.children) ∧
            (nd2.parentUid = nd.parentUid ∨
              (oid ∈ rs ∧ movedB resolve h0 oid = true ∧ nd2.parentUid = none))) ∧
        st2.nested = st.nested ++ collectIdx (movedB resolve h0) rs i ∧
        st2.logged = st.logged ++ rs.filterMap (logOf resolve h0) ∧
        (∀ oid ∈ rs, movedB resolve h0 oid = true →
          ∃ nd2, alistGet st2.heap oid = some nd2 ∧ nd2.parentUid = none) ∧
        (∀ oid ∈ rs, ∀ poid, movedTarget resolve h0 oid = some poid →
          ∃ pd2, alistGet st2.heap poid = some pd2 ∧ oid ∈ pd2.children) := by
  intro rs
  induction rs with
  | nil =>
      intro i st _ hdom hstab _ _
      refine ⟨st, rfl, hdom, ?_, by simp [collectIdx], by simp, by simp, by simp⟩
      intro oid nd hnd
      exact ⟨nd, hnd, rfl, rfl, fun c hc => hc, Or.inl rfl⟩
  | cons r rs ih =>
      intro i st hnodup hdom hstab hfresh hroots
      obtain ⟨nd0, hnd0⟩ : ∃ nd0, alistGet h0 r = some nd0 := by
        rcases h : alistGet h0 r with _ | v
        · exact absurd (hroots r (by simp)) (by simp [h])
        · exact ⟨v, rfl⟩
      obtain ⟨nd, hnd, hu, ht⟩ := hstab r nd0 hnd0
      obtain ⟨nd', hnd', hp'⟩ := hfresh r (by simp) nd0 hnd0
      have hps : nd.parentUid = nd0.parentUid := by
        rw [hnd] at hnd'
        injection hnd' with he
        rw [he]
        exact hp'
      have hnodup2 : rs.Nodup := (List.nodup_cons.mp hnodup).2
      have hrni : r ∉ rs := (List.nodup_cons.mp hnodup).1
      have hfresh2 : ∀ oid ∈ rs, ∀ m0, alistGet h0 oid = some m0 →
          ∃ m, alistGet st.heap oid = some m ∧ m.parentUid = m0.parentUid :=
        fun oid ho m0 hm0 => hfresh oid (by simp [ho]) m0 hm0
      have hroots2 : ∀ oid ∈ rs, (alistGet h0 oid).isSome :=
        fun oid ho => hroots oid (by simp [ho])
      by_cases htm : nd.hasTmpl = false
      · -- no template marker: skipped
        have hcand : candOf h0 r = none := by
          have h1 : nd0.hasTmpl = false := by rw [← ht]; exact htm
          simp [candOf, hnd0, h1]
        have hmvB : movedB resolve h0 r = false := by
          simp [movedB, movedTarget, hcand]
        have hlog : logOf resolve h0 r = none := by simp [logOf, hcand]
        have hstep : processNode resolve st i r = .ok st := by
          simp [processNode, hnd, htm]
        obtain ⟨st2, hloop, c1, c2, c3, c4, c5, c6⟩ :=
          ih (i + 1) st hnodup2 hdom hstab hfresh2 hroots2
        refine ⟨st2, ?_, c1, ?_, ?_, ?_, ?_, ?_⟩
        · simp only [enumF, reparentLoop, hstep]
          exact hloop
        · intro q m hm
          obtain ⟨m2, hm2, e1, e2, e3, e4⟩ := c2 q m hm
          refine ⟨m2, hm2, e1, e2, e3, ?_⟩
          rcases e4 with h | ⟨ho, hb, hn⟩
          · exact Or.inl h
          · exact Or.inr ⟨by simp [ho], hb, hn⟩
        · rw [c3]
          simp [collectIdx, hmvB]
        · rw [c4]
          simp [hlog]
        · intro q hq hb
          rcases List.mem_cons.mp hq with he | hm
          · rw [he, hmvB] at hb
            simp at hb
          · exact c5 q hm hb
        · intro q hq poid hpt
          rcases List.mem_cons.mp hq with he | hm
          · rw [he] at hpt
            simp [movedTarget, hcand] at hpt
          · exact c6 q hm poid hpt
      · rcases hpn : nd.parentUid with _ | pu
        · -- no parent_uid: skipped
          have hcand : candOf h0 r = none := by
            have h1 : ¬ nd0.hasTmpl = false := by rw [← ht]; exact htm
            have h2 : nd0.parentUid = none := by rw [← hps]; exact hpn
            simp [candOf, hnd0, h1, h2]
          have hmvB : movedB resolve h0 r = false := by
            simp [movedB, movedTarget, hcand]
          have hlog : logOf resolve h0 r = none := by simp [logOf, hcand]
          have hstep : processNode resolve st i r = .ok st := by
            simp [processNode, hnd, htm, hpn]
          obtain ⟨st2, hloop, c1, c2, c3, c4, c5, c6⟩ :=
            ih (i + 1) st hnodup2 hdom hstab hfresh2 hroots2
          refine ⟨st2, ?_, c1, ?_, ?_, ?_, ?_, ?_⟩
          · simp only [enumF, reparentLoop, hstep]
            exact hloop
          · intro q m hm
            obtain ⟨m2, hm2, e1, e2, e3, e4⟩ := c2 q m hm
            refine ⟨m2, hm2, e1, e2, e3, ?_⟩
            rcases e4 with h | ⟨ho, hb, hn⟩
            · exact Or.inl h
            · exact Or.inr ⟨by simp [ho], hb, hn⟩
          · rw [c3]
            simp [collectIdx, hmvB]
          · rw [c4]
            simp [hlog]
          · intro q hq hb
            rcases List.mem_cons.mp hq with he | hm
            · rw [he, hmvB] at hb
              simp at hb
            · exact c5 q hm hb
          · intro q hq poid hpt
            rcases List.mem_cons.mp hq with he | hm
            · rw [he] at hpt
              simp [movedTarget, hcand] at hpt
            · exact c6 q hm poid hpt
        · have hps0 : nd0.parentUid = some pu := by rw [← hps]; exact hpn
          have ht0 : ¬ nd0.hasTmpl = false := by rw [← ht]; exact htm
          by_cases hmet : (is_metadata_uid nd.uid || is_metadata_uid pu) = true
          · -- metadata uid: skipped silently
            have hcand : candOf h0 r = none := by
              have h1 : (is_metadata_uid nd0.uid || is_metadata_uid pu) = true := by
                rw [← hu]
                exact hmet
              simp [candOf, hnd0, ht0, hps0, h1]
            have hmvB : movedB resolve h0 r = false := by
              simp [movedB, movedTarget, hcand]
            have hlog : logOf resolve h0 r = none := by simp [logOf, hcand]
            have hstep : processNode resolve st i r = .ok st := by
              simp [processNode, hnd, htm, hpn, hmet]
            obtain ⟨st2, hloop, c1, c2, c3, c4, c5, c6⟩ :=
              ih (i + 1) st hnodup2 hdom hstab hfresh2 hroots2
            refine ⟨st2, ?_, c1, ?_, ?_, ?_, ?_, ?_⟩
            · simp only [enumF, reparentLoop, hstep]
              exact hloop
            · intro q m hm
              obtain ⟨m2, hm2, e1, e2, e3, e4⟩ := c2 q m hm
              refine ⟨m2, hm2, e1, e2, e3, ?_⟩
              rcases e4 with h | ⟨ho, hb, hn⟩
              · exact Or.inl h
              · exact Or.inr ⟨by simp [ho], hb, hn⟩
            · rw [c3]
              simp [collectIdx, hmvB]
            · rw [c4]
              simp [hlog]
            · intro q hq hb
              rcases List.mem_cons.mp hq with he | hm
              · rw [he, hmvB] at hb
                simp at hb
              · exact c5 q hm hb
            · intro q hq poid hpt
              rcases List.mem_cons.mp hq with he | hm
              · rw [he] at hpt
                simp [movedTarget, hcand] at hpt
              · exact c6 q hm poid hpt
          · have hmet' : (is_metadata_uid nd.uid || is_metadata_uid pu) = false := by
              revert hmet
              cases is_metadata_uid nd.uid || is_metadata_uid pu <;> simp
            have hmet0 : (is_metadata_uid nd0.uid || is_metadata_uid pu) = false := by
              rw [← hu]
              exact hmet'
            have hcand : candOf h0 r = some (nd0.uid, pu) := by
              simp [candOf, hnd0, ht0, hps0, hmet0]
            rcases hrsv : resolve pu with _ | poid
            · -- dangling parent: logged
              have hmvB : movedB resolve h0 r = false := by
                simp [movedB, movedTarget, hcand, hrsv]
              have hlog : logOf resolve h0 r = some (nd0.uid, pu) := by
                simp [logOf, hcand, hrsv]
              have hstep : processNode resolve st i r =
                  .ok { st with logged := st.logged ++ [(nd.uid, pu)] } := by
                simp [processNode, hnd, htm, hpn, hmet, hrsv]
              obtain ⟨st2, hloop, c1, c2, c3, c4, c5, c6⟩ :=
                ih (i + 1) { st with logged := st.logged ++ [(nd.uid, pu)] }
                  hnodup2 hdom hstab hfresh2 hroots2
              refine ⟨st2, ?_, c1, ?_, ?_, ?_, ?_, ?_⟩
              · simp only [enumF, reparentLoop, hstep]
                exact hloop
              · intro q m hm
                obtain ⟨m2, hm2, e1, e2, e3, e4⟩ := c2 q m hm
                refine ⟨m2, hm2, e1, e2, e3, ?_⟩
                rcases e4 with h | ⟨ho, hb, hn⟩
                · exact Or.inl h
                · exact Or.inr ⟨by simp [ho], hb, hn⟩
              · rw [c3]
                simp [collectIdx, hmvB]
              · rw [c4]
                simp [hlog, hu, List.append_assoc]
              · intro q hq hb
                rcases List.mem_cons.mp hq with he | hm
                · rw [he, hmvB] at hb
                  simp at hb
                · exact c5 q hm hb
              · intro q hq poid hpt
                rcases List.mem_cons.mp hq with he | hm
                · rw [he] at hpt
                  simp [movedTarget, hcand, hrsv] at hpt
                · exact c6 q hm poid hpt
            · -- resolvable parent: the node is moved
              have hmt : movedTarget resolve h0 r = some poid := by
                simp [movedTarget, hcand, hrsv]
              have hmvB : movedB resolve h0 r = true := by
                simp [movedB, hmt]
              have hlog : logOf resolve h0 r = none := by
                simp [logOf, hcand, hrsv]
              have hpoid0 : (alistGet h0 poid).isSome := hres pu poid hrsv
              obtain ⟨pd, hpd⟩ : ∃ pd, alistGet st.heap poid = some pd := by
                have hs := (hdom poid).mpr hpoid0
                rcases h : alistGet st.heap poid with _ | v
                · rw [h] at hs
                  simp at hs
                · exact ⟨v, rfl⟩
              obtain ⟨h2, hstep, hother, ⟨ndr, hndr, hru, hrt, hrp, hrc⟩,
                ⟨pdx, hpdx, hxu, hxt, hxr, hxc, hxp⟩⟩ :=
                processNode_move resolve st i r nd pu poid pd hnd htm hpn hmet' hrsv hpd
              have hdom' : ∀ q, (alistGet h2 q).isSome ↔ (alistGet h0 q).isSome := by
                intro q
                by_cases h1 : q = r
                · rw [h1, hndr]
                  simp [hnd0]
                · by_cases h2q : q = poid
                  · rw [h2q, hpdx]
                    simp [hpoid0]
                  · rw [hother q h1 h2q]
                    exact hdom q
              have hstab' : ∀ q m0, alistGet h0 q = some m0 →
                  ∃ m, alistGet h2 q = some m ∧ m.uid = m0.uid ∧
                    m.hasTmpl = m0.hasTmpl := by
                intro q m0 hm0
                obtain ⟨m, hm, hmu, hmt2⟩ := hstab q m0 hm0
                by_cases h1 : q = r
                · have hmnd : m = nd := by
                    rw [h1] at hm
                    rw [hnd] at hm
                    injection hm with he
                    exact he.symm
                  refine ⟨ndr, by rw [h1]; exact hndr, ?_, ?_⟩
                  · rw [hru, ← hmnd]
                    exact hmu
                  · rw [hrt, ← hmnd]
                    exact hmt2
                · by_cases h2q : q = poid
                  · have hmpd : m = pd := by
                      rw [h2q] at hm
                      rw [hpd] at hm
                      injection hm with he
                      exact he.symm
                    refine ⟨pdx, by rw [h2q]; exact hpdx, ?_, ?_⟩
                    · rw [hxu, ← hmpd]
                      exact hmu
                    · rw [hxt, ← hmpd]
                      exact hmt2
                  · exact ⟨m, by rw [hother q h1 h2q]; exact hm, hmu, hmt2⟩
              have hfresh' : ∀ q ∈ rs, ∀ m0, alistGet h0 q = some m0 →
                  ∃ m, alistGet h2 q = some m ∧ m.parentUid = m0.parentUid := by
                intro q hq m0 hm0
                obtain ⟨m, hm, hmp⟩ := hfresh2 q hq m0 hm0
                have h1 : q ≠ r := fun he => hrni (he ▸ hq)
                by_cases h2q : q = poid
                · have hmpd : m = pd := by
                    rw [h2q] at hm
                    rw [hpd] at hm
                    injection hm with he
                    exact he.symm
                  refine ⟨pdx, by rw [h2q]; exact hpdx, ?_⟩
                  rcases hxp with hsame | ⟨hpr, _⟩
                  · rw [hsame, ← hmpd]
                    exact hmp
                  · exact absurd (h2q ▸ hpr : q = r) h1
                · exact ⟨m, by rw [hother q h1 h2q]; exact hm, hmp⟩
              obtain ⟨st2, hloop, c1, c2, c3, c4, c5, c6⟩ :=
                ih (i + 1) ⟨h2, st.nested ++ [i], st.logged⟩
                  hnodup2 hdom' hstab' hfresh' hroots2
              refine ⟨st2, ?_, c1, ?_, ?_, ?_, ?_, ?_⟩
              · simp only [enumF, reparentLoop, hstep]
                exact hloop
              · intro q m hm
                by_cases h1 : q = r
                · have hmnd : m = nd := by
                    rw [h1] at hm
                    rw [hnd] at hm
                    injection hm with he
                    exact he.symm
                  obtain ⟨m2, hm2, e1, e2, e3, e4⟩ := c2 r ndr hndr
                  refine ⟨m2, by rw [h1]; exact hm2, ?_, ?_, ?_, ?_⟩
                  · rw [e1, hru, hmnd]
                  · rw [e2, hrt, hmnd]
                  · intro c hc
                    exact e3 c (hrc c (hmnd ▸ hc))
                  · refine Or.inr ⟨by simp [h1], by rw [h1]; exact hmvB, ?_⟩
                    rcases e4 with hsame | ⟨_, _, hn⟩
                    · rw [hsame, hrp]
                    · exact hn
                · by_cases h2q : q = poid
                  · have hmpd : m = pd := by
                      rw [h2q] at hm
                      rw [hpd] at hm
                      injection hm with he
                      exact he.symm
                    obtain ⟨m2, hm2, e1, e2, e3, e4⟩ := c2 poid pdx hpdx
                    refine ⟨m2, by rw [h2q]; exact hm2, ?_, ?_, ?_, ?_⟩
                    · rw [e1, hxu, hmpd]
                    · rw [e2, hxt, hmpd]
                    · intro c hc
                      exact e3 c (hxc c (hmpd ▸ hc))
                    · rcases e4 with hsame | ⟨ho, hb, hn⟩
                      · rcases hxp with hxs | ⟨hpr, _⟩
                        · exact Or.inl (by rw [hsame, hxs, hmpd])
                        · exact absurd (h2q ▸ hpr : q = r) h1
                      · exact Or.inr ⟨by simp [h2q ▸ ho], by rw [h2q]; exact hb, hn⟩
                  · obtain ⟨m2, hm2, e1, e2, e3, e4⟩ :=
                      c2 q m (by rw [hother q h1 h2q]; exact hm)
                    refine ⟨m2, hm2, e1, e2, e3, ?_⟩
                    rcases e4 with h | ⟨ho, hb, hn⟩
                    · exact Or.inl h
                    · exact Or.inr ⟨by simp [ho], hb, hn⟩
              · rw [c3]
                simp [collectIdx, hmvB, List.append_assoc]
              · rw [c4]
                simp [hlog]
              · intro q hq hb
                rcases List.mem_cons.mp hq with he | hm
                · obtain ⟨m2, hm2, _, _, _, e4⟩ := c2 r ndr hndr
                  refine ⟨m2, by rw [he]; exact hm2, ?_⟩
                  rcases e4 with hsame | ⟨_, _, hn⟩
                  · rw [hsame, hrp]
                  · exact hn
                · exact c5 q hm hb
              · intro q hq poid2 hpt
                rcases List.mem_cons.mp hq with he | hm
                · have hpe : poid2 = poid := by
                    rw [he] at hpt
                    rw [hmt] at hpt
                    injection hpt with hx
                    exact hx.symm
                  obtain ⟨m2, hm2, _, _, e3, _⟩ := c2 poid pdx hpdx
                  exact ⟨m2, by rw [hpe]; exact hm2, by rw [he]; exact e3 r hxr⟩
                · exact c6 q hm poid2 hpt


/-- C4 (amended): for a country-specific node A carrying the template
marker and a `parent_uid` equal to the uid of another indexed node B,
where neither A's uid nor the parent uid contains the metadata-uid
separator, B is resolvable in the (stale) country node catalog, and B
is itself a root-level node that carries no `parent_uid` (so B is not
itself reparented — without this the original claim fails, see the
counterexample), after `reparent_nodes` runs to completion A is an
element of B's child list, A no longer carries `parent_uid`, A has
been removed from the root-level list, and A is reachable from the
pruned roots — hence indexed by the rebuilt catalog with its unchanged
uid, so `search(uid=A.uid)` still returns it. -/
theorem c4_reparent (resolve : String → Option Nat) (h0 : Heap) (roots : List Nat)
    (a b : Nat) (A B : NodeData) (pu : String)
    (hnodup : roots.Nodup)
    (hroots : ∀ oid ∈ roots, (alistGet h0 oid).isSome)
    (hres : ∀ u poid, resolve u = some poid → (alistGet h0 poid).isSome)
    (ha_mem : a ∈ roots)
    (hA : alistGet h0 a = some A)
    (hA_t : A.hasTmpl = true)
    (hA_p : A.parentUid = some pu)
    (hA_m : is_metadata_uid A.uid = false)
    (hpu_m : is_metadata_uid pu = false)
    (hresolve : resolve pu = some b)
    (hB : alistGet h0 b = some B)
    (hB_p : B.parentUid = none)
    (hb_mem : b ∈ roots) :
    ∃ h2 roots2 logs, reparent_nodes resolve h0 roots = .ok (h2, roots2, logs) ∧
      (∃ nd, alistGet h2 a = some nd ∧ nd.uid = A.uid ∧ nd.parentUid = none) ∧
      (∃ bd, alistGet h2 b = some bd ∧ a ∈ bd.children) ∧
      a ∉ roots2 ∧
      ReachableF h2 roots2 a := by
  obtain ⟨st2, hloop, c1, c2, c3, c4l, c5, c6⟩ :=
    reparentLoop_master resolve h0 hres roots 0 ⟨h0, [], []⟩ hnodup
      (fun oid => Iff.rfl) (fun oid nd0 h => ⟨nd0, h, rfl, rfl⟩)
      (fun oid _ nd0 h => ⟨nd0, h, rfl⟩) hroots
  have hA_t' : ¬ A.hasTmpl = false := by rw [hA_t]; simp
  have hcand : candOf h0 a = some (A.uid, pu) := by
    simp [candOf, hA, hA_t', hA_p, hA_m, hpu_m]
  have hmt : movedTarget resolve h0 a = some b := by
    simp [movedTarget, hcand, hresolve]
  have hmv : movedB resolve h0 a = true := by simp [movedB, hmt]
  have hcandB : candOf h0 b = none := by
    cases hBt : B.hasTmpl
    · simp [candOf, hB, hBt]
    · simp [candOf, hB, hBt, hB_p]
  have hmvB : movedB resolve h0 b = false := by
    simp [movedB, movedTarget, hcandB]
  have hnested : st2.nested = collectIdx (movedB resolve h0) roots 0 := by
    rw [c3]
    rfl
  have hne : collectIdx (movedB resolve h0) roots 0 ≠ [] :=
    collectIdx_ne_nil _ roots 0 a ha_mem hmv
  have hrun : reparent_nodes resolve h0 roots =
      .ok (st2.heap, roots.filter (fun oid => !(movedB resolve h0 oid)), st2.logged) := by
    simp only [reparent_nodes, hloop]
    rw [if_neg (by rw [hnested]; exact hne)]
    rw [hnested, foldl_eraseIdx_collectIdx]
  refine ⟨st2.heap, _, st2.logged, hrun, ?_, ?_, ?_, ?_⟩
  · obtain ⟨n1, hn1, hu1, _, _, _⟩ := c2 a A hA
    obtain ⟨n2, hn2, hp2⟩ := c5 a ha_mem hmv
    have he : n1 = n2 := Option.some.inj (hn1.symm.trans hn2)
    exact ⟨n1, hn1, hu1, by rw [he]; exact hp2⟩
  · exact c6 a ha_mem b hmt
  · intro hmem
    have := (List.mem_filter.mp hmem).2
    rw [hmv] at this
    simp at this
  · have hbr : b ∈ roots.filter (fun oid => !(movedB resolve h0 oid)) :=
      List.mem_filter.mpr ⟨hb_mem, by rw [hmvB]; rfl⟩
    obtain ⟨pd2, hpd2, hmem2⟩ := c6 a ha_mem b hmt
    exact ReachableF.child b pd2 a (ReachableF.root b hbr) hpd2 hmem2

def c4A : NodeData := ⟨"a", true, some "b", []⟩

def c4B : NodeData := ⟨"b", false, none, []⟩

def c4h0 : Heap := [(1, c4A), (2, c4B)]

def c4res (u : String) : Option Nat := if u = "b" then some 2 else none

theorem c4_reparent_witness :
    ∃ h2 roots2 logs, reparent_nodes c4res c4h0 [1, 2] = .ok (h2, roots2, logs) ∧
      (∃ nd, alistGet h2 1 = some nd ∧ nd.uid = c4A.uid ∧ nd.parentUid = none) ∧
      (∃ bd, alistGet h2 2 = some bd ∧ 1 ∈ bd.children) ∧
      1 ∉ roots2 ∧
      ReachableF h2 roots2 1 :=
  c4_reparent c4res c4h0 [1, 2] 1 2 c4A c4B "b" (by decide) (by decide)
    (by
      intro u poid h
      by_cases hu : u = "b"
      · simp only [c4res, hu, if_pos] at h
        injection h with he
        rw [← he]
        decide
      · simp [c4res, hu] at h)
    (by decide) (by decide) (by decide) (by decide) (by decide) (by decide)
    (by decide) (by decide) (by decide) (by decide)

def c4cycA : NodeData := ⟨"a", true, some "b", []⟩

def c4cycB : NodeData := ⟨"b", true, some "a", []⟩

def c4cych : Heap := [(1, c4cycA), (2, c4cycB)]

def c4cres (u : String) : Option Nat :=
  if u = "a" then some 1 else if u = "b" then some 2 else none

/-- C4 counterexample to the original claim: two root nodes that name
each other as parents.  Node 1 satisfies every premise of the claim —
template marker, `parent_uid` equal to node 2's uid, no metadata
separator, parent resolvable in the catalog — and is indeed moved into
node 2's child list with its `parent_uid` dropped; but node 2 is moved
as well, both root entries are deleted, the pruned root list is empty,
and the rebuilt catalog (indexing `traverse(self.nodes)`) no longer
contains node 1: `search(uid='a')` comes back empty. -/
theorem c4_counterexample :
    ∃ h2 logs, reparent_nodes c4cres c4cych [1, 2] = .ok (h2, [], logs) ∧
      (∃ nd, alistGet h2 1 = some nd ∧ nd.parentUid = none) ∧
      (∃ bd, alistGet h2 2 = some bd ∧ 1 ∈ bd.children) ∧
      ¬ ReachableF h2 [] 1 := by
  refine ⟨[(1, ⟨"a", true, none, [2]⟩), (2, ⟨"b", true, none, [1]⟩)], [],
    rfl, ⟨⟨"a", true, none, [2]⟩, rfl, rfl⟩, ⟨⟨"b", true, none, [1]⟩, rfl, by decide⟩,
    not_reachable_nil _ 1⟩

/-- C8 (amended): for a candidate node A — template marker present,
`parent_uid` present, neither A's uid nor the parent uid containing
the metadata separator (without this restriction the original claim
fails, see the counterexample: the separator check `continue`s before
the parent lookup, silently) — whose `parent_uid` resolves to nothing
in the stale node catalog, `reparent_nodes` completes without an
exception, leaves A unmoved (fields intact, still in the root-level
list) and logs the dangling reference. -/
theorem c8_dangling (resolve : String → Option Nat) (h0 : Heap) (roots : List Nat)
    (a : Nat) (A : NodeData) (pu : String)
    (hnodup : roots.Nodup)
    (hroots : ∀ oid ∈ roots, (alistGet h0 oid).isSome)
    (hres : ∀ u poid, resolve u = some poid → (alistGet h0 poid).isSome)
    (ha_mem : a ∈ roots)
    (hA : alistGet h0 a = some A)
    (hA_t : A.hasTmpl = true)
    (hA_p : A.parentUid = some pu)
    (hA_m : is_metadata_uid A.uid = false)
    (hpu_m : is_metadata_uid pu = false)
    (hdang : resolve pu = none) :
    ∃ h2 roots2 logs, reparent_nodes resolve h0 roots = .ok (h2, roots2, logs) ∧
      (∃ nd, alistGet h2 a = some nd ∧ nd.uid = A.uid ∧
        nd.hasTmpl = A.hasTmpl ∧ nd.parentUid = some pu) ∧
      a ∈ roots2 ∧
      (A.uid, pu) ∈ logs := by
  obtain ⟨st2, hloop, c1, c2, c3, c4l, c5, c6⟩ :=
    reparentLoop_master resolve h0 hres roots 0 ⟨h0, [], []⟩ hnodup
      (fun oid => Iff.rfl) (fun oid nd0 h => ⟨nd0, h, rfl, rfl⟩)
      (fun oid _ nd0 h => ⟨nd0, h, rfl⟩) hroots
  have hA_t' : ¬ A.hasTmpl = false := by rw [hA_t]; simp
  have hcand : candOf h0 a = some (A.uid, pu) := by
    simp [candOf, hA, hA_t', hA_p, hA_m, hpu_m]
  have hmv : movedB resolve h0 a = false := by
    simp [movedB, movedTarget, hcand, hdang]
  have hlog : logOf resolve h0 a = some (A.uid, pu) := by
    simp [logOf, hcand, hdang]
  have hentry : ∃ nd, alistGet st2.heap a = some nd ∧ nd.uid = A.uid ∧
      nd.hasTmpl = A.hasTmpl ∧ nd.parentUid = some pu := by
    obtain ⟨n1, hn1, hu1, ht1, _, hp1⟩ := c2 a A hA
    refine ⟨n1, hn1, hu1, ht1, ?_⟩
    rcases hp1 with hsame | ⟨_, hb, _⟩
    · rw [hsame, hA_p]
    · rw [hmv] at hb
      simp at hb
  have hlogs : (A.uid, pu) ∈ st2.logged := by
    rw [c4l]
    refine List.mem_append_right _ ?_
    exact List.mem_filterMap.mpr ⟨a, ha_mem, hlog⟩
  by_cases hn : st2.nested = []
  · refine ⟨st2.heap, roots, st2.logged, ?_, hentry, ha_mem, hlogs⟩
    simp only [reparent_nodes, hloop]
    rw [if_pos hn]
  · refine ⟨st2.heap, roots.filter (fun oid => !(movedB resolve h0 oid)),
      st2.logged, ?_, hentry, ?_, hlogs⟩
    · simp only [reparent_nodes, hloop]
      rw [if_neg hn]
      have hnested : st2.nested = collectIdx (movedB resolve h0) roots 0 := by
        rw [c3]
        rfl
      rw [hnested, foldl_eraseIdx_collectIdx]
    · exact List.mem_filter.mpr ⟨ha_mem, by rw [hmv]; rfl⟩

def c8A : NodeData := ⟨"a", true, some "missing", []⟩

def c8h0 : Heap := [(1, c8A)]

theorem c8_dangling_witness :
    ∃ h2 roots2 logs, reparent_nodes (fun _ => none) c8h0 [1] = .ok (h2, roots2, logs) ∧
      (∃ nd, alistGet h2 1 = some nd ∧ nd.uid = c8A.uid ∧
        nd.hasTmpl = c8A.hasTmpl ∧ nd.parentUid = some "missing") ∧
      1 ∈ roots2 ∧
      (c8A.uid, "missing") ∈ logs :=
  c8_dangling (fun _ => none) c8h0 [1] 1 c8A "missing" (by decide) (by decide)
    (by intro u poid h; exact absurd h (by simp))
    (by decide) (by decide) (by decide) (by decide) (by decide) (by decide) rfl

def c8cA : NodeData := ⟨"a", true, some "x-y", []⟩

def c8ch : Heap := [(1, c8cA)]

/-- C8 counterexample to the original claim: node 1's `parent_uid`
`"x-y"` resolves to nothing in the node catalog, yet because it
contains the metadata-uid separator the loop `continue`s before the
parent lookup: the run completes with the node left unmoved but with
an EMPTY log — no dangling-reference condition is reported. -/
theorem c8_counterexample :
    reparent_nodes (fun _ => none) c8ch [1] =
      .ok (c8ch, [1], ([] : List (String × String))) := rfl


/-! ### C7: `CountryData.clone_grid_from_template`

`secrets.token_hex(12)` is abstracted as a supply `fresh : Nat →
String` consumed in call order, with the theorem hypotheses capturing
what randomness delivers: every drawn value is a 24-character
lowercase hex string and never collides with a uid already present in
the template's groups.  `self.variable_index.first(node_uid=...,
template_var_uid=...)` is embedded as `List.find?` over the variable
registry — the conclusions proved hold for any matching variable, so
the unspecified set order of `first` is immaterial.  The in-place
mutation walk over `traverse(result['group'])` mutates each yielded
group before its children are discovered, which the embedding mirrors
by rewriting an object's own fields first and then descending into
the rewritten fields; the walk is written with a structural fuel
(`sizeJ` of the subtree suffices, as the theorem shows). -/

structure Var where
  uid : String
  nodeUid : String
  tmplVarUid : JSON
deriving DecidableEq

structure CloneSt where
  vars : List Var
  k : Nat
deriving DecidableEq

def isHexChar (c : Char) : Bool :=
  c.isDigit || (97 ≤ c.toNat && c.toNat ≤ 102)

/-- The shape of `secrets.token_hex(12)`: 24 lowercase hex characters. -/
def isHex24 (s : String) : Bool :=
  (s.data.length == 24) && s.data.all isHexChar

/-- The loop body of `clone_grid_from_template` for one yielded group:
skip unless both `'uid'` and `'variable_uid'` are present; save the
old uid under `'template_group_uid'`, mint a fresh uid, and unless the
template's `variable_uid` is `None` resolve-or-create the variable for
the new node and point `'variable_uid'` at it. -/
def processGroup (fresh : Nat → String) (nodeUid : String)
    (fs : List (String × JSON)) (st : CloneSt) :
    List (String × JSON) × CloneSt :=
  match alistGet fs "uid", alistGet fs "variable_uid" with
  | some u, some vu =>
      let fs2 := alistSet (alistSet fs "template_group_uid" u) "uid"
        (.str (fresh st.k))
      if vu = JSON.null then (fs2, ⟨st.vars, st.k + 1⟩)
      else
        match st.vars.find? (fun v => decide (v.nodeUid = nodeUid ∧ v.tmplVarUid = vu)) with
        | some v => (alistSet fs2 "variable_uid" (.str v.uid), ⟨st.vars, st.k + 1⟩)
        | none =>
            (alistSet fs2 "variable_uid" (.str (fresh (st.k + 1))),
             ⟨st.vars ++ [⟨fresh (st.k + 1), nodeUid, vu⟩], st.k + 2⟩)
  | _, _ => (fs, st)

mutual
def cloneWalkF (fresh : Nat → String) (nodeUid : String) :
    Nat → JSON → CloneSt → JSON × CloneSt
  | 0, j, st => (j, st)
  | fuel + 1, .obj fs, st =>
      let p := processGroup fresh nodeUid fs st
      let q := cloneFsF fresh nodeUid fuel p.1 p.2
      (.obj q.1, q.2)
  | fuel + 1, .arr xs, st =>
      let q := cloneArrF fresh nodeUid fuel xs st
      (.arr q.1, q.2)
  | _ + 1, j, st => (j, st)
termination_by fuel j st => (fuel, 0)

def cloneFsF (fresh : Nat → String) (nodeUid : String) :
    Nat → List (String × JSON) → CloneSt → List (String × JSON) × CloneSt
  | _, [], st => ([], st)
  | fuel, (k, v) :: rest, st =>
      let q := cloneWalkF fresh nodeUid fuel v st
      let r := cloneFsF fresh nodeUid fuel rest q.2
      ((k, q.1) :: r.1, r.2)
termination_by fuel l st => (fuel, l.length + 1)

def cloneArrF (fresh : Nat → String) (nodeUid : String) :
    Nat → List JSON → CloneSt → List JSON × CloneSt
  | _, [], st => ([], st)
  | fuel, v :: rest, st =>
      let q := cloneWalkF fresh nodeUid fuel v st
      let r := cloneArrF fresh nodeUid fuel rest q.2
      (q.1 :: r.1, r.2)
termination_by fuel l st => (fuel, l.length + 1)
end

/-- `clone_grid_from_template` given the already-resolved template
grid: `deepcopy`, `result['node_uid'] = node_uid`, then the mutation
walk over `traverse(result['group'])` (`KeyError` when the grid has no
`'group'`). -/
def clone_grid (fresh : Nat → String) (nodeUid : String) (tmpl : JSON)
    (st : CloneSt) : Except Unit (JSON × CloneSt) :=
  match tmpl with
  | .obj fs =>
      match alistGet fs "group" with
      | none => .error ()
      | some g =>
          match cloneWalkF fresh nodeUid (sizeJ g) g st with
          | (g2, st2) =>
              .ok (.obj (alistSet (alistSet fs "node_uid" (.str nodeUid))
                "group" g2), st2)
  | _ => .error ()

mutual
/-- The uid values of the template's groups (objects carrying both
`'uid'` and `'variable_uid'`). -/
def groupUids : JSON → List JSON
  | .obj fs =>
      (match alistGet fs "uid", alistGet fs "variable_uid" with
       | some u, some _ => [u]
       | _, _ => []) ++ groupUidsFs fs
  | .arr xs => groupUidsArr xs
  | _ => []

def groupUidsFs : List (String × JSON) → List JSON
  | [] => []
  | (_, v) :: rest => groupUids v ++ groupUidsFs rest

def groupUidsArr : List JSON → List JSON
  | [] => []
  | v :: rest => groupUids v ++ groupUidsArr rest
end

def specialsTop (fs : List (String × JSON)) : Bool :=
  match alistGet fs "uid", alistGet fs "variable_uid" with
  | some u, some vu =>
      !(isContainer u) && !(isContainer vu) &&
      (match alistGet fs "template_group_uid" with
       | some t => !(isContainer t)
       | none => true)
  | _, _ => true

mutual
/-- The groups' bookkeeping fields (`uid`, `variable_uid`, and any
pre-existing `template_group_uid`) hold scalars — in real grids they
are strings or null; a container there would be aliased rather than
copied by the in-place rewrite. -/
def specialsOk : JSON → Bool
  | .obj fs => specialsTop fs && specialsFs fs
  | .arr xs => specialsArr xs
  | _ => true

def specialsFs : List (String × JSON) → Bool
  | [] => true
  | (_, v) :: rest => specialsOk v && specialsFs rest

def specialsArr : List JSON → Bool
  | [] => true
  | v :: rest => specialsOk v && specialsArr rest
end

/-- Checker for the claim's per-group conclusions, input tree against
output tree: every group (input object with both `'uid'` and
`'variable_uid'`) has in the output its `template_group_uid` equal to
the original uid, a fresh 24-hex uid different from the original, and
— when the template's `variable_uid` is not null — a `variable_uid`
naming a registry variable whose `node_uid` is the new owning node. -/
def cloneOkTop (vars : List Var) (nodeUid : String)
    (fs gs : List (String × JSON)) : Bool :=
  match alistGet fs "uid", alistGet fs "variable_uid" with
  | some u, some vu =>
      decide (alistGet gs "template_group_uid" = some u) &&
      (match alistGet gs "uid" with
       | some (.str s) => isHex24 s && decide (JSON.str s ≠ u)
       | _ => false) &&
      (if vu = JSON.null then true
       else
         match alistGet gs "variable_uid" with
         | some (.str w) =>
             vars.any (fun v =>
               decide (v.uid = w ∧ v.nodeUid = nodeUid ∧ v.tmplVarUid = vu))
         | _ => false)
  | _, _ => true

mutual
def cloneOk (vars : List Var) (nodeUid : String) : JSON → JSON → Bool
  | .obj fs, .obj gs =>
      cloneOkTop vars nodeUid fs gs && cloneOkFs vars nodeUid fs gs
  | .obj _, _ => false
  | .arr xs, .arr ys => cloneOkArr vars nodeUid xs ys
  | .arr _, _ => false
  | _, _ => true

def cloneOkFs (vars : List Var) (nodeUid : String) :
    List (String × JSON) → List (String × JSON) → Bool
  | [], _ => true
  | _ :: _, [] => false
  | (k, v) :: fs, (k2, w) :: gs =>
      decide (k2 = k) &&
      (if isContainer v then cloneOk vars nodeUid v w else true) &&
      cloneOkFs vars nodeUid fs gs

def cloneOkArr (vars : List Var) (nodeUid : String) :
    List JSON → List JSON → Bool
  | [], _ => true
  | _ :: _, [] => false
  | v :: xs, w :: ys =>
      (if isContainer v then cloneOk vars nodeUid v w else true) &&
      cloneOkArr vars nodeUid xs ys
end

/-- Positional alignment of an object's fields with their in-place
rewrite: keys keep their positions, container values are untouched,
scalar values stay scalars, and only scalar fields are appended. -/
inductive FA : List (String × JSON) → List (String × JSON) → Prop where
  | nil : ∀ gs, (∀ p ∈ gs, isContainer p.2 = false) → FA [] gs
  | cons : ∀ k v w fs gs, (isContainer v = true → w = v) →
      (isContainer v = false → isContainer w = false) →
      FA fs gs → FA ((k, v) :: fs) ((k, w) :: gs)


theorem FA_refl : ∀ fs : List (String × JSON), FA fs fs := by
  intro fs
  induction fs with
  | nil => exact FA.nil [] (by simp)
  | cons p fs ih =>
      obtain ⟨k, v⟩ := p
      exact FA.cons k v v fs fs (fun _ => rfl) (fun h => h) ih

theorem FA_noncont : ∀ fs gs : List (String × JSON), FA fs gs →
    (∀ p ∈ fs, isContainer p.2 = false) →
    (∀ p ∈ gs, isContainer p.2 = false) := by
  intro fs gs h
  induction h with
  | nil gs hg => intro _; exact hg
  | cons k v w fs gs h1 h2 h3 ih =>
      intro hall p hp
      rcases List.mem_cons.mp hp with he | hm
      · rw [he]
        exact h2 (hall (k, v) (by simp))
      · exact ih (fun q hq => hall q (by simp [hq])) p hm

theorem FA_trans : ∀ a b c : List (String × JSON), FA a b → FA b c → FA a c := by
  intro a b c h1
  induction h1 generalizing c with
  | nil gs hg =>
      intro h2
      exact FA.nil c (FA_noncont gs c h2 hg)
  | cons k v w fs gs hc hn hfa ih =>
      intro h2
      cases h2 with
      | cons _ _ w2 _ gs2 hc2 hn2 hfa2 =>
          refine FA.cons k v w2 fs gs2 ?_ ?_ (ih gs2 hfa2)
          · intro hv
            have hw := hc hv
            have hwc : isContainer w = true := by rw [hw]; exact hv
            rw [hc2 hwc, hw]
          · intro hv
            exact hn2 (hn hv)

theorem FA_alistSet (fs : List (String × JSON)) (key : String) (val : JSON)
    (hval : isContainer val = false)
    (hnc : ∀ v, alistGet fs key = some v → isContainer v = false) :
    FA fs (alistSet fs key val) := by
  induction fs with
  | nil =>
      refine FA.nil _ ?_
      intro p hp
      simp only [alistSet, List.mem_singleton] at hp
      rw [hp]
      exact hval
  | cons q fs ih =>
      obtain ⟨k1, v1⟩ := q
      by_cases hk : k1 = key
      · have hv1 : isContainer v1 = false := hnc v1 (by simp [alistGet, hk])
        have heq : alistSet ((k1, v1) :: fs) key val = (key, val) :: fs := by
          simp [alistSet, hk]
        rw [heq, ← hk]
        exact FA.cons k1 v1 val fs fs
          (fun h => absurd h (by rw [hv1]; simp)) (fun _ => hval) (FA_refl fs)
      · have heq : alistSet ((k1, v1) :: fs) key val =
            (k1, v1) :: alistSet fs key val := by
          simp [alistSet, hk]
        rw [heq]
        refine FA.cons k1 v1 v1 fs _ (fun _ => rfl) (fun h => h) (ih ?_)
        intro v hv
        refine hnc v ?_
        rw [alistGet, if_neg hk]
        exact hv

theorem cloneWalkF_scalar (fresh : Nat → String) (nodeUid : String) :
    ∀ (fuel : Nat) (v : JSON) (st : CloneSt), isContainer v = false →
      cloneWalkF fresh nodeUid fuel v st = (v, st) := by
  intro fuel v st hv
  cases fuel with
  | zero => simp [cloneWalkF]
  | succ f =>
      cases v with
      | obj fs => simp [isContainer] at hv
      | arr xs => simp [isContainer] at hv
      | str s => simp [cloneWalkF]
      | num n => simp [cloneWalkF]
      | bool b => simp [cloneWalkF]
      | null => simp [cloneWalkF]

theorem cloneFsF_alistGet (fresh : Nat → String) (nodeUid : String) :
    ∀ (fuel : Nat) (fs1 : List (String × JSON)) (st : CloneSt) (key : String)
      (v : JSON),
      alistGet fs1 key = some v → isContainer v = false →
      alistGet (cloneFsF fresh nodeUid fuel fs1 st).1 key = some v := by
  intro fuel fs1
  induction fs1 with
  | nil =>
      intro st key v hv
      simp [alistGet] at hv
  | cons q rest ih =>
      obtain ⟨k1, w⟩ := q
      intro st key v hv hnc
      by_cases hk : k1 = key
      · rw [alistGet, if_pos hk] at hv
        injection hv with he
        rw [show cloneFsF fresh nodeUid fuel ((k1, w) :: rest) st =
          ((k1, (cloneWalkF fresh nodeUid fuel w st).1) ::
            (cloneFsF fresh nodeUid fuel rest
              (cloneWalkF fresh nodeUid fuel w st).2).1,
           (cloneFsF fresh nodeUid fuel rest
              (cloneWalkF fresh nodeUid fuel w st).2).2) from by
          rw [cloneFsF]]
        rw [alistGet, if_pos hk,
          cloneWalkF_scalar fresh nodeUid fuel w st (by rw [he]; exact hnc), he]
      · rw [alistGet, if_neg hk] at hv
        rw [show cloneFsF fresh nodeUid fuel ((k1, w) :: rest) st =
          ((k1, (cloneWalkF fresh nodeUid fuel w st).1) ::
            (cloneFsF fresh nodeUid fuel rest
              (cloneWalkF fresh nodeUid fuel w st).2).1,
           (cloneFsF fresh nodeUid fuel rest
              (cloneWalkF fresh nodeUid fuel w st).2).2) from by
          rw [cloneFsF]]
        rw [alistGet, if_neg hk]
        exact ih _ key v hv hnc


theorem processGroup_spec (fresh : Nat → String) (nodeUid : String)
    (hhex : ∀ n, isHex24 (fresh n) = true)
    (fs : List (String × JSON)) (st : CloneSt)
    (hspec : specialsTop fs = true)
    (hdist : ∀ n u vu, alistGet fs "uid" = some u →
      alistGet fs "variable_uid" = some vu → JSON.str (fresh n) ≠ u) :
    ∃ fs1 st1, processGroup fresh nodeUid fs st = (fs1, st1) ∧
      FA fs fs1 ∧
      (∃ newVars, st1.vars = st.vars ++ newVars ∧
        ∀ v ∈ newVars, v.nodeUid = nodeUid) ∧
      (∀ vars' gs', (∀ v ∈ st1.vars, v ∈ vars') →
        (∀ key v, alistGet fs1 key = some v → isContainer v = false →
          alistGet gs' key = some v) →
        cloneOkTop vars' nodeUid fs gs' = true) := by
  rcases hu : alistGet fs "uid" with _ | u
  · refine ⟨fs, st, by simp [processGroup, hu], FA_refl fs,
      ⟨[], by simp, by simp⟩, ?_⟩
    intro vars' gs' _ _
    simp [cloneOkTop, hu]
  rcases hvu : alistGet fs "variable_uid" with _ | vu
  · refine ⟨fs, st, by simp [processGroup, hu, hvu], FA_refl fs,
      ⟨[], by simp, by simp⟩, ?_⟩
    intro vars' gs' _ _
    simp [cloneOkTop, hu, hvu]
  have hsp := hspec
  simp only [specialsTop, hu, hvu] at hsp
  have hfacts : isContainer u = false ∧ isContainer vu = false ∧
      (∀ t, alistGet fs "template_group_uid" = some t → isContainer t = false) := by
    rcases htg : alistGet fs "template_group_uid" with _ | t
    · simp only [htg, Bool.and_eq_true, Bool.not_eq_true'] at hsp
      exact ⟨hsp.1.1, hsp.1.2, fun t2 ht2 => by cases ht2⟩
    · simp only [htg, Bool.and_eq_true, Bool.not_eq_true'] at hsp
      refine ⟨hsp.1.1, hsp.1.2, ?_⟩
      intro t2 ht2
      injection ht2 with he
      rw [← he]
      exact hsp.2
  obtain ⟨hncu, hncv, hnct⟩ := hfacts
  have hg_uid1 : alistGet (alistSet fs "template_group_uid" u) "uid" =
      alistGet fs "uid" := by
    rw [alistGet_set, if_neg (by decide)]
  have hFA1 : FA fs (alistSet fs "template_group_uid" u) :=
    FA_alistSet fs "template_group_uid" u hncu hnct
  have hFA2 : FA (alistSet fs "template_group_uid" u)
      (alistSet (alistSet fs "template_group_uid" u) "uid"
        (.str (fresh st.k))) := by
    refine FA_alistSet _ "uid" _ rfl ?_
    intro v hv
    rw [hg_uid1, hu] at hv
    injection hv with he
    rw [← he]
    exact hncu
  have hFA12 : FA fs (alistSet (alistSet fs "template_group_uid" u) "uid"
      (.str (fresh st.k))) := FA_trans _ _ _ hFA1 hFA2
  have htg2 : alistGet (alistSet (alistSet fs "template_group_uid" u) "uid"
      (.str (fresh st.k))) "template_group_uid" = some u := by
    rw [alistGet_set, if_neg (by decide), alistGet_set, if_pos rfl]
  have huid2 : alistGet (alistSet (alistSet fs "template_group_uid" u) "uid"
      (.str (fresh st.k))) "uid" = some (.str (fresh st.k)) := by
    rw [alistGet_set, if_pos rfl]
  have hvu2 : alistGet (alistSet (alistSet fs "template_group_uid" u) "uid"
      (.str (fresh st.k))) "variable_uid" = some vu := by
    rw [alistGet_set, if_neg (by decide), alistGet_set, if_neg (by decide), hvu]
  by_cases hnull : vu = JSON.null
  · refine ⟨_, ⟨st.vars, st.k + 1⟩, by simp [processGroup, hu, hvu, hnull],
      hFA12, ⟨[], by simp, by simp⟩, ?_⟩
    intro vars' gs' _ hagree
    have g1 : alistGet gs' "template_group_uid" = some u := hagree _ u htg2 hncu
    have g2 : alistGet gs' "uid" = some (.str (fresh st.k)) :=
      hagree _ _ huid2 rfl
    simp [cloneOkTop, hu, hvu, g1, g2, hnull, hhex st.k,
      hdist st.k u vu hu hvu]
  · have hvu3 : ∀ w, FA (alistSet (alistSet fs "template_group_uid" u) "uid"
        (.str (fresh st.k)))
        (alistSet (alistSet (alistSet fs "template_group_uid" u) "uid"
          (.str (fresh st.k))) "variable_uid" (.str w)) := by
      intro w
      refine FA_alistSet _ "variable_uid" _ rfl ?_
      intro v hv
      rw [hvu2] at hv
      injection hv with he
      rw [← he]
      exact hncv
    have htg3 : ∀ w, alistGet (alistSet (alistSet (alistSet fs
        "template_group_uid" u) "uid" (.str (fresh st.k))) "variable_uid"
        (.str w)) "template_group_uid" = some u := by
      intro w
      rw [alistGet_set, if_neg (by decide)]
      exact htg2
    have huid3 : ∀ w, alistGet (alistSet (alistSet (alistSet fs
        "template_group_uid" u) "uid" (.str (fresh st.k))) "variable_uid"
        (.str w)) "uid" = some (.str (fresh st.k)) := by
      intro w
      rw [alistGet_set, if_neg (by decide)]
      exact huid2
    have hvar3 : ∀ w, alistGet (alistSet (alistSet (alistSet fs
        "template_group_uid" u) "uid" (.str (fresh st.k))) "variable_uid"
        (.str w)) "variable_uid" = some (.str w) := by
      intro w
      rw [alistGet_set, if_pos rfl]
    rcases hfind : st.vars.find?
        (fun v => decide (v.nodeUid = nodeUid ∧ v.tmplVarUid = vu)) with _ | v
    · refine ⟨_, ⟨st.vars ++ [⟨fresh (st.k + 1), nodeUid, vu⟩], st.k + 2⟩,
        by simp only [processGroup, hu, hvu]; rw [if_neg hnull, hfind],
        FA_trans _ _ _ hFA12 (hvu3 (fresh (st.k + 1))),
        ⟨[⟨fresh (st.k + 1), nodeUid, vu⟩], rfl, by simp⟩, ?_⟩
      intro vars' gs' hsub hagree
      have g1 : alistGet gs' "template_group_uid" = some u :=
        hagree _ u (htg3 _) hncu
      have g2 : alistGet gs' "uid" = some (.str (fresh st.k)) :=
        hagree _ _ (huid3 _) rfl
      have g3 : alistGet gs' "variable_uid" = some (.str (fresh (st.k + 1))) :=
        hagree _ _ (hvar3 _) rfl
      simp only [cloneOkTop, hu, hvu, g1, g2, g3, if_neg hnull, hhex st.k,
        Bool.and_eq_true, decide_eq_true_eq, Bool.true_and]
      exact ⟨⟨trivial, hdist st.k u vu hu hvu⟩, List.any_eq_true.mpr
        ⟨⟨fresh (st.k + 1), nodeUid, vu⟩, hsub _ (by simp), by simp⟩⟩
    · have hprops := List.find?_some hfind
      simp only [decide_eq_true_eq] at hprops
      have hvmem : v ∈ st.vars := List.mem_of_find?_eq_some hfind
      refine ⟨_, ⟨st.vars, st.k + 1⟩,
        by simp only [processGroup, hu, hvu]; rw [if_neg hnull, hfind],
        FA_trans _ _ _ hFA12 (hvu3 v.uid),
        ⟨[], by simp, by simp⟩, ?_⟩
      intro vars' gs' hsub hagree
      have g1 : alistGet gs' "template_group_uid" = some u :=
        hagree _ u (htg3 _) hncu
      have g2 : alistGet gs' "uid" = some (.str (fresh st.k)) :=
        hagree _ _ (huid3 _) rfl
      have g3 : alistGet gs' "variable_uid" = some (.str v.uid) :=
        hagree _ _ (hvar3 _) rfl
      simp only [cloneOkTop, hu, hvu, g1, g2, g3, if_neg hnull, hhex st.k,
        Bool.and_eq_true, decide_eq_true_eq, Bool.true_and]
      exact ⟨⟨trivial, hdist st.k u vu hu hvu⟩, List.any_eq_true.mpr
        ⟨v, hsub v hvmem, by simp [hprops.1, hprops.2]⟩⟩


theorem cloneFsF_noncont (fresh : Nat → String) (nodeUid : String) :
    ∀ (fuel : Nat) (fs1 : List (String × JSON)) (st : CloneSt),
      (∀ p ∈ fs1, isContainer p.2 = false) →
      cloneFsF fresh nodeUid fuel fs1 st = (fs1, st) := by
  intro fuel fs1
  induction fs1 with
  | nil =>
      intro st _
      rw [cloneFsF]
  | cons p rest ih =>
      obtain ⟨k, w⟩ := p
      intro st hall
      rw [show cloneFsF fresh nodeUid fuel ((k, w) :: rest) st =
        ((k, (cloneWalkF fresh nodeUid fuel w st).1) ::
          (cloneFsF fresh nodeUid fuel rest
            (cloneWalkF fresh nodeUid fuel w st).2).1,
         (cloneFsF fresh nodeUid fuel rest
            (cloneWalkF fresh nodeUid fuel w st).2).2) from by rw [cloneFsF]]
      rw [cloneWalkF_scalar fresh nodeUid fuel w st (hall (k, w) (by simp)),
        ih st (fun q hq => hall q (by simp [hq]))]

theorem mem_groupUidsFs_left {u : JSON} {k : String} {v : JSON}
    {fs : List (String × JSON)} (h : u ∈ groupUids v) :
    u ∈ groupUidsFs ((k, v) :: fs) := by
  rw [groupUidsFs]
  exact List.mem_append_left _ h

theorem mem_groupUidsFs_right {u : JSON} {k : String} {v : JSON}
    {fs : List (String × JSON)} (h : u ∈ groupUidsFs fs) :
    u ∈ groupUidsFs ((k, v) :: fs) := by
  rw [groupUidsFs]
  exact List.mem_append_right _ h

theorem mem_groupUidsArr_left {u v : JSON} {xs : List JSON}
    (h : u ∈ groupUids v) : u ∈ groupUidsArr (v :: xs) := by
  rw [groupUidsArr]
  exact List.mem_append_left _ h

theorem mem_groupUidsArr_right {u v : JSON} {xs : List JSON}
    (h : u ∈ groupUidsArr xs) : u ∈ groupUidsArr (v :: xs) := by
  rw [groupUidsArr]
  exact List.mem_append_right _ h

theorem mem_groupUids_fs {u : JSON} {fs : List (String × JSON)}
    (h : u ∈ groupUidsFs fs) : u ∈ groupUids (.obj fs) := by
  rw [groupUids]
  exact List.mem_append_right _ h

theorem mem_groupUids_head {u vu : JSON} {fs : List (String × JSON)}
    (hu : alistGet fs "uid" = some u)
    (hvu : alistGet fs "variable_uid" = some vu) :
    u ∈ groupUids (.obj fs) := by
  rw [groupUids, hu, hvu]
  simp

theorem cloneWalkF_main (fresh : Nat → String) (nodeUid : String)
    (hhex : ∀ n, isHex24 (fresh n) = true) :
    ∀ fuel : Nat,
      (∀ j st, sizeJ j ≤ fuel → specialsOk j = true →
        (∀ n u, u ∈ groupUids j → JSON.str (fresh n) ≠ u) →
        ∃ out stout, cloneWalkF fresh nodeUid fuel j st = (out, stout) ∧
          (∃ newVars, stout.vars = st.vars ++ newVars ∧
            ∀ v ∈ newVars, v.nodeUid = nodeUid) ∧
          (∀ vars', (∀ v ∈ stout.vars, v ∈ vars') →
            cloneOk vars' nodeUid j out = true)) ∧
      (∀ fs fs1 st, sizeLF fs ≤ fuel → FA fs fs1 → specialsFs fs = true →
        (∀ n u, u ∈ groupUidsFs fs → JSON.str (fresh n) ≠ u) →
        ∃ gs stout, cloneFsF fresh nodeUid fuel fs1 st = (gs, stout) ∧
          (∃ newVars, stout.vars = st.vars ++ newVars ∧
            ∀ v ∈ newVars, v.nodeUid = nodeUid) ∧
          (∀ vars', (∀ v ∈ stout.vars, v ∈ vars') →
            cloneOkFs vars' nodeUid fs gs = true)) ∧
      (∀ xs st, sizeLA xs ≤ fuel → specialsArr xs = true →
        (∀ n u, u ∈ groupUidsArr xs → JSON.str (fresh n) ≠ u) →
        ∃ ys stout, cloneArrF fresh nodeUid fuel xs st = (ys, stout) ∧
          (∃ newVars, stout.vars = st.vars ++ newVars ∧
            ∀ v ∈ newVars, v.nodeUid = nodeUid) ∧
          (∀ vars', (∀ v ∈ stout.vars, v ∈ vars') →
            cloneOkArr vars' nodeUid xs ys = true)) := by
  intro fuel
  induction fuel using Nat.strong_induction_on with
  | _ fuel ih =>
  have hW : ∀ j st, sizeJ j ≤ fuel → specialsOk j = true →
      (∀ n u, u ∈ groupUids j → JSON.str (fresh n) ≠ u) →
      ∃ out stout, cloneWalkF fresh nodeUid fuel j st = (out, stout) ∧
        (∃ newVars, stout.vars = st.vars ++ newVars ∧
          ∀ v ∈ newVars, v.nodeUid = nodeUid) ∧
        (∀ vars', (∀ v ∈ stout.vars, v ∈ vars') →
          cloneOk vars' nodeUid j out = true) := by
    intro j st hsz hspec hdist
    cases j with
    | obj fs =>
        rcases fuel with _ | f
        · exfalso
          simp [sizeJ] at hsz
        have hsp : specialsTop fs = true ∧ specialsFs fs = true := by
          simpa [specialsOk, Bool.and_eq_true] using hspec
        obtain ⟨fs1, st1, hpg, hFA, ⟨n1, he1, hn1⟩, hTop⟩ :=
          processGroup_spec fresh nodeUid hhex fs st hsp.1
            (fun n u vu hu hvu => hdist n u (mem_groupUids_head hu hvu))
        obtain ⟨_, hF', _⟩ := ih f (Nat.lt_succ_self f)
        obtain ⟨gs, stout, hfs, ⟨n2, he2, hn2⟩, hOkFs⟩ :=
          hF' fs fs1 st1 (by simp only [sizeJ] at hsz; omega) hFA hsp.2
            (fun n u hu => hdist n u (mem_groupUids_fs hu))
        refine ⟨.obj gs, stout, ?_, ?_, ?_⟩
        · simp only [cloneWalkF, hpg, hfs]
        · exact ⟨n1 ++ n2, by rw [he2, he1, List.append_assoc], by
            intro v hv
            rcases List.mem_append.mp hv with h | h
            exacts [hn1 v h, hn2 v h]⟩
        · intro vars' hsub
          have hsub1 : ∀ v ∈ st1.vars, v ∈ vars' := by
            intro v hv
            exact hsub v (by rw [he2]; exact List.mem_append_left _ hv)
          rw [cloneOk, Bool.and_eq_true]
          constructor
          · refine hTop vars' gs hsub1 ?_
            intro key v hv hnc
            have h2 := cloneFsF_alistGet fresh nodeUid f fs1 st1 key v hv hnc
            rw [hfs] at h2
            exact h2
          · exact hOkFs vars' hsub
    | arr xs =>
        rcases fuel with _ | f
        · exfalso
          simp [sizeJ] at hsz
        have hsp : specialsArr xs = true := by
          simpa [specialsOk] using hspec
        obtain ⟨_, _, hA'⟩ := ih f (Nat.lt_succ_self f)
        obtain ⟨ys, stout, harr, hnews, hOkArr⟩ :=
          hA' xs st (by simp only [sizeJ] at hsz; omega) hsp
            (fun n u hu => hdist n u (by rw [groupUids]; exact hu))
        refine ⟨.arr ys, stout, ?_, hnews, ?_⟩
        · simp only [cloneWalkF, harr]
        · intro vars' hsub
          rw [cloneOk]
          exact hOkArr vars' hsub
    | str s =>
        refine ⟨.str s, st, cloneWalkF_scalar fresh nodeUid fuel _ st rfl,
          ⟨[], by simp, by simp⟩, ?_⟩
        intro vars' _
        simp [cloneOk]
    | num n =>
        refine ⟨.num n, st, cloneWalkF_scalar fresh nodeUid fuel _ st rfl,
          ⟨[], by simp, by simp⟩, ?_⟩
        intro vars' _
        simp [cloneOk]
    | bool b =>
        refine ⟨.bool b, st, cloneWalkF_scalar fresh nodeUid fuel _ st rfl,
          ⟨[], by simp, by simp⟩, ?_⟩
        intro vars' _
        simp [cloneOk]
    | null =>
        refine ⟨.null, st, cloneWalkF_scalar fresh nodeUid fuel _ st rfl,
          ⟨[], by simp, by simp⟩, ?_⟩
        intro vars' _
        simp [cloneOk]
  have hF : ∀ fs fs1 st, sizeLF fs ≤ fuel → FA fs fs1 → specialsFs fs = true →
      (∀ n u, u ∈ groupUidsFs fs → JSON.str (fresh n) ≠ u) →
      ∃ gs stout, cloneFsF fresh nodeUid fuel fs1 st = (gs, stout) ∧
        (∃ newVars, stout.vars = st.vars ++ newVars ∧
          ∀ v ∈ newVars, v.nodeUid = nodeUid) ∧
        (∀ vars', (∀ v ∈ stout.vars, v ∈ vars') →
          cloneOkFs vars' nodeUid fs gs = true) := by
    intro fs
    induction fs with
    | nil =>
        intro fs1 st _ hFA _ _
        have hg : ∀ p ∈ fs1, isContainer p.2 = false := by
          cases hFA with
          | nil _ hg => exact hg
        refine ⟨fs1, st, cloneFsF_noncont fresh nodeUid fuel fs1 st hg,
          ⟨[], by simp, by simp⟩, ?_⟩
        intro vars' _
        rw [cloneOkFs]
    | cons p fs ihfs =>
        obtain ⟨k, v⟩ := p
        intro fs1 st hsz hFA hspec hdist
        cases hFA with
        | cons _ _ w _ gs1 hcv hnv hFA2 =>
        have hszv : sizeJ v ≤ fuel := by
          simp only [sizeLF] at hsz
          omega
        have hszr : sizeLF fs ≤ fuel := by
          simp only [sizeLF] at hsz
          have := sizeJ_pos v
          omega
        have hsp : specialsOk v = true ∧ specialsFs fs = true := by
          simpa [specialsFs, Bool.and_eq_true] using hspec
        by_cases hc : isContainer v
        · have hwv : w = v := hcv hc
          obtain ⟨out, stout1, hwalk, ⟨n1, he1, hn1⟩, hok1⟩ :=
            hW v st hszv hsp.1 (fun n u hu => hdist n u (mem_groupUidsFs_left hu))
          obtain ⟨gs, stout, hrest, ⟨n2, he2, hn2⟩, hok2⟩ :=
            ihfs gs1 stout1 hszr hFA2 hsp.2
              (fun n u hu => hdist n u (mem_groupUidsFs_right hu))
          refine ⟨(k, out) :: gs, stout, ?_, ?_, ?_⟩
          · rw [show cloneFsF fresh nodeUid fuel ((k, w) :: gs1) st =
              ((k, (cloneWalkF fresh nodeUid fuel w st).1) ::
                (cloneFsF fresh nodeUid fuel gs1
                  (cloneWalkF fresh nodeUid fuel w st).2).1,
               (cloneFsF fresh nodeUid fuel gs1
                  (cloneWalkF fresh nodeUid fuel w st).2).2) from by rw [cloneFsF]]
            rw [hwv, hwalk]
            simp only [hrest]
          · exact ⟨n1 ++ n2, by rw [he2, he1, List.append_assoc], by
              intro x hx
              rcases List.mem_append.mp hx with h | h
              exacts [hn1 x h, hn2 x h]⟩
          · intro vars' hsub
            have hsub1 : ∀ x ∈ stout1.vars, x ∈ vars' := by
              intro x hx
              exact hsub x (by rw [he2]; exact List.mem_append_left _ hx)
            rw [cloneOkFs, Bool.and_eq_true, Bool.and_eq_true]
            exact ⟨⟨by simp, by rw [if_pos hc]; exact hok1 vars' hsub1⟩,
              hok2 vars' hsub⟩
        · have hncv : isContainer v = false := by
            revert hc
            cases isContainer v <;> simp
          have hnw : isContainer w = false := hnv hncv
          obtain ⟨gs, stout, hrest, hnews, hok2⟩ :=
            ihfs gs1 st hszr hFA2 hsp.2
              (fun n u hu => hdist n u (mem_groupUidsFs_right hu))
          refine ⟨(k, w) :: gs, stout, ?_, hnews, ?_⟩
          · rw [show cloneFsF fresh nodeUid fuel ((k, w) :: gs1) st =
              ((k, (cloneWalkF fresh nodeUid fuel w st).1) ::
                (cloneFsF fresh nodeUid fuel gs1
                  (cloneWalkF fresh nodeUid fuel w st).2).1,
               (cloneFsF fresh nodeUid fuel gs1
                  (cloneWalkF fresh nodeUid fuel w st).2).2) from by rw [cloneFsF]]
            rw [cloneWalkF_scalar fresh nodeUid fuel w st hnw]
            simp only [hrest]
          · intro vars' hsub
            rw [cloneOkFs, Bool.and_eq_true, Bool.and_eq_true]
            exact ⟨⟨by simp, by rw [if_neg (by rw [hncv]; simp)]⟩,
              hok2 vars' hsub⟩
  have hA : ∀ xs st, sizeLA xs ≤ fuel → specialsArr xs = true →
      (∀ n u, u ∈ groupUidsArr xs → JSON.str (fresh n) ≠ u) →
      ∃ ys stout, cloneArrF fresh nodeUid fuel xs st = (ys, stout) ∧
        (∃ newVars, stout.vars = st.vars ++ newVars ∧
          ∀ v ∈ newVars, v.nodeUid = nodeUid) ∧
        (∀ vars', (∀ v ∈ stout.vars, v ∈ vars') →
          cloneOkArr vars' nodeUid xs ys = true) := by
    intro xs
    induction xs with
    | nil =>
        intro st _ _ _
        refine ⟨[], st, by rw [cloneArrF], ⟨[], by simp, by simp⟩, ?_⟩
        intro vars' _
        rw [cloneOkArr]
    | cons v xs ihxs =>
        intro st hsz hspec hdist
        have hszv : sizeJ v ≤ fuel := by
          simp only [sizeLA] at hsz
          omega
        have hszr : sizeLA xs ≤ fuel := by
          simp only [sizeLA] at hsz
          have := sizeJ_pos v
          omega
        have hsp : specialsOk v = true ∧ specialsArr xs = true := by
          simpa [specialsArr, Bool.and_eq_true] using hspec
        obtain ⟨out, stout1, hwalk, ⟨n1, he1, hn1⟩, hok1⟩ :=
          hW v st hszv hsp.1 (fun n u hu => hdist n u (mem_groupUidsArr_left hu))
        obtain ⟨ys, stout, hrest, ⟨n2, he2, hn2⟩, hok2⟩ :=
          ihxs stout1 hszr hsp.2
            (fun n u hu => hdist n u (mem_groupUidsArr_right hu))
        refine ⟨out :: ys, stout, ?_, ?_, ?_⟩
        · rw [show cloneArrF fresh nodeUid fuel (v :: xs) st =
            ((cloneWalkF fresh nodeUid fuel v st).1 ::
              (cloneArrF fresh nodeUid fuel xs
                (cloneWalkF fresh nodeUid fuel v st).2).1,
             (cloneArrF fresh nodeUid fuel xs
                (cloneWalkF fresh nodeUid fuel v st).2).2) from by rw [cloneArrF]]
          rw [hwalk]
          simp only [hrest]
        · exact ⟨n1 ++ n2, by rw [he2, he1, List.append_assoc], by
            intro x hx
            rcases List.mem_append.mp hx with h | h
            exacts [hn1 x h, hn2 x h]⟩
        · intro vars' hsub
          have hsub1 : ∀ x ∈ stout1.vars, x ∈ vars' := by
            intro x hx
            exact hsub x (by rw [he2]; exact List.mem_append_left _ hx)
          rw [cloneOkArr, Bool.and_eq_true]
          refine ⟨?_, hok2 vars' hsub⟩
          by_cases hc : isContainer v
          · rw [if_pos hc]
            exact hok1 vars' hsub1
          · rw [if_neg (by rw [show isContainer v = false from by
              revert hc; cases isContainer v <;> simp]; simp)]
  exact ⟨hW, hF, hA⟩


/-- C7: for a resolved template grid (an object with a `'group'`
subtree whose bookkeeping fields hold scalars) and a new owning-node
uid, with the uid supply delivering 24-hex strings never colliding
with a template group uid (what `secrets.token_hex(12)` provides),
`clone_grid_from_template` completes and returns a grid whose
`node_uid` is the new node's uid and whose `'group'` subtree satisfies
`cloneOk`: every nested group (object carrying both `'uid'` and
`'variable_uid'`) ends up with `template_group_uid` equal to the
original group uid, a freshly minted 24-hex uid different from the
original, and — when the template's `variable_uid` is not null — a
`variable_uid` naming a variable of the final registry whose
`node_uid` is the new node; moreover the registry grows only by
variables created for the new node (created through `make_variable`
exactly when no matching variable existed).  The template itself is a
value, untouched — the source mutates a `deepcopy`. -/
theorem c7_clone_grid (fresh : Nat → String) (nodeUid : String)
    (fs : List (String × JSON)) (g : JSON) (st : CloneSt)
    (hg : alistGet fs "group" = some g)
    (hspec : specialsOk g = true)
    (hhex : ∀ n, isHex24 (fresh n) = true)
    (hdist : ∀ n u, u ∈ groupUids g → JSON.str (fresh n) ≠ u) :
    ∃ g2 stout,
      clone_grid fresh nodeUid (.obj fs) st = .ok
        (.obj (alistSet (alistSet fs "node_uid" (.str nodeUid)) "group" g2),
          stout) ∧
      alistGet (alistSet (alistSet fs "node_uid" (.str nodeUid)) "group" g2)
        "node_uid" = some (.str nodeUid) ∧
      alistGet (alistSet (alistSet fs "node_uid" (.str nodeUid)) "group" g2)
        "group" = some g2 ∧
      cloneOk stout.vars nodeUid g g2 = true ∧
      (∃ newVars, stout.vars = st.vars ++ newVars ∧
        ∀ v ∈ newVars, v.nodeUid = nodeUid) := by
  obtain ⟨hW, _, _⟩ := cloneWalkF_main fresh nodeUid hhex (sizeJ g)
  obtain ⟨out, stout, hwalk, hnews, hok⟩ := hW g st (le_refl _) hspec hdist
  refine ⟨out, stout, ?_, ?_, ?_, hok stout.vars (fun v hv => hv), hnews⟩
  · simp only [clone_grid, hg, hwalk]
  · rw [alistGet_set, if_neg (by decide), alistGet_set, if_pos rfl]
  · rw [alistGet_set, if_pos rfl]

def c7fresh (n : Nat) : String := "0123456789abcdef01234567"

def c7g : JSON :=
  .obj [("uid", .str "g1"), ("variable_uid", .str "v1"),
        ("group", .arr [.obj [("uid", .str "g2"), ("variable_uid", .null)]])]

theorem c7_clone_grid_witness :
    ∃ g2 stout,
      clone_grid c7fresh "node9"
        (.obj [("name", .str "grid"), ("group", c7g)]) ⟨[], 0⟩ = .ok
        (.obj (alistSet (alistSet [("name", .str "grid"), ("group", c7g)]
          "node_uid" (.str "node9")) "group" g2), stout) ∧
      alistGet (alistSet (alistSet [("name", .str "grid"), ("group", c7g)]
        "node_uid" (.str "node9")) "group" g2) "node_uid" =
          some (.str "node9") ∧
      alistGet (alistSet (alistSet [("name", .str "grid"), ("group", c7g)]
        "node_uid" (.str "node9")) "group" g2) "group" = some g2 ∧
      cloneOk stout.vars "node9" c7g g2 = true ∧
      (∃ newVars, stout.vars = ([] : List Var) ++ newVars ∧
        ∀ v ∈ newVars, v.nodeUid = "node9") :=
  c7_clone_grid c7fresh "node9" [("name", .str "grid"), ("group", c7g)] c7g
    ⟨[], 0⟩ (by decide) (by decide) (fun n => by simp only [c7fresh]; decide)
    (by
      intro n u hu
      rw [show groupUids c7g = [JSON.str "g1", JSON.str "g2"] from rfl] at hu
      rcases List.mem_cons.mp hu with he | hu2
      · rw [he]
        simp only [c7fresh]
        decide
      · rcases List.mem_cons.mp hu2 with he | h3
        · rw [he]
          simp only [c7fresh]
          decide
        · exact absurd h3 (List.not_mem_nil u))


end ETF
